import Mathlib

/-!
# smartlynq_static_ip: the configuration-file engine

A shallow embedding of `tokenizer.cpp` and `config_file.cpp`.

* A C `char` is a `Char`; a C string or `std::string` is a `List Char` (`Str`).
  The end of the list plays the part of the terminating NUL of `c_str()`.
* The fixed `char token[512]` buffers of `CTokenizer::parse` and
  `parse_to_delimeter` are modelled with their capacity: writing past the end
  is reported as `Outcome.buffer_overrun` (the C++ behaviour is undefined).
* Loops whose termination is not structural carry a fuel argument; running out
  of fuel is reported as `Outcome.out_of_fuel`, and never happens with the
  fuel the entry points supply.
* `std::map<string, strvec_t>` is an association list with unique keys.
-/

namespace SmartLynq

/-- A C string: the characters before the terminating NUL. -/
abbrev Str := List Char

/-- A `strvec_t`: a vector of strings. -/
abbrev StrVec := List Str

/-- The NUL character. -/
def NUL : Char := Char.ofNat 0
/-- The double quote character. -/
def DQUOTE : Char := Char.ofNat 34
/-- The single quote character. -/
def SQUOTE : Char := Char.ofNat 39
/-- The opening brace. -/
def LBRACE : Char := Char.ofNat 123
/-- The closing brace. -/
def RBRACE : Char := Char.ofNat 125

/-- The result of code that writes into a fixed buffer or loops on fuel. -/
inductive Outcome (α : Type) where
  | ok (v : α)
  | buffer_overrun
  | out_of_fuel
  deriving DecidableEq, Repr

/-- The character a `const char*` points at: NUL at the end of the string. -/
def peek : Str → Char
  | [] => NUL
  | c :: _ => c

/-- Pointer increment `in + 1` on a `const char*`. -/
def advance : Str → Str
  | [] => []
  | _ :: cs => cs

/-! ## tokenizer.cpp -/

/-- Source `is_eol`: nul, LF or CR. -/
def is_eol (c : Char) : Bool := c.toNat == 0 || c.toNat == 10 || c.toNat == 13

/-- Source `is_ws`: space or tab. -/
def is_ws (c : Char) : Bool := c.toNat == 32 || c.toNat == 9

/-- The loops `while (is_ws(*in)) in++`. -/
def skip_ws : Str → Str
  | [] => []
  | c :: cs => if is_ws c then skip_ws cs else c :: cs

/-- The inner loop of `CTokenizer::parse` (lines 46-67): `out` is the number of
characters already written to `token[512]`; the result is the token text from
here on and the input that remains, or `none` when a write falls outside the
buffer. -/
def scan_token (in_quotes : Char) : Nat → Str → Option (Str × Str)
  | out, [] => if out < 512 then some ([], []) else none
  | out, c :: cs =>
    if is_eol c then
      (if out < 512 then some ([], c :: cs) else none)
    else if in_quotes ≠ NUL then
      if c = in_quotes then
        (if out < 512 then some ([], cs) else none)
      else if out < 512 then
        match scan_token in_quotes (out + 1) cs with
        | some (t, r) => some (c :: t, r)
        | none => none
      else none
    else if is_ws c || c == ',' then
      (if out < 512 then some ([], c :: cs) else none)
    else if out < 512 then
      match scan_token in_quotes (out + 1) cs with
      | some (t, r) => some (c :: t, r)
      | none => none
    else none

/-- The outer loop of `CTokenizer::parse` (lines 28-77). -/
def parse_loop : Nat → Str → StrVec → Outcome StrVec
  | 0, _, _ => Outcome.out_of_fuel
  | fuel + 1, inp, result =>
    if is_eol (peek inp) then Outcome.ok result
    else
      let in1 := skip_ws inp
      if is_eol (peek in1) then Outcome.ok result
      else
        let quoted : Bool := peek in1 == DQUOTE || peek in1 == SQUOTE
        let in_quotes := if quoted then peek in1 else NUL
        let in2 := if quoted then advance in1 else in1
        match scan_token in_quotes 0 in2 with
        | none => Outcome.buffer_overrun
        | some (token, in3) =>
          let in4 := skip_ws in3
          let in5 := if peek in4 = ',' then advance in4 else in4
          parse_loop fuel in5 (result ++ [token])

/-- Source `CTokenizer::parse`. -/
def CTokenizer.parse (input : Str) : Outcome StrVec :=
  parse_loop (input.length + 1) input []

/-! ## config_file.cpp: helpers -/

/-- The effect of `c |= 32` on a letter between A and Z, identity elsewhere. -/
def lower_char (c : Char) : Char :=
  if 'A' ≤ c ∧ c ≤ 'Z' then Char.ofNat (c.toNat ||| 32) else c

/-- Source `make_lower`: walks the C string up to the first NUL. -/
def make_lower : Str → Str
  | [] => []
  | c :: cs => if c = NUL then c :: cs else lower_char c :: make_lower cs

/-- The C string held by a character buffer: what precedes the first NUL. -/
def c_str : Str → Str
  | [] => []
  | c :: cs => if c = NUL then [] else c :: c_str cs

/-- Source `parse_bool`, on the C string that `inp` points at. -/
def parse_bool (inp : Str) : Bool :=
  if '1' ≤ peek inp ∧ peek inp ≤ '9' then true
  else
    let s := make_lower (c_str inp)
    if s = "true".toList then true
    else if s = "on".toList then true
    else false

/-- The loops `while (*in == ' ') ++in` of `parse_to_delimeter` and `read`. -/
def skip_spaces : Str → Str
  | [] => []
  | c :: cs => if c = ' ' then skip_spaces cs else c :: cs

/-- The copy loop of `parse_to_delimeter` (lines 99-112): `out` is the number of
characters already written to `token[512]`; `none` when a write falls outside
the buffer. -/
def copy_to_delimeter (delimeter : Char) : Nat → Str → Option Str
  | out, [] => if out < 512 then some [] else none
  | out, c :: cs =>
    if c ≠ NUL ∧ c ≠ ' ' ∧ c ≠ delimeter then
      if out < 512 then
        match copy_to_delimeter delimeter (out + 1) cs with
        | some t => some (lower_char c :: t)
        | none => none
      else none
    else if out < 512 then some [] else none

/-- Source `parse_to_delimeter`. -/
def parse_to_delimeter (inp : Str) (delimeter : Char) : Option Str :=
  copy_to_delimeter delimeter 0 (skip_spaces inp)

/-- The statement `p = strchr(s, ch); if (p) *p = 0;`. -/
def chop_at (ch : Char) : Str → Str
  | [] => []
  | c :: cs => if c = ch then [] else c :: chop_at ch cs

/-- Source `strchr`: the string from the first occurrence of `ch` on. -/
def strchr : Str → Char → Option Str
  | [], _ => none
  | c :: cs, ch => if c = ch then some (c :: cs) else strchr cs ch

/-- What `fgets(line, size, ifile)` does once `n = size - 1` more characters
fit: the characters stored and the rest of the stream. -/
def fgets_take : Nat → Str → Str × Str
  | 0, stream => ([], stream)
  | _ + 1, [] => ([], [])
  | n + 1, c :: cs =>
    if c = '\n' then ([c], cs)
    else ((fgets_take n cs).1.cons c, (fgets_take n cs).2)

/-- Source `fgets(line, size, ifile)`: `none` is the NULL returned at end of
file. -/
def fgets (size : Nat) (stream : Str) : Option (Str × Str) :=
  match stream with
  | [] => none
  | _ :: _ => some (fgets_take (size - 1) stream)

/-- The scope separator. -/
def SCOPE : Str := [':', ':']

/-- Whether `key.find("::")` is not `npos`. -/
def has_scope : Str → Bool
  | [] => false
  | c :: cs => (c == ':' && peek cs == ':') || has_scope cs

/-- Source `std::map::find`. -/
def map_find : List (Str × StrVec) → Str → Option StrVec
  | [], _ => none
  | (k, v) :: m, key => if k = key then some v else map_find m key

/-- Source `m_specs[key] = values`. -/
def map_set : List (Str × StrVec) → Str → StrVec → List (Str × StrVec)
  | [], key, values => [(key, values)]
  | (k, v) :: m, key, values =>
    if k = key then (k, values) :: m else (k, v) :: map_set m key values

/-- Source class `CConfigFile`. -/
structure CConfigFile where
  m_throw_on_fail : Bool
  m_current_section : Str
  m_specs : List (Str × StrVec)
  deriving DecidableEq, Repr

/-- The default constructor: strict mode, nothing stored. -/
def CConfigFile.new : CConfigFile :=
  { m_throw_on_fail := true, m_current_section := [], m_specs := [] }

/-- Source `CConfigFile::throw_on_fail`. -/
def CConfigFile.throw_on_fail (cf : CConfigFile) (flag : Bool) : CConfigFile :=
  { cf with m_throw_on_fail := flag }

/-- Source `CConfigFile::set_current_section`. -/
def CConfigFile.set_current_section (cf : CConfigFile) (section_name : Str) : CConfigFile :=
  { cf with m_current_section := make_lower section_name }

/-- Source `CConfigFile::exists(key, p_result)`: the returned flag and the
content of `*p_result` on return (cleared first, filled on success). -/
def CConfigFile.exists (cf : CConfigFile) (key : Str) : Bool × StrVec :=
  let key := make_lower key
  if has_scope key then
    match map_find cf.m_specs key with
    | some v => (true, v)
    | none => (false, [])
  else
    match map_find cf.m_specs (cf.m_current_section ++ SCOPE ++ key) with
    | some v => (true, v)
    | none =>
      match map_find cf.m_specs (SCOPE ++ key) with
      | some v => (true, v)
      | none => (false, [])

/-- The text of the `runtime_error` thrown by `lookup`, as `what()` gives it:
the C string of the text built around the key, which ends at the first NUL
of the key if it holds one. -/
def not_found_message (key : Str) : Str :=
  c_str ("config key ".toList ++ [SQUOTE] ++ key ++ [SQUOTE] ++ " not found".toList)

/-- Source `CConfigFile::lookup`: `Except.error msg` is the thrown
`runtime_error(msg)`, otherwise the returned flag and `*p_result`. -/
def CConfigFile.lookup (cf : CConfigFile) (key : Str) : Except Str (Bool × StrVec) :=
  let r := cf.exists key
  if r.1 then Except.ok (true, r.2)
  else if cf.m_throw_on_fail then Except.error (not_found_message key)
  else Except.ok (false, r.2)

/-! ## config_file.cpp: reading a file -/

/-- The local variables of `CConfigFile::read` together with `m_specs`. -/
structure ReadState where
  m_specs : List (Str × StrVec)
  values : StrVec
  scoped_key_name : Str
  in_script : Bool
  parsing_section : Str
  deriving DecidableEq, Repr

/-- The body of the `while (fgets(...))` loop of `CConfigFile::read`
(lines 153-211), on the buffer that `fgets` filled. -/
def read_line (st : ReadState) (buffer : Str) : Outcome ReadState :=
  let line := chop_at '\r' (chop_at '\n' (c_str buffer))
  let p := skip_spaces line
  if peek p = NUL ∨ peek p = '#' ∨ (peek p = '/' ∧ peek (advance p) = '/') then
    Outcome.ok st
  else if peek p = '[' then
    match parse_to_delimeter (advance p) ']' with
    | none => Outcome.buffer_overrun
    | some name => Outcome.ok { st with parsing_section := name }
  else if peek p = LBRACE then
    Outcome.ok { st with values := [], in_script := true }
  else if peek p = RBRACE then
    Outcome.ok { st with
      m_specs := if st.in_script then map_set st.m_specs st.scoped_key_name st.values
                 else st.m_specs
      in_script := false }
  else if st.in_script then
    Outcome.ok { st with values := st.values ++ [p] }
  else
    match parse_to_delimeter p '=' with
    | none => Outcome.buffer_overrun
    | some base_key_name =>
      let scoped_key_name := st.parsing_section ++ SCOPE ++ base_key_name
      match strchr p '=' with
      | none =>
        Outcome.ok { st with
          scoped_key_name := scoped_key_name
          values := []
          m_specs := map_set st.m_specs scoped_key_name [] }
      | some q =>
        match CTokenizer.parse (advance q) with
        | Outcome.ok values =>
          Outcome.ok { st with
            scoped_key_name := scoped_key_name
            values := values
            m_specs := map_set st.m_specs scoped_key_name values }
        | Outcome.buffer_overrun => Outcome.buffer_overrun
        | Outcome.out_of_fuel => Outcome.out_of_fuel

/-- The loop `while (fgets(line, sizeof line, ifile))` of `CConfigFile::read`
with `char line[1000]`. -/
def read_loop : Nat → Str → ReadState → Outcome ReadState
  | 0, _, _ => Outcome.out_of_fuel
  | fuel + 1, ifile, st =>
    match fgets 1000 ifile with
    | none => Outcome.ok st
    | some (buffer, rest) =>
      match read_line st buffer with
      | Outcome.ok st1 => read_loop fuel rest st1
      | Outcome.buffer_overrun => Outcome.buffer_overrun
      | Outcome.out_of_fuel => Outcome.out_of_fuel

/-- The state in which `CConfigFile::read` enters its loop. -/
def read_init (cf : CConfigFile) : ReadState :=
  { m_specs := cf.m_specs, values := [], scoped_key_name := [],
    in_script := false, parsing_section := [] }

/-- Source `CConfigFile::read` on a file that `fopen` opened, given by its
content: the store when the call returns `true`. -/
def CConfigFile.read (cf : CConfigFile) (ifile : Str) : Outcome CConfigFile :=
  match read_loop (ifile.length + 1) ifile (read_init cf) with
  | Outcome.ok st => Outcome.ok { cf with m_specs := st.m_specs }
  | Outcome.buffer_overrun => Outcome.buffer_overrun
  | Outcome.out_of_fuel => Outcome.out_of_fuel

/-- Source `CConfigFile::get_script_vector`: the returned flag and `*p_script`,
or the thrown error. -/
def CConfigFile.get_script_vector (cf : CConfigFile) (key : Str) :
    Except Str (Bool × StrVec) :=
  match cf.lookup key with
  | Except.error e => Except.error e
  | Except.ok (found, script_lines) =>
    if found then Except.ok (true, script_lines) else Except.ok (false, [])

/-! ## config_file.cpp: the scalar decoder -/

/-- The C library `isspace` in the C locale: space, tab, LF, VT, FF, CR. -/
def isspace (c : Char) : Bool := c.toNat == 32 || (9 ≤ c.toNat && c.toNat ≤ 13)

/-- The value of a character as a digit of `strtol`: 0 to 9 for the decimal
digits, 10 to 35 for the letters of either case, 36 for any other character. -/
def digit_value (c : Char) : Nat :=
  if 48 ≤ c.toNat ∧ c.toNat ≤ 57 then c.toNat - 48
  else if 97 ≤ c.toNat ∧ c.toNat ≤ 122 then c.toNat - 87
  else if 65 ≤ c.toNat ∧ c.toNat ≤ 90 then c.toNat - 55
  else 36

/-- The loop of `strtol` over the digits of the base: the value accumulated and
whatever follows is ignored. -/
def strtol_digits (base : Nat) : Nat → Str → Nat
  | acc, [] => acc
  | acc, c :: cs =>
    if digit_value c < base then strtol_digits base (acc * base + digit_value c) cs else acc

/-- The loop `while (isspace(*s)) s++` of `strtol`. -/
def skip_isspace : Str → Str
  | [] => []
  | c :: cs => if isspace c then skip_isspace cs else c :: cs

/-- The largest `long`, with `long` of 64 bits. -/
def LONG_MAX : Int := 2 ^ 63 - 1
/-- The smallest `long`, with `long` of 64 bits. -/
def LONG_MIN : Int := -(2 ^ 63)

/-- The digits part of `strtol` with base 0: a hexadecimal numeral after `0x` or
`0X`, an octal numeral after `0`, a decimal numeral otherwise; 0 when no digit
is found. -/
def strtol_magnitude (s : Str) : Nat :=
  let hex : Bool := peek s == '0' && (peek (advance s) == 'x' || peek (advance s) == 'X') &&
    decide (digit_value (peek (advance (advance s))) < 16)
  if hex then strtol_digits 16 0 (advance (advance s))
  else if peek s == '0' then strtol_digits 8 0 s
  else strtol_digits 10 0 s

/-- The C library call `strtol(nptr, NULL, 0)` as ISO C specifies it, with
`long` of 64 bits: white space, an optional sign, the digits; the value is
clamped to the range of `long`. -/
def strtol (nptr : Str) : Int :=
  let s := skip_isspace nptr
  let negative : Bool := peek s == '-'
  let s := if peek s == '-' || peek s == '+' then advance s else s
  let acc : Nat := strtol_magnitude s
  if negative then max (-(acc : Int)) LONG_MIN else min (acc : Int) LONG_MAX

/-- The conversion of a `long` to `int`: the value modulo 2^32, in the range of
a signed 32-bit integer. -/
def to_int32 (x : Int) : Int := (x + 2 ^ 31) % 2 ^ 32 - 2 ^ 31

/-- The copy loop of `s_to_i` (lines 19-27): the characters other than `_`, as
long as `remaining` is not zero. -/
def copy_without_underscores : Str → Nat → Str
  | [], _ => []
  | c :: cs, remaining =>
    if remaining = 0 then []
    else if c ≠ '_' then c :: copy_without_underscores cs (remaining - 1)
    else copy_without_underscores cs remaining

/-- Source `s_to_i`, with `char buffer[100]`. -/
def s_to_i (s : Str) : Int :=
  to_int32 (strtol (copy_without_underscores (c_str s) 99))

/-- The C library call `strtod(nptr, NULL)` on the texts whose value is an
integer written in decimal digits: white space, an optional sign, decimal
digits; the integer returned stands for the `double` of that value. The result
is `none` where the text goes on with a fraction, an exponent or a hexadecimal
prefix, or starts a name or a radix point, or where the integer exceeds 2^53
(it need not be a `double`), which this model does not follow. -/
def strtod (nptr : Str) : Option Int :=
  let s := skip_isspace nptr
  let negative : Bool := peek s == '-'
  let s := if peek s == '-' || peek s == '+' then advance s else s
  let digits := s.takeWhile (fun c => decide (digit_value c < 10))
  let rest := s.dropWhile (fun c => decide (digit_value c < 10))
  if peek rest == '.' || peek rest == 'e' || peek rest == 'E' || peek rest == 'x' ||
      peek rest == 'X' || peek rest == 'i' || peek rest == 'I' || peek rest == 'n' ||
      peek rest == 'N' then none
  else if 2 ^ 53 < strtol_digits 10 0 digits then none
  else if negative then some (-(strtol_digits 10 0 digits : Int))
  else some (strtol_digits 10 0 digits : Int)

/-- Source `s_to_d`. -/
def s_to_d (s : Str) : Option Int := strtod (c_str s)

/-- Source `decode(const string&, int32_t*)`. -/
def decode_int (s : Str) : Int := s_to_i s
/-- Source `decode(const string&, double*)`. -/
def decode_double (s : Str) : Option Int := s_to_d s
/-- Source `decode(const string&, string*)`. -/
def decode_string (s : Str) : Str := s
/-- Source `decode(const string&, bool*)`. -/
def decode_bool (s : Str) : Bool := parse_bool (c_str s)

/-! ## config_file.cpp: typed fetches -/

/-- The value that a typed fetch writes through one output pointer. -/
inductive Cell where
  | int32 (v : Int)
  | double (v : Option Int)
  | string (v : Str)
  | boolean (v : Bool)
  deriving DecidableEq, Repr

/-- The `switch (format)` of `CConfigFile::get`: what is written through
`field`, nothing when no case matches. -/
def decode_field (format : Char) (value : Str) : Option Cell :=
  if format = 'i' then some (Cell.int32 (decode_int value))
  else if format = 'f' then some (Cell.double (decode_double value))
  else if format = 's' then some (Cell.string (decode_string value))
  else if format = 'b' then some (Cell.boolean (decode_bool value))
  else none

/-- The `for` loop of `CConfigFile::get(key, fmt, p1, .., p9)` from index `i`
on. `output` tells for each remaining pointer whether it is not NULL; the
result tells for each remaining field what the loop wrote through it, `none`
for a field it left alone. -/
def get_loop (fmt : Str) (values : StrVec) : List Bool → Nat → Char → Int → List (Option Cell)
  | [], _, _, _ => []
  | field :: rest, i, format, format_index =>
    if field = false then (field :: rest).map (fun _ => none)
    else
      let format_index := format_index + 1
      let format :=
        if format_index < (fmt.length : Int) then fmt.getD format_index.toNat format else format
      let value : Str := if values.length ≤ i then [] else c_str (values.getD i [])
      decode_field format value :: get_loop fmt values rest (i + 1) format format_index

/-- Source `CConfigFile::get(key, fmt, p1, .., p9)`: the thrown error, or the
returned flag and what was written through each of the nine pointers. A pointer
that the caller leaves out is NULL (the default argument). -/
def CConfigFile.get (cf : CConfigFile) (key fmt : Str) (output : List Bool) :
    Except Str (Bool × List (Option Cell)) :=
  let output := (output ++ List.replicate 9 false).take 9
  match cf.lookup key with
  | Except.error e => Except.error e
  | Except.ok (found, values) =>
    if found then Except.ok (true, get_loop fmt values output 0 'i' (-1))
    else Except.ok (false, output.map (fun _ => none))

/-- Source `CConfigFile::get(key, int32_t* p1, ..)`. -/
def CConfigFile.get_int32 (cf : CConfigFile) (key : Str) (output : List Bool) :
    Except Str (Bool × List (Option Cell)) :=
  cf.get key "i".toList output

/-- Source `CConfigFile::get(key, double* p1, ..)`. -/
def CConfigFile.get_double (cf : CConfigFile) (key : Str) (output : List Bool) :
    Except Str (Bool × List (Option Cell)) :=
  cf.get key "f".toList output

/-- Source `CConfigFile::get(key, string* p1, ..)`. -/
def CConfigFile.get_string (cf : CConfigFile) (key : Str) (output : List Bool) :
    Except Str (Bool × List (Option Cell)) :=
  cf.get key "s".toList output

/-- Source `CConfigFile::get(key, bool* p1, ..)`. -/
def CConfigFile.get_bool (cf : CConfigFile) (key : Str) (output : List Bool) :
    Except Str (Bool × List (Option Cell)) :=
  cf.get key "b".toList output

/-- The loop `for (i = 0; i < values.size(); ++i)` of the vector fetches:
decode `values[i]` and `push_back` the value. -/
def get_vector_loop {α : Type} (decode : Str → α) : StrVec → List α → List α
  | [], p_result => p_result
  | s :: rest, p_result => get_vector_loop decode rest (p_result ++ [decode s])

/-- The body shared by the four `CConfigFile::get(key, vector<T>*)`, which
differ in the `decode` overload only: `p_result` is the content of the
caller's vector before the call; the result is the thrown error, or the
returned flag and the content of the vector after the call. -/
def CConfigFile.get_vector {α : Type} (decode : Str → α) (cf : CConfigFile) (key : Str)
    (p_result : List α) : Except Str (Bool × List α) :=
  let p_result := p_result.drop p_result.length
  match cf.lookup key with
  | Except.error e => Except.error e
  | Except.ok (found, values) =>
    if found then Except.ok (true, get_vector_loop decode values p_result)
    else Except.ok (false, p_result)

/-- Source `CConfigFile::get(key, vector<double>*)`. -/
def CConfigFile.get_double_vector (cf : CConfigFile) (key : Str) (p_result : List (Option Int)) :
    Except Str (Bool × List (Option Int)) :=
  cf.get_vector decode_double key p_result

/-- Source `CConfigFile::get(key, vector<int32_t>*)`. -/
def CConfigFile.get_int32_vector (cf : CConfigFile) (key : Str) (p_result : List Int) :
    Except Str (Bool × List Int) :=
  cf.get_vector decode_int key p_result

/-- Source `CConfigFile::get(key, vector<string>*)`. -/
def CConfigFile.get_string_vector (cf : CConfigFile) (key : Str) (p_result : StrVec) :
    Except Str (Bool × StrVec) :=
  cf.get_vector decode_string key p_result

/-- Source `CConfigFile::get(key, vector<bool>*)`. -/
def CConfigFile.get_bool_vector (cf : CConfigFile) (key : Str) (p_result : List Bool) :
    Except Str (Bool × List Bool) :=
  cf.get_vector decode_bool key p_result

/-! ## config_file.h, config_file.cpp: the script cursor -/

/-- The members of `CConfigScript`. The class has no constructor, so a fresh
object holds any two indices. -/
structure CConfigScript where
  m_line_index : Int
  m_token_index : Int
  m_script : StrVec
  m_tokens : StrVec
  deriving DecidableEq, Repr

/-- Source `CConfigScript::rewind`. -/
def CConfigScript.rewind (cs : CConfigScript) : CConfigScript :=
  { cs with m_line_index := 0 }

/-- Source `CConfigScript::operator=`: `m_script = rhs; rewind();`. -/
def CConfigScript.assign (cs : CConfigScript) (rhs : StrVec) : CConfigScript :=
  CConfigScript.rewind { cs with m_script := rhs }

/-- Source `CConfigScript::make_empty`. -/
def CConfigScript.make_empty (cs : CConfigScript) : CConfigScript :=
  { cs with m_script := [], m_tokens := [], m_line_index := 0, m_token_index := 0 }

/-- The conversion of an `int` index to the 64-bit `size_t` with which it is
compared to `size()` and used as a subscript. -/
def to_size_t (i : Int) : Nat := (i % 2 ^ 64).toNat

/-- Source `CConfigScript::get_next_line` called with both pointers: the
cursor after the call, the returned flag, what was written to `*p_token_count`
(nothing on exhaustion) and what was written to `*p_text`. -/
def CConfigScript.get_next_line (cs : CConfigScript) :
    Outcome (CConfigScript × Bool × Option Nat × Str) :=
  if cs.m_script.length ≤ to_size_t cs.m_line_index then Outcome.ok (cs, false, none, [])
  else
    let text := cs.m_script.getD (to_size_t cs.m_line_index) []
    match CTokenizer.parse text with
    | Outcome.ok tokens =>
      Outcome.ok ({ cs with
        m_tokens := tokens, m_line_index := cs.m_line_index + 1, m_token_index := 0 },
        true, some tokens.length, text)
    | Outcome.buffer_overrun => Outcome.buffer_overrun
    | Outcome.out_of_fuel => Outcome.out_of_fuel

/-- Source `CConfigScript::get_next_token`: the cursor after the call and the
returned string. -/
def CConfigScript.get_next_token (cs : CConfigScript) (force_lowercase : Bool) :
    CConfigScript × Str :=
  if cs.m_tokens.length ≤ to_size_t cs.m_token_index then (cs, [])
  else
    let token := cs.m_tokens.getD (to_size_t cs.m_token_index) []
    ({ cs with m_token_index := cs.m_token_index + 1 },
      if force_lowercase then make_lower token else token)

/-- Source `CConfigScript::get_next_int`. -/
def CConfigScript.get_next_int (cs : CConfigScript) : CConfigScript × Int :=
  if cs.m_tokens.length ≤ to_size_t cs.m_token_index then (cs, 0)
  else
    let token := cs.m_tokens.getD (to_size_t cs.m_token_index) []
    ({ cs with m_token_index := cs.m_token_index + 1 }, decode_int token)

/-- Source `CConfigScript::get_next_float`. -/
def CConfigScript.get_next_float (cs : CConfigScript) : CConfigScript × Option Int :=
  if cs.m_tokens.length ≤ to_size_t cs.m_token_index then (cs, some 0)
  else
    let token := cs.m_tokens.getD (to_size_t cs.m_token_index) []
    ({ cs with m_token_index := cs.m_token_index + 1 }, decode_double token)

/-- Source `CConfigFile::get(key, CConfigScript*)`: the thrown error, or the
returned flag and the caller's cursor after the call. -/
def CConfigFile.get_script (cf : CConfigFile) (key : Str) (p_script : CConfigScript) :
    Except Str (Bool × CConfigScript) :=
  let p_script := p_script.make_empty
  match cf.lookup key with
  | Except.error e => Except.error e
  | Except.ok (found, script_lines) =>
    if found then Except.ok (true, p_script.assign script_lines)
    else Except.ok (false, p_script)

/-! ## config_file.cpp: the calls as they act on the members of the store -/

/-- Source `m_specs.find(key)` as a call on the map: the map after the call
and the value list that the iterator points to, `none` for `end()`. -/
def std_map_find (m : List (Str × StrVec)) (key : Str) :
    List (Str × StrVec) × Option StrVec :=
  (m, map_find m key)

/-- Source `CConfigFile::exists(key, p_result)` as a call on the object: the
object after the call, with the returned flag and `*p_result`. `key` is the
parameter, a copy of the caller's string; `m_specs` is threaded through each
`find`. -/
def CConfigFile.call_exists (cf : CConfigFile) (key : Str) : CConfigFile × (Bool × StrVec) :=
  let key := make_lower key
  if has_scope key then
    let it := std_map_find cf.m_specs key
    let cf := { cf with m_specs := it.1 }
    match it.2 with
    | some v => (cf, (true, v))
    | none => (cf, (false, []))
  else
    let it := std_map_find cf.m_specs (cf.m_current_section ++ SCOPE ++ key)
    let cf := { cf with m_specs := it.1 }
    match it.2 with
    | some v => (cf, (true, v))
    | none =>
      let it := std_map_find cf.m_specs (SCOPE ++ key)
      let cf := { cf with m_specs := it.1 }
      match it.2 with
      | some v => (cf, (true, v))
      | none => (cf, (false, []))

/-- Source `CConfigFile::lookup` as a call on the object: the object after the
call, with the thrown error or the returned flag and `*p_result`. -/
def CConfigFile.call_lookup (cf : CConfigFile) (key : Str) :
    CConfigFile × Except Str (Bool × StrVec) :=
  let r := cf.call_exists key
  let cf := r.1
  if r.2.1 then (cf, Except.ok (true, r.2.2))
  else if cf.m_throw_on_fail then (cf, Except.error (not_found_message key))
  else (cf, Except.ok (false, r.2.2))

/-- Source `CConfigFile::get(key, fmt, p1, .., p9)` as a call on the object. -/
def CConfigFile.call_get (cf : CConfigFile) (key fmt : Str) (output : List Bool) :
    CConfigFile × Except Str (Bool × List (Option Cell)) :=
  let output := (output ++ List.replicate 9 false).take 9
  let r := cf.call_lookup key
  match r.2 with
  | Except.error e => (r.1, Except.error e)
  | Except.ok (found, values) =>
    if found then (r.1, Except.ok (true, get_loop fmt values output 0 'i' (-1)))
    else (r.1, Except.ok (false, output.map (fun _ => none)))

/-- The body shared by the four `CConfigFile::get(key, vector<T>*)` as a call
on the object. -/
def CConfigFile.call_get_vector {α : Type} (decode : Str → α) (cf : CConfigFile) (key : Str)
    (p_result : List α) : CConfigFile × Except Str (Bool × List α) :=
  let p_result := p_result.drop p_result.length
  let r := cf.call_lookup key
  match r.2 with
  | Except.error e => (r.1, Except.error e)
  | Except.ok (found, values) =>
    if found then (r.1, Except.ok (true, get_vector_loop decode values p_result))
    else (r.1, Except.ok (false, p_result))

/-- Source `CConfigFile::get(key, CConfigScript*)` as a call on the object. -/
def CConfigFile.call_get_script (cf : CConfigFile) (key : Str) (p_script : CConfigScript) :
    CConfigFile × Except Str (Bool × CConfigScript) :=
  let p_script := p_script.make_empty
  let r := cf.call_lookup key
  match r.2 with
  | Except.error e => (r.1, Except.error e)
  | Except.ok (found, script_lines) =>
    if found then (r.1, Except.ok (true, p_script.assign script_lines))
    else (r.1, Except.ok (false, p_script))

/-- Source `CConfigFile::get_script_vector` as a call on the object. -/
def CConfigFile.call_get_script_vector (cf : CConfigFile) (key : Str) :
    CConfigFile × Except Str (Bool × StrVec) :=
  let r := cf.call_lookup key
  match r.2 with
  | Except.error e => (r.1, Except.error e)
  | Except.ok (found, script_lines) =>
    if found then (r.1, Except.ok (true, script_lines)) else (r.1, Except.ok (false, []))

/-! ## main.cpp: the gateway address -/

/-- The global `symbolTable`, a `std::map<string,string>`. -/
abbrev SymbolTable := List (Str × Str)

/-- Source constant `STATIC_IP`. -/
def STATIC_IP : Str := "%static_ip%".toList

/-- Source constant `GATEWAY_IP`. -/
def GATEWAY_IP : Str := "%gateway_ip%".toList

/-- Source `std::map::find` on the symbol table. -/
def sym_find : SymbolTable → Str → Option Str
  | [], _ => none
  | (k, v) :: m, key => if k = key then some v else sym_find m key

/-- Source `symbolTable[key] = value`. -/
def sym_set : SymbolTable → Str → Str → SymbolTable
  | [], key, value => [(key, value)]
  | (k, v) :: m, key, value =>
    if k = key then (k, value) :: m else (k, v) :: sym_set m key value

/-- Source `symbolTable[key]` read as a value: the table after the access (an
absent key is inserted with the empty string) and the string found. -/
def sym_index (symbolTable : SymbolTable) (key : Str) : SymbolTable × Str :=
  match sym_find symbolTable key with
  | some v => (symbolTable, v)
  | none => (sym_set symbolTable key [], [])

/-- One part of a dotted quad as `inet_pton` takes it: one to three decimal
digits that write a number of at most 255, with no leading zero before another
digit. -/
def parse_octet (p : Str) : Option Nat :=
  if p = [] then none
  else if p.all Char.isDigit = false then none
  else if 1 < p.length ∧ p.head? = some '0' then none
  else if 255 < strtol_digits 10 0 p then none
  else some (strtol_digits 10 0 p)

/-- The C library call `inet_pton(AF_INET, src, dst)`: the four octets written
to `dst` when the call returns 1, `none` when it returns 0 and leaves `dst`
as it was. The text taken is `ddd.ddd.ddd.ddd`, four decimal numbers between 0
and 255 separated by dots. -/
def inet_pton (src : Str) : Option (List Nat) :=
  match List.splitOn '.' src with
  | [p1, p2, p3, p4] =>
    match parse_octet p1, parse_octet p2, parse_octet p3, parse_octet p4 with
    | some a, some b, some c, some d => some [a, b, c, d]
    | _, _, _, _ => none
  | _ => none

/-- The C library call `inet_ntop(AF_INET, src, dst, size)` on four octets and
a buffer of 50 characters: the octets in decimal, separated by dots. -/
def inet_ntop (octet : List Nat) : Str :=
  List.intercalate ['.'] (octet.map (Nat.toDigits 10))

/-- Source `computeGatewayIP`: the symbol table after the call. `octet` is
what the local array, which is not initialised, holds on entry; it is used
where `inet_pton` takes nothing from the text. -/
def computeGatewayIP (symbolTable : SymbolTable) (octet : List Nat) : SymbolTable :=
  let ip := (sym_index symbolTable STATIC_IP).2
  let symbolTable := (sym_index symbolTable STATIC_IP).1
  let octet :=
    match inet_pton (c_str ip) with
    | some o => o
    | none => octet
  let octet := octet.set 3 1
  let buffer := inet_ntop octet
  sym_set symbolTable GATEWAY_IP buffer

/-! ## The lines of a file, as the claims speak of them -/

/-- The successive buffers that the `fgets` calls of `read` fill. -/
def fgets_all : Nat → Str → List Str
  | 0, _ => []
  | fuel + 1, ifile =>
    match fgets 1000 ifile with
    | none => []
    | some (buffer, rest) => buffer :: fgets_all fuel rest

/-- The buffers that `read` sees for a file. -/
def file_buffers (ifile : Str) : List Str := fgets_all (ifile.length + 1) ifile

/-- The loop body of `read` applied to a list of buffers in turn. -/
def run_lines : ReadState → List Str → Outcome ReadState
  | st, [] => Outcome.ok st
  | st, buffer :: rest =>
    match read_line st buffer with
    | Outcome.ok st1 => run_lines st1 rest
    | Outcome.buffer_overrun => Outcome.buffer_overrun
    | Outcome.out_of_fuel => Outcome.out_of_fuel

/-- The text of a line once `read` has chomped the buffer (lines 154-155). -/
def line_text (buffer : Str) : Str := chop_at '\r' (chop_at '\n' (c_str buffer))

/-- A key line: its first non-space character exists, is none of `#`, `[`,
the braces, and does not start `//`. -/
def key_line (line : Str) : Bool :=
  match line.dropWhile (· == ' ') with
  | [] => false
  | c :: rest =>
    c != '#' && c != '[' && c != LBRACE && c != RBRACE && !(c == '/' && rest.head? == some '/')

/-- A section-header line: its first non-space character is `[`. -/
def header_line (line : Str) : Bool :=
  (line.dropWhile (· == ' ')).head? == some '['

/-- The base key K of a key line: the run of characters from the first
non-space character up to the first space or `=`, lowercased. -/
def spec_base_key (line : Str) : Str :=
  ((line.dropWhile (· == ' ')).takeWhile (fun c => c != ' ' && c != '=')).map Char.toLower

/-- Everything after the first `=` of a line, if there is one. -/
def spec_value_text (line : Str) : Option Str :=
  if '=' ∈ line then some ((line.dropWhile (· != '=')).drop 1) else none

/-- The value list of a key line: the tokenization of what follows the first
`=`, the empty list without `=`. -/
def spec_values (line : Str) : Outcome StrVec :=
  match spec_value_text line with
  | none => Outcome.ok []
  | some text => CTokenizer.parse text

/-- The section name of a header line: the text after `[` and the spaces that
follow it, up to the next space or `]`, lowercased. -/
def header_section_name (line : Str) : Str :=
  ((((line.dropWhile (· == ' ')).drop 1).dropWhile (· == ' ')).takeWhile
    (fun c => c != ' ' && c != ']')).map Char.toLower

/-- An opening-brace line: its first non-space character is the opening brace. -/
def open_line (line : Str) : Bool :=
  (line.dropWhile (· == ' ')).head? == some LBRACE

/-- A closing-brace line: its first non-space character is the closing brace. -/
def close_line (line : Str) : Bool :=
  (line.dropWhile (· == ' ')).head? == some RBRACE

/-- A string as `parse_to_delimeter` produces them: without NUL and unchanged
by lowercasing. -/
def folded (k : Str) : Prop := NUL ∉ k ∧ k.map Char.toLower = k

/-! ## The input of the tokenizer, as claim C9 speaks of it -/

/-- One item of a comma-separated list: a word, the quote character that
encloses it if any, and the spaces and tabs written before and after it. -/
structure Piece where
  lead : Str
  quote : Option Char
  word : Str
  trail : Str

/-- The word with its quotes. -/
def Piece.body (p : Piece) : Str :=
  match p.quote with
  | none => p.word
  | some q => q :: p.word ++ [q]

/-- The text of one item. -/
def Piece.render (p : Piece) : Str := p.lead ++ p.body ++ p.trail

/-- The items joined by commas. -/
def render_pieces : List Piece → Str
  | [] => []
  | p :: ps =>
    match ps with
    | [] => p.render
    | _ :: _ => p.render ++ ',' :: render_pieces ps

/-- An item as claim C9 allows it: spaces and tabs around a non-empty word free
of space, tab, comma, quote and line-end characters, bare or within a matching
pair of single or double quotes. -/
def Piece.valid (p : Piece) : Prop :=
  (∀ c ∈ p.lead, c = ' ' ∨ c = '\t') ∧
  (∀ c ∈ p.trail, c = ' ' ∨ c = '\t') ∧
  (p.quote = none ∨ p.quote = some SQUOTE ∨ p.quote = some DQUOTE) ∧
  p.word ≠ [] ∧
  ∀ c ∈ p.word, c ≠ ' ' ∧ c ≠ '\t' ∧ c ≠ ',' ∧ c ≠ SQUOTE ∧ c ≠ DQUOTE ∧
    c ≠ NUL ∧ c ≠ '\n' ∧ c ≠ '\r'

instance (p : Piece) : Decidable p.valid := by
  unfold Piece.valid
  infer_instance

/-! ## Numerals, as the claims speak of them -/

/-- The value of a string of digits in a base. -/
def numeral_value (base : Nat) (ds : Str) : Nat :=
  Nat.ofDigits base ((ds.map digit_value).reverse)

/-- Whether a text begins with a numeral as `strtol` reads one: after any
leading white space and an optional sign, a decimal digit. -/
def begins_numeral : Str → Bool
  | [] => false
  | c :: cs =>
    if isspace c then begins_numeral cs
    else if c = '-' ∨ c = '+' then (peek cs).isDigit
    else c.isDigit

/-! ## Calls on a script cursor, as the claims speak of them -/

/-- The tokens of a line where the tokenizer returns. -/
def tokens_of (line : Str) : StrVec :=
  match CTokenizer.parse line with
  | Outcome.ok tokens => tokens
  | Outcome.buffer_overrun => []
  | Outcome.out_of_fuel => []

/-- What one call of `get_next_line` reports: the returned flag, the token
count written and the text written. -/
abbrev LineReport := Bool × Option Nat × Str

/-- Successive calls of `get_next_line`: the cursor after `k` calls and what
each call reported. -/
def CConfigScript.next_lines : CConfigScript → Nat →
    Outcome (CConfigScript × List LineReport)
  | cs, 0 => Outcome.ok (cs, [])
  | cs, k + 1 =>
    match cs.get_next_line with
    | Outcome.ok (cs1, r) =>
      match cs1.next_lines k with
      | Outcome.ok (cs2, rs) => Outcome.ok (cs2, r :: rs)
      | Outcome.buffer_overrun => Outcome.buffer_overrun
      | Outcome.out_of_fuel => Outcome.out_of_fuel
    | Outcome.buffer_overrun => Outcome.buffer_overrun
    | Outcome.out_of_fuel => Outcome.out_of_fuel

/-- A fetch from the current line: a token, with the lowercase flag, or an
integer. -/
inductive Fetch where
  | token (force_lowercase : Bool)
  | int
  deriving DecidableEq, Repr

/-- One fetch on a cursor: the cursor afterwards and the value returned. -/
def CConfigScript.fetch (cs : CConfigScript) : Fetch → CConfigScript × Cell
  | Fetch.token f => ((cs.get_next_token f).1, Cell.string (cs.get_next_token f).2)
  | Fetch.int => (cs.get_next_int.1, Cell.int32 cs.get_next_int.2)

/-- The values returned by successive fetches. -/
def CConfigScript.fetches : CConfigScript → List Fetch → List Cell
  | _, [] => []
  | cs, f :: fs => (cs.fetch f).2 :: (cs.fetch f).1.fetches fs

/-- The value due to a fetch at position `k` of a line with the tokens `toks`:
token `k`, lowercased on demand or decoded, and the empty string or 0 past the
last token. -/
def fetch_value (toks : StrVec) (k : Nat) : Fetch → Cell
  | Fetch.token f =>
    Cell.string (if k < toks.length then
      (if f then (toks.getD k []).map Char.toLower else toks.getD k []) else [])
  | Fetch.int => Cell.int32 (if k < toks.length then decode_int (toks.getD k []) else 0)

/-! ## Keys, comment lines and calls on a store, as the claims speak of them -/

/-- A blank line or a comment line: nothing but spaces, or `#` as first
non-space character, or `//` as first two non-space characters. -/
def comment_line (line : Str) : Bool :=
  match line.dropWhile (· == ' ') with
  | [] => true
  | c :: rest => c == '#' || (c == '/' && rest.head? == some '/')

/-- The calls that a client makes on a store once the file is read. -/
inductive Call where
  | exists (key : Str)
  | lookup (key : Str)
  | get (key fmt : Str) (output : List Bool)
  | get_int32 (key : Str) (output : List Bool)
  | get_double (key : Str) (output : List Bool)
  | get_string (key : Str) (output : List Bool)
  | get_bool (key : Str) (output : List Bool)
  | get_int32_vector (key : Str) (p_result : List Int)
  | get_double_vector (key : Str) (p_result : List (Option Int))
  | get_string_vector (key : Str) (p_result : StrVec)
  | get_bool_vector (key : Str) (p_result : List Bool)
  | get_script (key : Str) (p_script : CConfigScript)
  | get_script_vector (key : Str)
  | set_current_section (section_name : Str)

/-- The store after a call, whether the call returns or throws: the object
that the call, followed through its body, leaves. The typed scalar fetches
are the format fetch under their letter, the vector fetches the shared body
under their decoder. -/
def CConfigFile.after (cf : CConfigFile) : Call → CConfigFile
  | Call.exists key => (cf.call_exists key).1
  | Call.lookup key => (cf.call_lookup key).1
  | Call.get key fmt output => (cf.call_get key fmt output).1
  | Call.get_int32 key output => (cf.call_get key "i".toList output).1
  | Call.get_double key output => (cf.call_get key "f".toList output).1
  | Call.get_string key output => (cf.call_get key "s".toList output).1
  | Call.get_bool key output => (cf.call_get key "b".toList output).1
  | Call.get_int32_vector key p_result => (cf.call_get_vector decode_int key p_result).1
  | Call.get_double_vector key p_result => (cf.call_get_vector decode_double key p_result).1
  | Call.get_string_vector key p_result => (cf.call_get_vector decode_string key p_result).1
  | Call.get_bool_vector key p_result => (cf.call_get_vector decode_bool key p_result).1
  | Call.get_script key p_script => (cf.call_get_script key p_script).1
  | Call.get_script_vector key => (cf.call_get_script_vector key).1
  | Call.set_current_section section_name => cf.set_current_section section_name

/-- The dotted quad of four octets. -/
def dotted_quad (a b c d : Nat) : Str :=
  Nat.toDigits 10 a ++ '.' :: (Nat.toDigits 10 b ++ '.' :: (Nat.toDigits 10 c ++ '.' ::
    Nat.toDigits 10 d))

/-! ## Turns of the tokenizer, comma-separated fields and format letters, as the claims speak of them -/

/-- What one turn of the outer loop of the tokenizer does. -/
inductive Turn where
  | stop
  | overrun
  | token (t : Str) (rest : Str)
  deriving DecidableEq, Repr

/-- One turn of the outer loop of `CTokenizer::parse`, entered on `inp`: the
loop stops when only spaces and tabs are left before the end of the line;
otherwise the turn yields a token and the input left for the next turn, or
writes past the token buffer. -/
def parse_turn (inp : Str) : Turn :=
  let in1 := skip_ws inp
  if is_eol (peek in1) then Turn.stop
  else
    let quoted : Bool := peek in1 == DQUOTE || peek in1 == SQUOTE
    let in_quotes := if quoted then peek in1 else NUL
    let in2 := if quoted then advance in1 else in1
    match scan_token in_quotes 0 in2 with
    | none => Turn.overrun
    | some (token, in3) =>
      let in4 := skip_ws in3
      let in5 := if peek in4 = ',' then advance in4 else in4
      Turn.token token in5

/-- The words joined by single commas. -/
def join_commas : StrVec → Str
  | [] => []
  | w :: ws =>
    match ws with
    | [] => w
    | _ :: _ => w ++ ',' :: join_commas ws

/-- The format letter for field `i` as the claim has it: `fmt[i]` while `fmt`
lasts, then the last letter of `fmt`, and `i` when `fmt` is empty. -/
def format_letter (fmt : Str) (i : Nat) : Char :=
  if i < fmt.length then fmt.getD i 'i' else fmt.getLast?.getD 'i'

/-! # Theorems -/

/-! ## Characters and lowercasing -/

theorem char_le_iff (a b : Char) : a ≤ b ↔ a.toNat ≤ b.toNat := by
  rw [Char.le_def, UInt32.le_def]
  rfl

/-- On a letter `c |= 32` is the ASCII lowercase letter: `lower_char` is the
library `Char.toLower`. -/
theorem lower_char_eq_toLower (c : Char) : lower_char c = c.toLower := by
  unfold lower_char Char.toLower
  have hA : 'A'.toNat = 65 := by decide
  have hZ : 'Z'.toNat = 90 := by decide
  by_cases h : 65 ≤ c.toNat ∧ c.toNat ≤ 90
  · have h' : 'A' ≤ c ∧ c ≤ 'Z' := by
      rw [char_le_iff, char_le_iff, hA, hZ]; exact h
    simp only [h, h', and_self, if_true, ge_iff_le]
    obtain ⟨h1, h2⟩ := h
    generalize c.toNat = n at h1 h2
    interval_cases n <;> rfl
  · have h' : ¬ ('A' ≤ c ∧ c ≤ 'Z') := by
      rw [char_le_iff, char_le_iff, hA, hZ]; exact h
    simp only [h, h', if_false, ge_iff_le]

/-- On a string without NUL, `make_lower` lowercases every character. -/
theorem make_lower_eq_map (s : Str) (h : NUL ∉ s) : make_lower s = s.map Char.toLower := by
  induction s with
  | nil => rfl
  | cons c cs ih =>
    have hc : c ≠ NUL := fun e => h (by simp [e])
    have hcs : NUL ∉ cs := fun e => h (List.mem_cons_of_mem _ e)
    simp [make_lower, hc, ih hcs, lower_char_eq_toLower]

/-- The scan `has_scope` finds the separator exactly when it occurs in the key. -/
theorem has_scope_iff (k : Str) : has_scope k = true ↔ SCOPE <:+: k := by
  induction k with
  | nil => simp [has_scope, SCOPE]
  | cons c cs ih =>
    rw [List.infix_cons_iff, ← ih]
    cases cs with
    | nil => simp [has_scope, SCOPE, peek, NUL]
    | cons d ds =>
      simp only [has_scope, SCOPE, peek, Bool.or_eq_true, Bool.and_eq_true, beq_iff_eq,
        List.cons_prefix_cons, List.nil_prefix, and_true]
      constructor
      · rintro (⟨h1, h2⟩ | h)
        · exact Or.inl ⟨h1.symm, h2.symm⟩
        · exact Or.inr h
      · rintro (⟨h1, h2⟩ | h)
        · exact Or.inl ⟨h1.symm, h2.symm⟩
        · exact Or.inr h

/-! ## Lookup -/

/-- When `exists` reports not-found, the result vector it leaves is empty. -/
theorem exists_snd_of_not_found (cf : CConfigFile) (key : Str)
    (h : (cf.exists key).1 = false) : (cf.exists key).2 = [] := by
  unfold CConfigFile.exists at h ⊢
  simp only at h ⊢
  split at h <;> split at h <;> simp_all
  split at h <;> simp_all

/-- C1: with `k'` the key as `make_lower` folds it (on a key without NUL: every
ASCII letter lowercased), a key containing `::` is looked up exactly as `k'` with
no fallback; any other key resolves to the entry `S::k'` of the current
section, else to the global entry `::k'`, else to not-found. The value list
returned is the one of the first scope that matches. -/
theorem exists_resolution_order (cf : CConfigFile) (k : Str) :
    (NUL ∉ k → make_lower k = k.map Char.toLower) ∧
    (SCOPE <:+: make_lower k →
      cf.exists k =
        match map_find cf.m_specs (make_lower k) with
        | some v => (true, v)
        | none => (false, [])) ∧
    (¬ SCOPE <:+: make_lower k →
      cf.exists k =
        match map_find cf.m_specs (cf.m_current_section ++ SCOPE ++ make_lower k) with
        | some v => (true, v)
        | none =>
          match map_find cf.m_specs (SCOPE ++ make_lower k) with
          | some v => (true, v)
          | none => (false, [])) := by
  refine ⟨make_lower_eq_map k, ?_, ?_⟩
  · intro h
    have hs := (has_scope_iff _).2 h
    simp [CConfigFile.exists, hs]
  · intro h
    have hs : has_scope (make_lower k) = false := by
      cases hb : has_scope (make_lower k) with
      | false => rfl
      | true => exact absurd ((has_scope_iff _).1 hb) h
    simp [CConfigFile.exists, hs]

/-- C1 at a store holding `net::ip`, `net::mask` and the global `::ip`, current
section `net`: the scoped key `NET::Mask` and the unscoped key `IP`. -/
theorem exists_resolution_order_witness :
    let cf : CConfigFile :=
      { m_throw_on_fail := true, m_current_section := "net".toList,
        m_specs := [("net::ip".toList, ["10.0.0.2".toList]),
                    ("::ip".toList, ["10.0.0.1".toList]),
                    ("net::mask".toList, ["255.0.0.0".toList])] }
    cf.exists "NET::Mask".toList = (true, ["255.0.0.0".toList]) ∧
    cf.exists "IP".toList = (true, ["10.0.0.2".toList]) := by
  intro cf
  have h1 := (exists_resolution_order cf "NET::Mask".toList).2.1 (by decide)
  have h2 := (exists_resolution_order cf "IP".toList).2.2 (by decide)
  exact ⟨h1.trans (by decide), h2.trans (by decide)⟩

/-! ## The loop body of `read` -/

theorem skip_spaces_eq (s : Str) : skip_spaces s = s.dropWhile (· == ' ') := by
  induction s with
  | nil => rfl
  | cons c cs ih =>
    by_cases h : c = ' '
    · simp [skip_spaces, h, ih]
    · simp [skip_spaces, h, List.dropWhile_cons]

theorem c_str_no_nul (s : Str) : NUL ∉ c_str s := by
  induction s with
  | nil => simp [c_str]
  | cons c cs ih =>
    by_cases h : c = NUL
    · simp [c_str, h]
    · simp [c_str, h, ih]; exact fun e => h e.symm

theorem mem_of_mem_chop_at (ch c : Char) (s : Str) (h : c ∈ chop_at ch s) : c ∈ s := by
  induction s with
  | nil => simp [chop_at] at h
  | cons d ds ih =>
    by_cases hd : d = ch
    · simp [chop_at, hd] at h
    · simp only [chop_at, hd, if_false, List.mem_cons] at h ⊢
      rcases h with h | h
      · exact Or.inl h
      · exact Or.inr (ih h)

theorem line_text_no_nul (b : Str) : NUL ∉ line_text b := fun h =>
  c_str_no_nul b (mem_of_mem_chop_at _ _ _ (mem_of_mem_chop_at _ _ _ h))

theorem peek_eq_nul_iff (s : Str) (h : NUL ∉ s) : peek s = NUL ↔ s = [] := by
  cases s with
  | nil => simp [peek]
  | cons c cs =>
    simp only [peek, reduceCtorEq, iff_false]
    exact fun e => h (by simp [e])

theorem mem_of_mem_dropWhile {α : Type} (q : α → Bool) (a : α) (l : List α)
    (h : a ∈ l.dropWhile q) : a ∈ l :=
  (List.dropWhile_sublist q).subset h

theorem copy_to_delimeter_eq (d : Char) (s : Str) (h : NUL ∉ s) (out : Nat) :
    copy_to_delimeter d out s =
      if out + (s.takeWhile (fun c => c != ' ' && c != d)).length < 512 then
        some ((s.takeWhile (fun c => c != ' ' && c != d)).map Char.toLower)
      else none := by
  induction s generalizing out with
  | nil => simp [copy_to_delimeter]
  | cons c cs ih =>
    have hc : c ≠ NUL := fun e => h (by simp [e])
    have hcs : NUL ∉ cs := fun e => h (List.mem_cons_of_mem _ e)
    by_cases hcond : c ≠ ' ' ∧ c ≠ d
    · have hb : (c != ' ' && c != d) = true := by simp [hcond.1, hcond.2]
      simp only [copy_to_delimeter, hc, hcond.1, hcond.2, ne_eq, not_false_eq_true, and_self,
        if_true, List.takeWhile_cons, hb, List.length_cons, List.map_cons]
      rw [ih hcs (out + 1)]
      by_cases h1 : out + ((cs.takeWhile (fun c => c != ' ' && c != d)).length + 1) < 512
      · have h2 : out < 512 := by omega
        have h3 : out + 1 + (cs.takeWhile (fun c => c != ' ' && c != d)).length < 512 := by omega
        simp [h1, h2, h3, lower_char_eq_toLower]
      · have h3 : ¬ out + 1 + (cs.takeWhile (fun c => c != ' ' && c != d)).length < 512 := by omega
        simp [h1, h3]
    · have hb : (c != ' ' && c != d) = false := by
        by_cases h1 : c = ' '
        · simp [h1]
        · have h2 : c = d := by
            by_contra h2; exact hcond ⟨h1, h2⟩
          simp [h2]
      have hcond' : ¬ (c ≠ NUL ∧ c ≠ ' ' ∧ c ≠ d) := fun e => hcond e.2
      simp only [copy_to_delimeter, hcond', if_false, List.takeWhile_cons, hb, List.length_nil,
        Nat.add_zero, List.map_nil]
      simp

theorem strchr_eq (s : Str) (ch : Char) :
    strchr s ch = if ch ∈ s then some (s.dropWhile (· != ch)) else none := by
  induction s with
  | nil => simp [strchr]
  | cons c cs ih =>
    by_cases h : c = ch
    · simp [strchr, h, List.dropWhile_cons]
    · have h' : ¬ ch = c := fun e => h e.symm
      simp [strchr, h, h', ih, List.dropWhile_cons]

theorem dropWhile_spaces_idem (l : Str) :
    skip_spaces (l.dropWhile (· == ' ')) = l.dropWhile (· == ' ') := by
  rw [skip_spaces_eq, List.dropWhile_idempotent]

theorem dropWhile_ne_of_dropWhile_space (ch : Char) (hch : ch ≠ ' ') (l : Str) :
    (l.dropWhile (· == ' ')).dropWhile (· != ch) = l.dropWhile (· != ch) := by
  induction l with
  | nil => rfl
  | cons c cs ih =>
    by_cases h : c = ' '
    · have : ¬ (' ' : Char) = ch := fun e => hch e.symm
      simp [h, List.dropWhile_cons, ih, this]
    · simp [h, List.dropWhile_cons]

theorem mem_dropWhile_space_iff (ch : Char) (hch : ch ≠ ' ') (l : Str) :
    ch ∈ l.dropWhile (· == ' ') ↔ ch ∈ l := by
  induction l with
  | nil => simp
  | cons c cs ih =>
    by_cases h : c = ' '
    · simp [h, List.dropWhile_cons, ih, hch]
    · simp [h, List.dropWhile_cons]

theorem peek_eq_iff_head (s : Str) (ch : Char) (hch : ch ≠ NUL) :
    peek s = ch ↔ s.head? = some ch := by
  cases s with
  | nil => simp [peek]; exact fun e => hch e.symm
  | cons c cs => simp [peek]

theorem advance_eq_drop (s : Str) : advance s = s.drop 1 := by
  cases s <;> rfl

/-- The loop body on a key line read outside a script block. -/
theorem read_line_key (st : ReadState) (b : Str) (hdef : st.in_script = false)
    (hkey : key_line (line_text b) = true) :
    read_line st b =
      if (spec_base_key (line_text b)).length < 512 then
        match spec_values (line_text b) with
        | Outcome.ok values =>
          Outcome.ok { st with
            scoped_key_name := st.parsing_section ++ SCOPE ++ spec_base_key (line_text b)
            values := values
            m_specs := map_set st.m_specs
              (st.parsing_section ++ SCOPE ++ spec_base_key (line_text b)) values }
        | Outcome.buffer_overrun => Outcome.buffer_overrun
        | Outcome.out_of_fuel => Outcome.out_of_fuel
      else Outcome.buffer_overrun := by
  have hnul := line_text_no_nul b
  unfold read_line
  simp only []
  rw [show chop_at '\r' (chop_at '\n' (c_str b)) = line_text b from rfl]
  unfold key_line at hkey
  unfold spec_base_key spec_values spec_value_text
  rw [skip_spaces_eq]
  have hmem := mem_dropWhile_space_iff '=' (by decide) (line_text b)
  have hdrop := dropWhile_ne_of_dropWhile_space '=' (by decide) (line_text b)
  have hsub : ∀ x, x ∈ (line_text b).dropWhile (· == ' ') → x ≠ NUL := fun x hx e =>
    hnul (e ▸ mem_of_mem_dropWhile _ _ _ hx)
  have hidem := dropWhile_spaces_idem (line_text b)
  generalize (line_text b).dropWhile (· == ' ') = p at hkey hmem hdrop hsub hidem
  generalize line_text b = l at hmem hdrop
  cases p with
  | nil => simp at hkey
  | cons c rest =>
    simp only [Bool.and_eq_true, bne_iff_ne, ne_eq, Bool.not_eq_true', Bool.and_eq_false_imp,
      beq_iff_eq] at hkey
    obtain ⟨⟨⟨⟨h1, h2⟩, h3⟩, h4⟩, h5⟩ := hkey
    have hc : c ≠ NUL := hsub c (by simp)
    have e1 : peek (c :: rest) = c := rfl
    have e2 : advance (c :: rest) = rest := rfl
    have hcond : ¬ (c = NUL ∨ c = '#' ∨ (c = '/' ∧ peek rest = '/')) := by
      rintro (e | e | ⟨e1, e2⟩)
      · exact hc e
      · exact h1 e
      · have := (peek_eq_iff_head rest '/' (by decide)).1 e2
        simp [e1, this] at h5
    rw [e1, e2, if_neg hcond, if_neg h2, if_neg h3, if_neg h4, hdef]
    simp only [Bool.false_eq_true, if_false, parse_to_delimeter, hidem]
    have hcnul : NUL ∉ c :: rest := fun e => hsub NUL e rfl
    rw [copy_to_delimeter_eq '=' (c :: rest) hcnul 0, strchr_eq]
    simp only [Nat.zero_add, List.length_map, hmem, hdrop]
    by_cases hfit : ((c :: rest).takeWhile (fun c => c != ' ' && c != '=')).length < 512
    · simp only [hfit, if_true]
      by_cases heq : '=' ∈ l
      · simp only [heq, if_true, advance_eq_drop]
      · simp only [heq, if_false]
    · simp only [hfit, if_false]

/-- The loop body on a section-header line. -/
theorem read_line_header (st : ReadState) (b : Str) (hh : header_line (line_text b) = true) :
    read_line st b =
      if (header_section_name (line_text b)).length < 512 then
        Outcome.ok { st with parsing_section := header_section_name (line_text b) }
      else Outcome.buffer_overrun := by
  have hnul := line_text_no_nul b
  unfold read_line
  simp only []
  rw [show chop_at '\r' (chop_at '\n' (c_str b)) = line_text b from rfl]
  unfold header_line at hh
  unfold header_section_name
  rw [skip_spaces_eq]
  have hsub : ∀ x, x ∈ (line_text b).dropWhile (· == ' ') → x ≠ NUL := fun x hx e =>
    hnul (e ▸ mem_of_mem_dropWhile _ _ _ hx)
  generalize (line_text b).dropWhile (· == ' ') = p at hh hsub
  cases p with
  | nil => simp at hh
  | cons c rest =>
    simp only [List.head?_cons, beq_iff_eq, Option.some.injEq] at hh
    subst hh
    have e1 : peek ('[' :: rest) = '[' := rfl
    have e2 : advance ('[' :: rest) = rest := rfl
    have hcond : ¬ (('[' : Char) = NUL ∨ ('[' : Char) = '#' ∨
        (('[' : Char) = '/' ∧ peek rest = '/')) := by
      rintro (e | e | ⟨e, -⟩) <;> exact absurd e (by decide)
    rw [e1, e2, if_neg hcond, if_pos rfl]
    have hrest : NUL ∉ rest.dropWhile (· == ' ') := fun e =>
      hsub NUL (List.mem_cons_of_mem _ (mem_of_mem_dropWhile _ _ _ e)) rfl
    simp only [parse_to_delimeter, skip_spaces_eq, List.drop_one, List.tail_cons]
    rw [copy_to_delimeter_eq ']' _ hrest 0]
    simp only [Nat.zero_add, List.length_map]
    by_cases hfit : ((rest.dropWhile (· == ' ')).takeWhile
        (fun c => c != ' ' && c != ']')).length < 512
    · simp only [hfit, if_true]
    · simp only [hfit, if_false]

theorem key_line_not_header (l : Str) (h : key_line l = true) : header_line l = false := by
  unfold key_line at h
  unfold header_line
  cases hp : l.dropWhile (· == ' ') with
  | nil => simp
  | cons c rest =>
    rw [hp] at h
    simp only [Bool.and_eq_true, bne_iff_ne, ne_eq] at h
    simp [h.1.1.1.2]

/-- Every way in which the loop body can complete on a buffer. -/
theorem read_line_ok_cases (st st1 : ReadState) (b : Str)
    (h : read_line st b = Outcome.ok st1) :
    (header_line (line_text b) = false ∧ st1 = st) ∨
    (header_line (line_text b) = true ∧
      st1 = { st with parsing_section := header_section_name (line_text b) }) ∨
    (header_line (line_text b) = false ∧ st1 = { st with values := [], in_script := true }) ∨
    (header_line (line_text b) = false ∧ close_line (line_text b) = true ∧
      st1 = { st with
        m_specs := if st.in_script then map_set st.m_specs st.scoped_key_name st.values
                   else st.m_specs
        in_script := false }) ∨
    (header_line (line_text b) = false ∧ st.in_script = true ∧
      st1 = { st with values := st.values ++ [(line_text b).dropWhile (· == ' ')] }) ∨
    (header_line (line_text b) = false ∧ st.in_script = false ∧
      key_line (line_text b) = true ∧
      (spec_base_key (line_text b)).length < 512 ∧
      ∃ V, spec_values (line_text b) = Outcome.ok V ∧
        st1 = { st with
          scoped_key_name := st.parsing_section ++ SCOPE ++ spec_base_key (line_text b)
          values := V
          m_specs := map_set st.m_specs
            (st.parsing_section ++ SCOPE ++ spec_base_key (line_text b)) V }) := by
  by_cases hh : header_line (line_text b) = true
  · rw [read_line_header st b hh] at h
    split at h
    · injection h with h
      exact Or.inr (Or.inl ⟨hh, h.symm⟩)
    · cases h
  · have hh' : header_line (line_text b) = false := by simpa using hh
    by_cases hk : key_line (line_text b) = true ∧ st.in_script = false
    · rw [read_line_key st b hk.2 hk.1] at h
      split at h
      · rename_i hfit
        cases hv : spec_values (line_text b) with
        | ok V =>
          rw [hv] at h
          injection h with h
          exact Or.inr (Or.inr (Or.inr (Or.inr (Or.inr
            ⟨hh', hk.2, hk.1, hfit, V, rfl, h.symm⟩))))
        | buffer_overrun => rw [hv] at h; cases h
        | out_of_fuel => rw [hv] at h; cases h
      · cases h
    · have hnul := line_text_no_nul b
      unfold read_line at h
      simp only [] at h
      rw [show chop_at '\r' (chop_at '\n' (c_str b)) = line_text b from rfl] at h
      have hhf := hh'
      have hcl : close_line (line_text b) =
          (((line_text b).dropWhile (· == ' ')).head? == some RBRACE) := rfl
      unfold header_line at hh'
      unfold key_line at hk
      rw [skip_spaces_eq] at h
      have hsub : ∀ x, x ∈ (line_text b).dropWhile (· == ' ') → x ≠ NUL := fun x hx e =>
        hnul (e ▸ mem_of_mem_dropWhile _ _ _ hx)
      generalize (line_text b).dropWhile (· == ' ') = p at h hh' hk hsub hcl
      cases p with
      | nil =>
        simp only [peek, true_or, if_true] at h
        injection h with h
        exact Or.inl ⟨hhf, h.symm⟩
      | cons c rest =>
        have e1 : peek (c :: rest) = c := rfl
        have e2 : advance (c :: rest) = rest := rfl
        rw [e1, e2] at h
        have hc2 : ¬ c = '[' := by simpa using hh'
        split at h
        · injection h with h
          exact Or.inl ⟨hhf, h.symm⟩
        · rename_i hcond
          try rw [if_neg hc2] at h
          split at h
          · injection h with h
            exact Or.inr (Or.inr (Or.inl ⟨hhf, h.symm⟩))
          · rename_i hc3
            split at h
            · rename_i hc4
              injection h with h
              exact Or.inr (Or.inr (Or.inr (Or.inl ⟨hhf, by rw [hcl, hc4]; rfl, h.symm⟩)))
            · rename_i hc4
              split at h
              · rename_i hs
                injection h with h
                exact Or.inr (Or.inr (Or.inr (Or.inr (Or.inl ⟨hhf, hs, h.symm⟩))))
              · rename_i hs
                exfalso
                apply hk
                refine ⟨?_, by simpa using hs⟩
                have h1 : ¬ c = '#' := fun e => hcond (Or.inr (Or.inl e))
                have h5 : ¬ (c = '/' ∧ rest.head? = some '/') := fun e =>
                  hcond (Or.inr (Or.inr ⟨e.1, (peek_eq_iff_head rest '/' (by decide)).2 e.2⟩))
                simp only [Bool.and_eq_true, bne_iff_ne, ne_eq, h1, hc2, hc3, hc4,
                  not_false_eq_true, and_self, Bool.not_eq_true', true_and]
                by_cases e : c = '/'
                · have : ¬ rest.head? = some '/' := fun e' => h5 ⟨e, e'⟩
                  simp [e, this]
                · simp [e]

/-! ## The loop of `read` -/

theorem fgets_take_length (n : Nat) (s : Str) :
    ((fgets_take n s).2).length + min n 1 ≤ s.length + (if s = [] then min n 1 else 0) := by
  induction n generalizing s with
  | zero => simp [fgets_take]
  | succ n ih =>
    cases s with
    | nil => simp [fgets_take]
    | cons c cs =>
      by_cases h : c = '\n'
      · simp [fgets_take, h]
      · simp only [fgets_take, h, if_false, List.length_cons, reduceCtorEq]
        have := ih cs
        split at this <;> simp at this ⊢ <;> omega

theorem fgets_rest_lt (s b r : Str) (h : fgets 1000 s = some (b, r)) : r.length < s.length := by
  unfold fgets at h
  cases s with
  | nil => simp at h
  | cons c cs =>
    simp only [Option.some.injEq] at h
    have := fgets_take_length 999 (c :: cs)
    rw [h] at this
    simp at this ⊢
    omega

theorem read_loop_eq_run_lines (fuel : Nat) (s : Str) (st : ReadState) (h : s.length < fuel) :
    read_loop fuel s st = run_lines st (fgets_all fuel s) := by
  induction fuel generalizing s st with
  | zero => omega
  | succ fuel ih =>
    unfold read_loop fgets_all
    cases hf : fgets 1000 s with
    | none => rfl
    | some br =>
      obtain ⟨b, r⟩ := br
      have hlt := fgets_rest_lt s b r hf
      simp only [run_lines]
      cases read_line st b with
      | ok st1 => exact ih r st1 (by omega)
      | buffer_overrun => rfl
      | out_of_fuel => rfl

/-- The call `read` is the loop body run over the buffers of the file. -/
theorem read_eq_run_lines (cf : CConfigFile) (ifile : Str) :
    cf.read ifile =
      match run_lines (read_init cf) (file_buffers ifile) with
      | Outcome.ok st => Outcome.ok { cf with m_specs := st.m_specs }
      | Outcome.buffer_overrun => Outcome.buffer_overrun
      | Outcome.out_of_fuel => Outcome.out_of_fuel := by
  unfold CConfigFile.read file_buffers
  rw [read_loop_eq_run_lines _ _ _ (Nat.lt_succ_self _)]

theorem run_lines_append (st : ReadState) (xs ys : List Str) :
    run_lines st (xs ++ ys) =
      match run_lines st xs with
      | Outcome.ok st1 => run_lines st1 ys
      | Outcome.buffer_overrun => Outcome.buffer_overrun
      | Outcome.out_of_fuel => Outcome.out_of_fuel := by
  induction xs generalizing st with
  | nil => rfl
  | cons x xs ih =>
    simp only [List.cons_append, run_lines]
    cases read_line st x with
    | ok st1 => exact ih st1
    | buffer_overrun => rfl
    | out_of_fuel => rfl

theorem map_find_set_self (m : List (Str × StrVec)) (k : Str) (v : StrVec) :
    map_find (map_set m k v) k = some v := by
  induction m with
  | nil => simp [map_set, map_find]
  | cons e m ih =>
    obtain ⟨k1, v1⟩ := e
    by_cases h : k1 = k
    · simp [map_set, map_find, h]
    · simp [map_set, map_find, h, ih]

theorem map_find_set_other (m : List (Str × StrVec)) (k k2 : Str) (v : StrVec) (hk : k2 ≠ k) :
    map_find (map_set m k v) k2 = map_find m k2 := by
  induction m with
  | nil =>
    have : ¬ k = k2 := fun e => hk e.symm
    simp [map_set, map_find, this]
  | cons e m ih =>
    obtain ⟨k1, v1⟩ := e
    by_cases h : k1 = k
    · have : ¬ k = k2 := fun e => hk e.symm
      simp [map_set, map_find, h, this]
    · by_cases h2 : k1 = k2
      · subst h2
        simp [map_set, map_find, h]
      · simp [map_set, map_find, h, h2, ih]

/-- C4 as worded fails: on the file `key = {` / `line one` / `line two` / `}`
the brace is tokenized as the value of `key`, the two lines are read as key
lines, and the script fetched for `key` is the single string `{`. -/
theorem script_round_trip_counterexample :
    CConfigFile.new.read "key = \x7b\nline one\nline two\n\x7d\n".toList =
      Outcome.ok { CConfigFile.new with
        m_specs := [("::key".toList, [[LBRACE]]), ("::line".toList, [])] } ∧
    ({ CConfigFile.new with
        m_specs := [("::key".toList, [[LBRACE]]), ("::line".toList, [])] } :
      CConfigFile).get_script_vector "key".toList = Except.ok (true, [[LBRACE]]) := by
  refine ⟨by decide, by rfl⟩

/-- C4 (amended): with the opening brace on a line of its own, the file
`key =` / `{` / `line one` / `line two` / `}` is read into a store from which
the script fetched for `key` is exactly the two lines, untokenized. -/
theorem script_round_trip :
    CConfigFile.new.read "key =\n\x7b\nline one\nline two\n\x7d\n".toList =
      Outcome.ok { CConfigFile.new with
        m_specs := [("::key".toList, ["line one".toList, "line two".toList])] } ∧
    ({ CConfigFile.new with
        m_specs := [("::key".toList, ["line one".toList, "line two".toList])] } :
      CConfigFile).get_script_vector "key".toList =
        Except.ok (true, ["line one".toList, "line two".toList]) := by
  refine ⟨by decide, by rfl⟩

/-! ## A header followed by a key line -/

theorem c_str_of_no_nul (s : Str) (h : NUL ∉ s) : c_str s = s := by
  induction s with
  | nil => rfl
  | cons c cs ih =>
    have hc : c ≠ NUL := fun e => h (by simp [e])
    have hcs : NUL ∉ cs := fun e => h (List.mem_cons_of_mem _ e)
    simp [c_str, hc, ih hcs]

theorem fgets_take_line (n : Nat) (l rest : Str) (h1 : '\n' ∉ l) (hn : l.length < n) :
    fgets_take n (l ++ '\n' :: rest) = (l ++ ['\n'], rest) := by
  induction l generalizing n with
  | nil =>
    cases n with
    | zero => simp at hn
    | succ n => simp [fgets_take]
  | cons c cs ih =>
    have hc : c ≠ '\n' := fun e => h1 (by simp [e])
    have hcs : '\n' ∉ cs := fun e => h1 (List.mem_cons_of_mem _ e)
    cases n with
    | zero => simp at hn
    | succ n =>
      simp only [List.length_cons, Nat.add_lt_add_iff_right] at hn
      simp [fgets_take, hc, ih n hcs hn]

/-- A line shorter than the line buffer is read by one `fgets` call. -/
theorem fgets_all_line (fuel : Nat) (l rest : Str) (h1 : '\n' ∉ l) (hn : l.length < 999) :
    fgets_all (fuel + 1) (l ++ '\n' :: rest) = (l ++ ['\n']) :: fgets_all fuel rest := by
  have hf : fgets 1000 (l ++ '\n' :: rest) = some (l ++ ['\n'], rest) := by
    unfold fgets
    cases hl : l ++ '\n' :: rest with
    | nil => simp at hl
    | cons c cs =>
      simp only [Nat.add_one_sub_one]
      rw [← hl, fgets_take_line 999 l rest h1 hn]
  simp only [fgets_all, hf]

theorem map_toLower_no_nul (s : Str) (h : NUL ∉ s) : NUL ∉ s.map Char.toLower := by
  intro hm
  obtain ⟨c, hc, e⟩ := List.mem_map.1 hm
  have : c = NUL := by
    rw [← lower_char_eq_toLower] at e
    unfold lower_char at e
    split at e
    · rename_i hr
      rw [char_le_iff, char_le_iff] at hr
      have h1 : 'A'.toNat = 65 := by decide
      have h2 : 'Z'.toNat = 90 := by decide
      rw [h1, h2] at hr
      obtain ⟨ha, hb⟩ := hr
      exfalso
      generalize c.toNat = n at ha hb e
      interval_cases n <;> exact absurd e (by decide)
    · exact e
  exact h (this ▸ hc)

theorem make_lower_append (a b : Str) (ha : NUL ∉ a) :
    make_lower (a ++ b) = a.map Char.toLower ++ make_lower b := by
  induction a with
  | nil => rfl
  | cons c cs ih =>
    have hc : c ≠ NUL := fun e => ha (by simp [e])
    have hcs : NUL ∉ cs := fun e => ha (List.mem_cons_of_mem _ e)
    simp [make_lower, hc, ih hcs, lower_char_eq_toLower]

theorem exists_of_scoped (cf : CConfigFile) (key : Str)
    (hs : has_scope (make_lower key) = true) :
    cf.exists key =
      match map_find cf.m_specs (make_lower key) with
      | some v => (true, v)
      | none => (false, []) := by
  simp only [CConfigFile.exists, hs, if_true]

theorem exists_of_unscoped (cf : CConfigFile) (key : Str)
    (hs : has_scope (make_lower key) = false) :
    cf.exists key =
      match map_find cf.m_specs (cf.m_current_section ++ SCOPE ++ make_lower key) with
      | some v => (true, v)
      | none =>
        match map_find cf.m_specs (SCOPE ++ make_lower key) with
        | some v => (true, v)
        | none => (false, []) := by
  simp only [CConfigFile.exists, hs, Bool.false_eq_true, if_false]

theorem toLower_idem (c : Char) : c.toLower.toLower = c.toLower := by
  rw [← lower_char_eq_toLower, ← lower_char_eq_toLower]
  unfold lower_char
  by_cases h : 'A' ≤ c ∧ c ≤ 'Z'
  · simp only [h, and_self, if_true]
    rw [char_le_iff, char_le_iff] at h
    have h1 : 'A'.toNat = 65 := by decide
    have h2 : 'Z'.toNat = 90 := by decide
    rw [h1, h2] at h
    obtain ⟨ha, hb⟩ := h
    generalize c.toNat = n at ha hb
    interval_cases n <;> rfl
  · simp only [h, if_false]

theorem folded_map (s : Str) (h : NUL ∉ s) : folded (s.map Char.toLower) := by
  refine ⟨map_toLower_no_nul s h, ?_⟩
  rw [List.map_map]
  apply List.map_congr_left
  intro c _
  exact toLower_idem c

theorem folded_append (a b : Str) (ha : folded a) (hb : folded b) : folded (a ++ b) := by
  refine ⟨?_, ?_⟩
  · simp only [List.mem_append, not_or]
    exact ⟨ha.1, hb.1⟩
  · rw [List.map_append, ha.2, hb.2]

theorem spec_base_key_folded (l : Str) (h : NUL ∉ l) : folded (spec_base_key l) := by
  unfold spec_base_key
  apply folded_map
  intro hm
  exact h (mem_of_mem_dropWhile _ _ _ ((List.takeWhile_sublist _).subset hm))

theorem header_section_name_folded (l : Str) (h : NUL ∉ l) : folded (header_section_name l) := by
  unfold header_section_name
  apply folded_map
  intro hm
  have h1 := (List.takeWhile_sublist _).subset hm
  have h2 := mem_of_mem_dropWhile _ _ _ h1
  have h3 := (List.drop_sublist _ _).subset h2
  exact h (mem_of_mem_dropWhile _ _ _ h3)

/-- A property of the state that every completed loop body keeps is kept by a
run of lines. -/
theorem run_lines_invariant (I : ReadState → Prop) (lines : List Str)
    (hstep : ∀ st b st1, b ∈ lines → I st → read_line st b = Outcome.ok st1 → I st1)
    (st st1 : ReadState) (h0 : I st) (h : run_lines st lines = Outcome.ok st1) : I st1 := by
  induction lines generalizing st with
  | nil =>
    simp only [run_lines, Outcome.ok.injEq] at h
    exact h ▸ h0
  | cons b rest ih =>
    simp only [run_lines] at h
    cases hb : read_line st b with
    | buffer_overrun => rw [hb] at h; cases h
    | out_of_fuel => rw [hb] at h; cases h
    | ok st2 =>
      rw [hb] at h
      exact ih (fun s x s1 hx => hstep s x s1 (List.mem_cons_of_mem _ hx)) st2
        (hstep st b st2 (List.mem_cons_self _ _) h0 hb) h

theorem map_find_set_cases (m : List (Str × StrVec)) (k0 k : Str) (v0 v : StrVec)
    (h : map_find (map_set m k0 v0) k = some v) :
    (k = k0 ∧ v = v0) ∨ map_find m k = some v := by
  by_cases hk : k = k0
  · subst hk
    rw [map_find_set_self] at h
    exact Or.inl ⟨rfl, (Option.some.inj h).symm⟩
  · rw [map_find_set_other _ _ _ _ hk] at h
    exact Or.inr h

/-- What a completed `read` says about the run over the buffers of the file. -/
theorem read_ok_run (cf cf1 : CConfigFile) (ifile : Str) (h : cf.read ifile = Outcome.ok cf1) :
    ∃ stf, run_lines (read_init cf) (file_buffers ifile) = Outcome.ok stf ∧
      cf1 = { cf with m_specs := stf.m_specs } := by
  rw [read_eq_run_lines] at h
  cases hr : run_lines (read_init cf) (file_buffers ifile) with
  | ok stf =>
    rw [hr] at h
    injection h with h
    exact ⟨stf, rfl, h.symm⟩
  | buffer_overrun => rw [hr] at h; cases h
  | out_of_fuel => rw [hr] at h; cases h

theorem skip_ws_suffix (s : Str) : skip_ws s <:+ s := by
  induction s with
  | nil => exact List.suffix_refl _
  | cons c cs ih =>
    unfold skip_ws
    split
    · exact ih.trans (List.suffix_cons _ _)
    · exact List.suffix_refl _

theorem advance_suffix (s : Str) : advance s <:+ s := by
  cases s with
  | nil => exact List.suffix_refl _
  | cons c cs => exact List.suffix_cons _ _

/-- The token that the inner loop returns is copied from the front of its
input, and the input that remains is a tail of it. -/
theorem scan_token_initial (q : Char) (out : Nat) (s t r : Str)
    (h : scan_token q out s = some (t, r)) : t <+: s ∧ r <:+ s := by
  induction s generalizing out t with
  | nil =>
    simp only [scan_token] at h
    split at h
    · simp only [Option.some.injEq, Prod.mk.injEq] at h
      obtain ⟨rfl, rfl⟩ := h
      exact ⟨List.prefix_refl _, List.suffix_refl _⟩
    · cases h
  | cons c cs ih =>
    have stop_here : ∀ {x : Option (Str × Str)}, x = some (t, r) →
        x = (if out < 512 then some ([], c :: cs) else none) → t <+: c :: cs ∧ r <:+ c :: cs := by
      intro x hx e
      rw [e] at hx
      split at hx
      · simp only [Option.some.injEq, Prod.mk.injEq] at hx
        obtain ⟨rfl, rfl⟩ := hx
        exact ⟨List.nil_prefix, List.suffix_refl _⟩
      · cases hx
    have go_on : ∀ {x : Option (Str × Str)}, x = some (t, r) →
        x = (if out < 512 then
              match scan_token q (out + 1) cs with
              | some (t, r) => some (c :: t, r)
              | none => none
            else none) → t <+: c :: cs ∧ r <:+ c :: cs := by
      intro x hx e
      rw [e] at hx
      split at hx
      · cases hsc : scan_token q (out + 1) cs with
        | none => rw [hsc] at hx; cases hx
        | some tr =>
          obtain ⟨t1, r1⟩ := tr
          rw [hsc] at hx
          simp only [Option.some.injEq, Prod.mk.injEq] at hx
          obtain ⟨rfl, rfl⟩ := hx
          obtain ⟨h1, h2⟩ := ih (out + 1) t1 hsc
          exact ⟨List.cons_prefix_cons.2 ⟨rfl, h1⟩, h2.trans (List.suffix_cons _ _)⟩
      · cases hx
    simp only [scan_token] at h
    split at h
    · exact stop_here h rfl
    · split at h
      · split at h
        · split at h
          · simp only [Option.some.injEq, Prod.mk.injEq] at h
            obtain ⟨rfl, rfl⟩ := h
            exact ⟨List.nil_prefix, List.suffix_cons _ _⟩
          · cases h
        · exact go_on h rfl
      · split at h
        · exact stop_here h rfl
        · exact go_on h rfl

/-- Every token that the outer loop adds is a contiguous piece of its input. -/
theorem parse_loop_verbatim (fuel : Nat) (inp : Str) (result toks : StrVec)
    (h : parse_loop fuel inp result = Outcome.ok toks) :
    ∀ t ∈ toks, t ∈ result ∨ t <:+: inp := by
  induction fuel generalizing inp result with
  | zero => simp [parse_loop] at h
  | succ fuel ih =>
    simp only [parse_loop] at h
    split at h
    · injection h with h
      subst h
      exact fun t ht => Or.inl ht
    · split at h
      · injection h with h
        subst h
        exact fun t ht => Or.inl ht
      · have hin2 : (if (peek (skip_ws inp) == DQUOTE || peek (skip_ws inp) == SQUOTE) = true
            then advance (skip_ws inp) else skip_ws inp) <:+ inp := by
          split
          · exact (advance_suffix _).trans (skip_ws_suffix _)
          · exact skip_ws_suffix _
        split at h
        · cases h
        · rename_i token in3 hsc
          obtain ⟨hp, hsuf⟩ := scan_token_initial _ _ _ _ _ hsc
          have hin5 : (if peek (skip_ws in3) = ',' then advance (skip_ws in3)
              else skip_ws in3) <:+ inp := by
            have h4 : skip_ws in3 <:+ inp := (skip_ws_suffix _).trans (hsuf.trans hin2)
            split
            · exact (advance_suffix _).trans h4
            · exact h4
          intro t ht
          rcases ih _ _ h t ht with hr | hi
          · rcases List.mem_append.1 hr with hr | hr
            · exact Or.inl hr
            · simp only [List.mem_singleton] at hr
              subst hr
              exact Or.inr (hp.isInfix.trans hin2.isInfix)
          · exact Or.inr (hi.trans hin5.isInfix)

/-- Tokens are not case-folded or otherwise altered: each is a contiguous piece
of the tokenized text. -/
theorem parse_tokens_verbatim (input : Str) (toks : StrVec) (h : CTokenizer.parse input = Outcome.ok toks) :
    ∀ t ∈ toks, t <:+: input := by
  intro t ht
  rcases parse_loop_verbatim _ _ _ _ h t ht with hr | hi
  · simp at hr
  · exact hi

theorem c_str_initial (s : Str) : c_str s <+: s := by
  induction s with
  | nil => exact List.prefix_refl _
  | cons c cs ih =>
    unfold c_str
    split
    · exact List.nil_prefix
    · exact List.cons_prefix_cons.2 ⟨rfl, ih⟩

theorem chop_at_initial (ch : Char) (s : Str) : chop_at ch s <+: s := by
  induction s with
  | nil => exact List.prefix_refl _
  | cons c cs ih =>
    unfold chop_at
    split
    · exact List.nil_prefix
    · exact List.cons_prefix_cons.2 ⟨rfl, ih⟩

theorem line_text_initial (b : Str) : line_text b <+: b :=
  ((chop_at_initial _ _).trans (chop_at_initial _ _)).trans (c_str_initial b)

/-- The value list of a key line consists of contiguous pieces of the line. -/
theorem spec_values_verbatim (l : Str) (V : StrVec) (h : spec_values l = Outcome.ok V) :
    ∀ t ∈ V, t <:+: l := by
  unfold spec_values spec_value_text at h
  split at h
  · injection h with h
    subst h
    simp
  · rename_i text ht
    split at ht
    · injection ht with ht
      subst ht
      intro t hm
      exact (parse_tokens_verbatim _ _ h t hm).trans
        ((List.drop_suffix _ _).trans (List.dropWhile_suffix _)).isInfix
    · cases ht

/-- The invariant behind C8: every key in play is folded, and every stored
string is a contiguous piece of one of the buffers `bs`. -/
theorem read_line_entries (bs : List Str) (st st1 : ReadState) (b : Str) (hb : b ∈ bs)
    (hI : (∀ k v, map_find st.m_specs k = some v →
            folded k ∧ ∀ t ∈ v, ∃ x ∈ bs, t <:+: x) ∧
          folded st.scoped_key_name ∧ (∀ t ∈ st.values, ∃ x ∈ bs, t <:+: x) ∧
          folded st.parsing_section)
    (h : read_line st b = Outcome.ok st1) :
    (∀ k v, map_find st1.m_specs k = some v →
        folded k ∧ ∀ t ∈ v, ∃ x ∈ bs, t <:+: x) ∧
      folded st1.scoped_key_name ∧ (∀ t ∈ st1.values, ∃ x ∈ bs, t <:+: x) ∧
      folded st1.parsing_section := by
  obtain ⟨hm, hs, hv, hp⟩ := hI
  rcases read_line_ok_cases st st1 b h with
    ⟨-, e⟩ | ⟨-, e⟩ | ⟨-, e⟩ | ⟨-, -, e⟩ | ⟨-, -, e⟩ | ⟨-, -, -, -, V, hV, e⟩ <;> subst e
  · exact ⟨hm, hs, hv, hp⟩
  · exact ⟨hm, hs, hv, header_section_name_folded _ (line_text_no_nul b)⟩
  · exact ⟨hm, hs, by simp, hp⟩
  · refine ⟨?_, hs, hv, hp⟩
    intro k v hk
    simp only [] at hk
    split at hk
    · rcases map_find_set_cases _ _ _ _ _ hk with ⟨rfl, rfl⟩ | hk
      · exact ⟨hs, hv⟩
      · exact hm k v hk
    · exact hm k v hk
  · refine ⟨hm, hs, ?_, hp⟩
    intro t ht
    simp only [List.mem_append, List.mem_singleton] at ht
    rcases ht with ht | rfl
    · exact hv t ht
    · exact ⟨b, hb, (List.dropWhile_suffix _).isInfix.trans (line_text_initial b).isInfix⟩
  · have hkf : folded (st.parsing_section ++ SCOPE ++ spec_base_key (line_text b)) :=
      folded_append _ _ (folded_append _ _ hp ⟨by decide, by decide⟩)
        (spec_base_key_folded _ (line_text_no_nul b))
    have hV' : ∀ t ∈ V, ∃ x ∈ bs, t <:+: x := fun t ht =>
      ⟨b, hb, (spec_values_verbatim _ _ hV t ht).trans (line_text_initial b).isInfix⟩
    refine ⟨?_, hkf, hV', hp⟩
    intro k v hk
    rcases map_find_set_cases _ _ _ _ _ hk with ⟨rfl, rfl⟩ | hk
    · exact ⟨hkf, hV'⟩
    · exact hm k v hk

theorem folded_parts (P K : Str) (h : folded (P ++ SCOPE ++ K)) : folded P ∧ folded K := by
  obtain ⟨h0, hmap⟩ := h
  simp only [List.mem_append, not_or] at h0
  rw [List.map_append, List.map_append] at hmap
  have hlen : (P.map Char.toLower ++ SCOPE.map Char.toLower).length = (P ++ SCOPE).length := by
    simp
  obtain ⟨h1, h2⟩ := List.append_inj hmap hlen
  have hlen2 : (P.map Char.toLower).length = P.length := by simp
  obtain ⟨h3, -⟩ := List.append_inj h1 hlen2
  exact ⟨⟨h0.1.1, h3⟩, ⟨h0.2, h2⟩⟩

theorem no_nul_of_map_toLower (a b : Str) (hb : NUL ∉ b)
    (h : a.map Char.toLower = b.map Char.toLower) : NUL ∉ a := by
  intro ha
  have : NUL.toLower ∈ a.map Char.toLower := List.mem_map_of_mem _ ha
  rw [h] at this
  exact map_toLower_no_nul b hb this

/-- C8: after a read into a new store, for every entry stored under P::K with
K free of `::`, and all P', K' equal to P, K up to ASCII letter case: once the
current section is set to P', `exists` of K' and of P'::K' are both true with
the value list of that entry; and every string of the value list is a
contiguous piece of a line of the file, as written there. -/
theorem keys_fold_values_verbatim (ifile : Str) (cf1 : CConfigFile) (P K P' K' : Str)
    (v : StrVec)
    (hread : CConfigFile.new.read ifile = Outcome.ok cf1)
    (hentry : map_find cf1.m_specs (P ++ SCOPE ++ K) = some v)
    (hK : ¬ SCOPE <:+: K)
    (hP' : P'.map Char.toLower = P.map Char.toLower)
    (hK' : K'.map Char.toLower = K.map Char.toLower) :
    (cf1.set_current_section P').exists K' = (true, v) ∧
    (cf1.set_current_section P').exists (P' ++ SCOPE ++ K') = (true, v) ∧
    ∀ t ∈ v, ∃ b ∈ file_buffers ifile, t <:+: b := by
  obtain ⟨stf, hrun, hcf1⟩ := read_ok_run _ cf1 ifile hread
  have hinv := run_lines_invariant
    (fun s => (∀ k v, map_find s.m_specs k = some v →
        folded k ∧ ∀ t ∈ v, ∃ x ∈ file_buffers ifile, t <:+: x) ∧
      folded s.scoped_key_name ∧ (∀ t ∈ s.values, ∃ x ∈ file_buffers ifile, t <:+: x) ∧
      folded s.parsing_section)
    (file_buffers ifile)
    (fun s b s1 hb hI hstep => read_line_entries (file_buffers ifile) s s1 b hb hI hstep)
    (read_init CConfigFile.new) stf
    ⟨fun k v hk => by simp [read_init, CConfigFile.new, map_find] at hk,
      ⟨by simp [read_init], rfl⟩, by simp [read_init], ⟨by simp [read_init], rfl⟩⟩ hrun
  have hm1 : cf1.m_specs = stf.m_specs := by rw [hcf1]
  rw [hm1] at hentry
  obtain ⟨hkf, hvals⟩ := hinv.1 _ _ hentry
  obtain ⟨hPf, hKf⟩ := folded_parts P K hkf
  have hP0 : NUL ∉ P' := no_nul_of_map_toLower P' P hPf.1 hP'
  have hK0 : NUL ∉ K' := no_nul_of_map_toLower K' K hKf.1 hK'
  have hlowP : make_lower P' = P := by rw [make_lower_eq_map _ hP0, hP', hPf.2]
  have hlowK : make_lower K' = K := by rw [make_lower_eq_map _ hK0, hK', hKf.2]
  have hmap : (cf1.set_current_section P').m_specs = stf.m_specs := by rw [hcf1]; rfl
  have hcur : (cf1.set_current_section P').m_current_section = P := hlowP
  refine ⟨?_, ?_, hvals⟩
  · have hs : has_scope (make_lower K') = false := by
      rw [hlowK]
      cases hb : has_scope K with
      | false => rfl
      | true => exact absurd ((has_scope_iff _).1 hb) hK
    rw [exists_of_unscoped _ _ hs, hmap, hcur, hlowK, hentry]
  · have hlow : make_lower (P' ++ SCOPE ++ K') = P ++ SCOPE ++ K := by
      rw [List.append_assoc, make_lower_append _ _ hP0, make_lower_append SCOPE _ (by decide),
        hlowK, hP', hPf.2, List.append_assoc]
      rfl
    have hs : has_scope (make_lower (P' ++ SCOPE ++ K')) = true := by
      rw [hlow]
      exact (has_scope_iff _).2 ⟨P, K, rfl⟩
    rw [exists_of_scoped _ _ hs, hmap, hlow, hentry]

/-- C8 on the file `[Net]` / `IP = Eth0, "A b"`, queried as `NET` and `Ip`. -/
theorem keys_fold_values_verbatim_witness :
    CConfigFile.new.read ("[Net]\nIP = Eth0, ".toList ++ [DQUOTE] ++ "A b".toList ++
        [DQUOTE, '\n']) =
      Outcome.ok { CConfigFile.new with
        m_specs := [("net::ip".toList, ["Eth0".toList, "A b".toList])] } ∧
    (({ CConfigFile.new with
        m_specs := [("net::ip".toList, ["Eth0".toList, "A b".toList])] } :
      CConfigFile).set_current_section "NET".toList).exists "Ip".toList =
        (true, ["Eth0".toList, "A b".toList]) ∧
    (({ CConfigFile.new with
        m_specs := [("net::ip".toList, ["Eth0".toList, "A b".toList])] } :
      CConfigFile).set_current_section "NET".toList).exists "NET::Ip".toList =
        (true, ["Eth0".toList, "A b".toList]) := by
  have h := keys_fold_values_verbatim
    ("[Net]\nIP = Eth0, ".toList ++ [DQUOTE] ++ "A b".toList ++ [DQUOTE, '\n'])
    { CConfigFile.new with m_specs := [("net::ip".toList, ["Eth0".toList, "A b".toList])] }
    "net".toList "ip".toList "NET".toList "Ip".toList ["Eth0".toList, "A b".toList]
    (by decide) (by decide) (by decide) (by decide) (by decide)
  exact ⟨by decide, h.1, h.2.1⟩

/-! ## The tokenizer on quoted text -/

theorem toNat_eq_iff (c : Char) (n : Nat) (hn : (Char.ofNat n).toNat = n) :
    c.toNat = n ↔ c = Char.ofNat n := by
  constructor
  · intro h
    rw [← h, Char.ofNat_toNat]
  · intro h
    rw [h, hn]

theorem is_eol_iff (c : Char) : is_eol c = true ↔ c = NUL ∨ c = '\n' ∨ c = '\r' := by
  unfold is_eol
  simp only [Bool.or_eq_true, beq_iff_eq, or_assoc]
  rw [toNat_eq_iff c 0 (by decide), toNat_eq_iff c 10 (by decide), toNat_eq_iff c 13 (by decide)]
  rfl

theorem is_ws_iff (c : Char) : is_ws c = true ↔ c = ' ' ∨ c = '\t' := by
  unfold is_ws
  simp only [Bool.or_eq_true, beq_iff_eq]
  rw [toNat_eq_iff c 32 (by decide), toNat_eq_iff c 9 (by decide)]

theorem is_eol_false (c : Char) (h0 : c ≠ NUL) (h1 : c ≠ '\n') (h2 : c ≠ '\r') :
    is_eol c = false := by
  cases h : is_eol c with
  | false => rfl
  | true =>
    rcases (is_eol_iff c).1 h with e | e | e
    · exact absurd e h0
    · exact absurd e h1
    · exact absurd e h2

theorem is_ws_false (c : Char) (h0 : c ≠ ' ') (h1 : c ≠ '\t') : is_ws c = false := by
  cases h : is_ws c with
  | false => rfl
  | true =>
    rcases (is_ws_iff c).1 h with e | e
    · exact absurd e h0
    · exact absurd e h1

/-- Inside quotes the inner loop copies everything up to the closing quote. -/
theorem scan_quoted_closed (q : Char) (hq : q ≠ NUL) (hqe : is_eol q = false) (s r : Str)
    (out : Nat) (hs : ∀ c ∈ s, c ≠ q ∧ is_eol c = false) (hlen : out + s.length < 512) :
    scan_token q out (s ++ q :: r) = some (s, r) := by
  induction s generalizing out with
  | nil =>
    have ho : out < 512 := by simpa using hlen
    rw [List.nil_append, scan_token]
    simp only [hqe, Bool.false_eq_true, if_false, ne_eq, hq, not_false_eq_true, if_true, ho]
  | cons c cs ih =>
    have hc := hs c (by simp)
    have hcs : ∀ x ∈ cs, x ≠ q ∧ is_eol x = false := fun x hx => hs x (List.mem_cons_of_mem _ hx)
    simp only [List.length_cons] at hlen
    have ho : out < 512 := by omega
    rw [List.cons_append, scan_token]
    simp only [hc.2, Bool.false_eq_true, if_false, ne_eq, hq, not_false_eq_true, if_true,
      hc.1, ho]
    rw [ih (out + 1) hcs (by omega)]

/-- Inside quotes, without a closing quote, the inner loop copies the rest of
the input. -/
theorem scan_quoted_open (q : Char) (hq : q ≠ NUL) (s : Str) (out : Nat)
    (hs : ∀ c ∈ s, c ≠ q ∧ is_eol c = false) (hlen : out + s.length < 512) :
    scan_token q out s = some (s, []) := by
  induction s generalizing out with
  | nil =>
    have ho : out < 512 := by simpa using hlen
    simp only [scan_token, ho, if_true]
  | cons c cs ih =>
    have hc := hs c (by simp)
    have hcs : ∀ x ∈ cs, x ≠ q ∧ is_eol x = false := fun x hx => hs x (List.mem_cons_of_mem _ hx)
    simp only [List.length_cons] at hlen
    have ho : out < 512 := by omega
    rw [scan_token]
    simp only [hc.2, Bool.false_eq_true, if_false, ne_eq, hq, not_false_eq_true, if_true,
      hc.1, ho]
    rw [ih (out + 1) hcs (by omega)]

/-- One turn of the outer loop on input that starts with a quote character. -/
theorem parse_loop_quoted (q : Char) (hq : q = SQUOTE ∨ q = DQUOTE) (fuel : Nat)
    (rest token in3 : Str) (result : StrVec)
    (hsc : scan_token q 0 rest = some (token, in3)) :
    parse_loop (fuel + 1) (q :: rest) result =
      parse_loop fuel
        (if peek (skip_ws in3) = ',' then advance (skip_ws in3) else skip_ws in3)
        (result ++ [token]) := by
  have hqe : is_eol q = false := by rcases hq with rfl | rfl <;> decide
  have hqw : is_ws q = false := by rcases hq with rfl | rfl <;> decide
  have hqq : (q == DQUOTE || q == SQUOTE) = true := by rcases hq with rfl | rfl <;> decide
  rw [parse_loop]
  simp only [peek, skip_ws, hqe, hqw, Bool.false_eq_true, if_false, hqq, if_true, advance, hsc]

theorem parse_loop_nil (fuel : Nat) (res : StrVec) :
    parse_loop (fuel + 1) [] res = Outcome.ok res := by
  rw [parse_loop]
  simp [peek, is_eol, NUL]

/-- C10: a quoted string within the token buffer, closed or not, is one token:
the text between the quotes, taken literally. -/
theorem quoted_token (q : Char) (s : Str) (hq : q = SQUOTE ∨ q = DQUOTE)
    (hlen : s.length < 512)
    (hs : ∀ c ∈ s, c ≠ q ∧ c ≠ '\r' ∧ c ≠ '\n' ∧ c ≠ NUL) :
    CTokenizer.parse (q :: s ++ [q]) = Outcome.ok [s] ∧ CTokenizer.parse (q :: s) = Outcome.ok [s] := by
  have hq0 : q ≠ NUL := by rcases hq with rfl | rfl <;> decide
  have hqe : is_eol q = false := by rcases hq with rfl | rfl <;> decide
  have hs' : ∀ c ∈ s, c ≠ q ∧ is_eol c = false := fun c hc =>
    ⟨(hs c hc).1, is_eol_false c (hs c hc).2.2.2 (hs c hc).2.2.1 (hs c hc).2.1⟩
  constructor
  · have h1 := scan_quoted_closed q hq0 hqe s [] 0 hs' (by simpa using hlen)
    unfold CTokenizer.parse
    rw [List.cons_append, List.length_cons, parse_loop_quoted q hq _ _ _ _ _ h1]
    simp only [skip_ws, peek, List.length_append, List.length_singleton]
    rw [if_neg (by decide), parse_loop_nil]
    rfl
  · have h1 := scan_quoted_open q hq0 s 0 hs' (by simpa using hlen)
    unfold CTokenizer.parse
    rw [List.length_cons, parse_loop_quoted q hq _ _ _ _ _ h1]
    simp only [skip_ws, peek]
    rw [if_neg (by decide), parse_loop_nil]
    rfl

/-! ## The tokenizer on comma-separated words -/

/-- C10 on the text `eth0, 'x' y` within double quotes, closed and unterminated. -/
theorem quoted_token_witness :
    CTokenizer.parse ([DQUOTE] ++ "eth0, ".toList ++ [SQUOTE, 'x', SQUOTE, '\t', 'y'] ++ [DQUOTE]) =
      Outcome.ok ["eth0, ".toList ++ [SQUOTE, 'x', SQUOTE, '\t', 'y']] ∧
    CTokenizer.parse ([DQUOTE] ++ "eth0, ".toList ++ [SQUOTE, 'x', SQUOTE, '\t', 'y']) =
      Outcome.ok ["eth0, ".toList ++ [SQUOTE, 'x', SQUOTE, '\t', 'y']] :=
  quoted_token DQUOTE ("eth0, ".toList ++ [SQUOTE, 'x', SQUOTE, '\t', 'y']) (Or.inr rfl)
    (by decide) (by decide)

theorem skip_ws_append (lead rest : Str) (h : ∀ c ∈ lead, c = ' ' ∨ c = '\t') :
    skip_ws (lead ++ rest) = skip_ws rest := by
  induction lead with
  | nil => rfl
  | cons c cs ih =>
    have hc : is_ws c = true := (is_ws_iff c).2 (h c (by simp))
    rw [List.cons_append, skip_ws]
    simp only [hc, if_true]
    exact ih (fun x hx => h x (List.mem_cons_of_mem _ hx))

theorem skip_ws_cons (c : Char) (rest : Str) (h : is_ws c = false) :
    skip_ws (c :: rest) = c :: rest := by
  rw [skip_ws]
  simp only [h, Bool.false_eq_true, if_false]

theorem peek_cons (c : Char) (rest : Str) : peek (c :: rest) = c := rfl

/-- Leading spaces and tabs do not change what the outer loop does. -/
theorem parse_loop_lead (lead : Str) (c : Char) (rest : Str) (fuel : Nat) (result : StrVec)
    (hl : ∀ x ∈ lead, x = ' ' ∨ x = '\t') (hw : is_ws c = false) (he : is_eol c = false) :
    parse_loop (fuel + 1) (lead ++ c :: rest) result =
      parse_loop (fuel + 1) (c :: rest) result := by
  have hpeek : is_eol (peek (lead ++ c :: rest)) = false := by
    cases lead with
    | nil => exact he
    | cons x xs =>
      rcases hl x (by simp) with rfl | rfl
      · exact (by decide : is_eol ' ' = false)
      · exact (by decide : is_eol '\t' = false)
  rw [parse_loop, parse_loop]
  simp only [hpeek, Bool.false_eq_true, if_false, skip_ws_append lead _ hl, skip_ws_cons c rest hw,
    peek_cons, he]

/-- Outside quotes the inner loop copies a word up to the space, tab or comma
that follows it, or to the end of the input. -/
theorem scan_unquoted (w r : Str) (out : Nat)
    (hw : ∀ c ∈ w, is_eol c = false ∧ is_ws c = false ∧ c ≠ ',')
    (hr : r = [] ∨ ∃ c r1, r = c :: r1 ∧ (is_ws c = true ∨ c = ','))
    (hlen : out + w.length < 512) :
    scan_token NUL out (w ++ r) = some (w, r) := by
  induction w generalizing out with
  | nil =>
    have ho : out < 512 := by simpa using hlen
    rw [List.nil_append]
    rcases hr with rfl | ⟨c, r1, rfl, hc⟩
    · simp only [scan_token, ho, if_true]
    · rw [scan_token]
      have hstop : (is_ws c || c == ',') = true := by
        rcases hc with h | h
        · simp [h]
        · simp [h]
      simp only [ne_eq, not_true_eq_false, if_false, hstop, if_true, ho]
      split <;> rfl
  | cons c cs ih =>
    have hc := hw c (by simp)
    have hcs : ∀ x ∈ cs, is_eol x = false ∧ is_ws x = false ∧ x ≠ ',' :=
      fun x hx => hw x (List.mem_cons_of_mem _ hx)
    simp only [List.length_cons] at hlen
    have ho : out < 512 := by omega
    have hgo : (is_ws c || c == ',') = false := by simp [hc.2.1, hc.2.2]
    rw [List.cons_append, scan_token]
    simp only [hc.1, Bool.false_eq_true, if_false, ne_eq, not_true_eq_false, hgo, ho, if_true]
    rw [ih (out + 1) hcs (by omega)]

/-- One turn of the outer loop on input that starts a bare word. -/
theorem parse_loop_bare (c : Char) (rest token in3 : Str) (fuel : Nat) (result : StrVec)
    (he : is_eol c = false) (hw : is_ws c = false) (h1 : c ≠ DQUOTE) (h2 : c ≠ SQUOTE)
    (hsc : scan_token NUL 0 (c :: rest) = some (token, in3)) :
    parse_loop (fuel + 1) (c :: rest) result =
      parse_loop fuel
        (if peek (skip_ws in3) = ',' then advance (skip_ws in3) else skip_ws in3)
        (result ++ [token]) := by
  have hqq : (c == DQUOTE || c == SQUOTE) = false := by simp [h1, h2]
  rw [parse_loop]
  simp only [peek_cons, he, Bool.false_eq_true, if_false, skip_ws_cons c rest hw, hqq, hsc]

/-- One turn of the outer loop consumes one item and the comma after it. -/
theorem parse_loop_piece (p : Piece) (hv : p.valid) (hlen : p.word.length < 512)
    (tail : Str) (htail : tail = [] ∨ ∃ r, tail = ',' :: r) (fuel : Nat) (result : StrVec) :
    parse_loop (fuel + 1) (p.render ++ tail) result =
      parse_loop fuel (advance tail) (result ++ [p.word]) := by
  obtain ⟨hlead, htrail, hquote, hne, hword⟩ := hv
  have hwc : ∀ c ∈ p.word, is_eol c = false ∧ is_ws c = false ∧ c ≠ ',' := fun c hc =>
    ⟨is_eol_false c (hword c hc).2.2.2.2.2.1 (hword c hc).2.2.2.2.2.2.1
        (hword c hc).2.2.2.2.2.2.2,
      is_ws_false c (hword c hc).1 (hword c hc).2.1, (hword c hc).2.2.1⟩
  have hafter : skip_ws (p.trail ++ tail) = tail := by
    rw [skip_ws_append _ _ htrail]
    rcases htail with rfl | ⟨r, rfl⟩
    · rfl
    · exact skip_ws_cons _ _ (by decide)
  have hin5 : (if peek tail = ',' then advance tail else tail) = advance tail := by
    rcases htail with rfl | ⟨r, rfl⟩
    · rfl
    · rfl
  have hr : p.trail ++ tail = [] ∨
      ∃ c r1, p.trail ++ tail = c :: r1 ∧ (is_ws c = true ∨ c = ',') := by
    cases ht : p.trail with
    | nil =>
      rcases htail with rfl | ⟨r, rfl⟩
      · exact Or.inl rfl
      · exact Or.inr ⟨',', r, rfl, Or.inr rfl⟩
    | cons x xs =>
      refine Or.inr ⟨x, xs ++ tail, rfl, Or.inl ((is_ws_iff x).2 (htrail x ?_))⟩
      rw [ht]
      simp
  cases hw : p.word with
  | nil => exact absurd hw hne
  | cons c0 cs =>
    have hc0 : c0 ∈ p.word := by rw [hw]; simp
    unfold Piece.render Piece.body
    rcases hquote with hq | hq | hq
    · rw [hq]
      simp only []
      rw [hw, List.append_assoc, List.append_assoc, List.cons_append,
        parse_loop_lead _ _ _ _ _ hlead (hwc c0 hc0).2.1 (hwc c0 hc0).1]
      have hsc := scan_unquoted p.word (p.trail ++ tail) 0 hwc hr (by simpa using hlen)
      rw [hw, List.cons_append] at hsc
      rw [parse_loop_bare c0 _ _ _ _ _ (hwc c0 hc0).1 (hwc c0 hc0).2.1
        (hword c0 hc0).2.2.2.2.1 (hword c0 hc0).2.2.2.1 hsc, hafter, hin5]
    · rw [hq]
      simp only []
      have hs' : ∀ c ∈ p.word, c ≠ SQUOTE ∧ is_eol c = false := fun c hc =>
        ⟨(hword c hc).2.2.2.1, (hwc c hc).1⟩
      have hsc := scan_quoted_closed SQUOTE (by decide) (by decide) p.word (p.trail ++ tail) 0
        hs' (by simpa using hlen)
      have hgo : ∀ a : Str, a = p.lead ++ SQUOTE :: (p.word ++ SQUOTE :: (p.trail ++ tail)) →
          parse_loop (fuel + 1) a result =
            parse_loop fuel (advance tail) (result ++ [p.word]) := by
        intro a ha
        rw [ha, parse_loop_lead p.lead SQUOTE _ _ _ hlead (by decide) (by decide),
          parse_loop_quoted SQUOTE (Or.inl rfl) _ _ _ _ _ hsc, hafter, hin5]
      rw [← hw]
      exact hgo _ (by simp)
    · rw [hq]
      simp only []
      have hs' : ∀ c ∈ p.word, c ≠ DQUOTE ∧ is_eol c = false := fun c hc =>
        ⟨(hword c hc).2.2.2.2.1, (hwc c hc).1⟩
      have hsc := scan_quoted_closed DQUOTE (by decide) (by decide) p.word (p.trail ++ tail) 0
        hs' (by simpa using hlen)
      have hgo : ∀ a : Str, a = p.lead ++ DQUOTE :: (p.word ++ DQUOTE :: (p.trail ++ tail)) →
          parse_loop (fuel + 1) a result =
            parse_loop fuel (advance tail) (result ++ [p.word]) := by
        intro a ha
        rw [ha, parse_loop_lead p.lead DQUOTE _ _ _ hlead (by decide) (by decide),
          parse_loop_quoted DQUOTE (Or.inr rfl) _ _ _ _ _ hsc, hafter, hin5]
      rw [← hw]
      exact hgo _ (by simp)

/-- With enough fuel the outer loop turns a comma-separated list of items into
the list of their words. -/
theorem parse_loop_pieces (ps : List Piece) (hne : ps ≠ [])
    (hv : ∀ p ∈ ps, p.valid ∧ p.word.length < 512) (fuel : Nat) (result : StrVec)
    (hfuel : ps.length < fuel) :
    parse_loop fuel (render_pieces ps) result = Outcome.ok (result ++ ps.map Piece.word) := by
  induction ps generalizing fuel result with
  | nil => exact absurd rfl hne
  | cons p rest ih =>
    have hp := hv p (by simp)
    cases rest with
    | nil =>
      obtain ⟨f, rfl⟩ : ∃ f, fuel = f + 2 := ⟨fuel - 2, by simp at hfuel; omega⟩
      have h := parse_loop_piece p hp.1 hp.2 [] (Or.inl rfl) (f + 1) result
      rw [List.append_nil] at h
      simp only [render_pieces, h, advance, parse_loop_nil, List.map_cons, List.map_nil]
    | cons p2 rest2 =>
      obtain ⟨f, rfl⟩ : ∃ f, fuel = f + 1 := ⟨fuel - 1, by simp at hfuel; omega⟩
      have h := parse_loop_piece p hp.1 hp.2 (',' :: render_pieces (p2 :: rest2))
        (Or.inr ⟨_, rfl⟩) f result
      have hrec := ih (by simp) (fun q hq => hv q (List.mem_cons_of_mem _ hq)) f
        (result ++ [p.word]) (by simp at hfuel ⊢; omega)
      rw [render_pieces, h, advance, hrec]
      simp only [List.map_cons, List.append_assoc, List.singleton_append]

theorem render_pieces_length (ps : List Piece) (hv : ∀ p ∈ ps, p.word ≠ []) :
    ps.length ≤ (render_pieces ps).length := by
  induction ps with
  | nil => simp [render_pieces]
  | cons p rest ih =>
    have hp : 1 ≤ p.render.length := by
      have h1 : 1 ≤ p.word.length := List.length_pos.2 (hv p (by simp))
      unfold Piece.render Piece.body
      cases p.quote <;> simp <;> omega
    have hrest := ih (fun q hq => hv q (List.mem_cons_of_mem _ hq))
    cases rest with
    | nil => simpa [render_pieces] using hp
    | cons p2 rest2 =>
      rw [render_pieces]
      simp only [List.length_append, List.length_cons] at hrest ⊢
      omega

/-- The tokenizer on a comma-separated list of words that fit the token
buffer: exactly the words, in order, without quotes. -/
theorem parse_pieces (ps : List Piece) (hne : ps ≠ [])
    (hv : ∀ p ∈ ps, p.valid ∧ p.word.length < 512) :
    CTokenizer.parse (render_pieces ps) = Outcome.ok (ps.map Piece.word) := by
  unfold CTokenizer.parse
  have hlen := render_pieces_length ps (fun p hp => (hv p hp).1.2.2.2.1)
  have h := parse_loop_pieces ps hne hv ((render_pieces ps).length + 1) [] (by omega)
  simpa using h

/-- The example of C9: the line ` "10.11.12.3", eth0`. -/
theorem parse_pieces_example :
    CTokenizer.parse ([' ', DQUOTE] ++ "10.11.12.3".toList ++ [DQUOTE] ++ ", eth0".toList) =
      Outcome.ok ["10.11.12.3".toList, "eth0".toList] :=
  parse_pieces
    [{ lead := [' '], quote := some DQUOTE, word := "10.11.12.3".toList, trail := [] },
     { lead := [' '], quote := none, word := "eth0".toList, trail := [] }]
    (by simp) (by decide)

theorem scan_token_overrun (n out : Nat) (h : 512 ≤ out + n) :
    scan_token NUL out (List.replicate n 'a') = none := by
  induction n generalizing out with
  | zero =>
    have : ¬ out < 512 := by omega
    simp [scan_token, this]
  | succ n ih =>
    rw [List.replicate_succ, scan_token]
    have he : is_eol 'a' = false := by decide
    have hw : (is_ws 'a' || 'a' == ',') = false := by decide
    simp only [he, Bool.false_eq_true, if_false, ne_eq, not_true_eq_false, hw]
    split
    · rw [ih (out + 1) (by omega)]
    · rfl

theorem long_word_valid (n : Nat) (hn : 0 < n) :
    ({ lead := [], quote := none, word := List.replicate n 'a', trail := [] } : Piece).valid := by
  refine ⟨by simp, by simp, Or.inl rfl, ?_, ?_⟩
  · cases n with
    | zero => omega
    | succ n => simp [List.replicate_succ]
  · intro c hc
    simp only [] at hc
    rw [List.eq_of_mem_replicate hc]
    decide

theorem long_word_render (w : Str) :
    render_pieces [{ lead := [], quote := none, word := w, trail := [] }] = w := by
  simp [render_pieces, Piece.render, Piece.body]

theorem long_word_overrun (n : Nat) (hn : 512 ≤ n) :
    CTokenizer.parse (List.replicate n 'a') = Outcome.buffer_overrun := by
  unfold CTokenizer.parse
  obtain ⟨m, rfl⟩ : ∃ m, n = m + 1 := ⟨n - 1, by omega⟩
  rw [List.length_replicate, parse_loop, List.replicate_succ]
  have he : is_eol 'a' = false := by decide
  have hw : is_ws 'a' = false := by decide
  have hq : ('a' == DQUOTE || 'a' == SQUOTE) = false := by decide
  simp only [peek_cons, he, Bool.false_eq_true, if_false, skip_ws_cons 'a' _ hw, hq]
  rw [← List.replicate_succ, scan_token_overrun (m + 1) 0 (by omega)]

/-- C9 fails on a word that does not fit `token[512]`: the single word of 512
letters `a` is an item that C9 allows, and the tokenizer writes past the end of
its token buffer on it instead of returning the word. -/
theorem parse_long_word_overrun :
    ({ lead := [], quote := none, word := List.replicate 512 'a', trail := [] } : Piece).valid ∧
    render_pieces [{ lead := [], quote := none, word := List.replicate 512 'a', trail := [] }] =
      List.replicate 512 'a' ∧
    CTokenizer.parse (List.replicate 512 'a') = Outcome.buffer_overrun :=
  ⟨long_word_valid 512 (by omega), long_word_render _, long_word_overrun 512 (Nat.le_refl _)⟩

/-! ## Termination -/

theorem advance_cons (c : Char) (cs : Str) : advance (c :: cs) = cs := rfl

theorem skip_ws_head (s : Str) : is_ws (peek (skip_ws s)) = false := by
  induction s with
  | nil => decide
  | cons c cs ih =>
    rw [skip_ws]
    split
    · exact ih
    · rename_i h
      simpa [peek] using h

/-- Outside quotes, on input that starts with neither an end of line nor a
space or tab, the inner loop either stops at once on a comma or consumes the
first character. -/
theorem scan_token_bare_progress (c : Char) (cs t r : Str)
    (he : is_eol c = false) (hw : is_ws c = false)
    (h : scan_token NUL 0 (c :: cs) = some (t, r)) :
    (c = ',' ∧ r = c :: cs) ∨ r <:+ cs := by
  rw [scan_token] at h
  simp only [he, Bool.false_eq_true, if_false, ne_eq, not_true_eq_false, hw, Bool.false_or,
    beq_iff_eq] at h
  split at h
  · rename_i hc
    simp only [Nat.ofNat_pos, if_true, Option.some.injEq, Prod.mk.injEq] at h
    exact Or.inl ⟨hc, h.2.symm⟩
  · simp only [Nat.ofNat_pos, if_true] at h
    cases hsc : scan_token NUL (0 + 1) cs with
    | none => rw [hsc] at h; cases h
    | some tr =>
      obtain ⟨t1, r1⟩ := tr
      rw [hsc] at h
      simp only [Option.some.injEq, Prod.mk.injEq] at h
      obtain ⟨-, rfl⟩ := h
      exact Or.inr (scan_token_initial _ _ _ _ _ hsc).2

/-- The outer loop of the tokenizer consumes input on every turn, so fuel
beyond the length of the input is never used up. -/
theorem parse_loop_fuel (fuel : Nat) (inp : Str) (result : StrVec) (h : inp.length < fuel) :
    parse_loop fuel inp result ≠ Outcome.out_of_fuel := by
  induction fuel generalizing inp result with
  | zero => omega
  | succ fuel ih =>
    rw [parse_loop]
    split
    · simp
    · simp only []
      split
      · simp
      · rename_i hne1 hne2
        have hsuf := skip_ws_suffix inp
        have hlen1 : (skip_ws inp).length ≤ inp.length := hsuf.length_le
        cases hin1 : skip_ws inp with
        | nil => rw [hin1] at hne2; exact absurd (by decide : is_eol (peek []) = true) hne2
        | cons c cs =>
          rw [hin1] at hne2 hlen1
          have hws : is_ws c = false := by
            have := skip_ws_head inp
            rw [hin1] at this
            exact this
          have hec : is_eol c = false := by simpa [peek] using hne2
          simp only [peek_cons, advance_cons]
          simp only [List.length_cons] at hlen1
          by_cases hq : (c == DQUOTE || c == SQUOTE) = true
          · simp only [hq, if_true]
            cases hsc : scan_token c 0 cs with
            | none => simp
            | some tr =>
              obtain ⟨t, r⟩ := tr
              simp only []
              apply ih
              have hr : r.length ≤ cs.length := (scan_token_initial _ _ _ _ _ hsc).2.length_le
              have h4 : (skip_ws r).length ≤ r.length := (skip_ws_suffix r).length_le
              split
              · have := (advance_suffix (skip_ws r)).length_le
                omega
              · omega
          · simp only [hq, Bool.false_eq_true, if_false]
            cases hsc : scan_token NUL 0 (c :: cs) with
            | none => simp
            | some tr =>
              obtain ⟨t, r⟩ := tr
              simp only []
              apply ih
              rcases scan_token_bare_progress c cs t r hec hws hsc with ⟨hc, hr⟩ | hr
              · subst hr
                rw [skip_ws_cons c cs hws, peek_cons, if_pos hc, advance_cons]
                omega
              · have hr' : r.length ≤ cs.length := hr.length_le
                have h4 : (skip_ws r).length ≤ r.length := (skip_ws_suffix r).length_le
                split
                · have := (advance_suffix (skip_ws r)).length_le
                  omega
                · omega

/-- The tokenizer terminates: it never runs out of the fuel `parse` gives it. -/
theorem parse_terminates (input : Str) : CTokenizer.parse input ≠ Outcome.out_of_fuel :=
  parse_loop_fuel _ _ _ (Nat.lt_succ_self _)

theorem read_line_terminates (st : ReadState) (b : Str) :
    read_line st b ≠ Outcome.out_of_fuel := by
  unfold read_line
  simp only []
  split
  · simp
  · split
    · split <;> simp
    · split
      · simp
      · split
        · simp
        · split
          · simp
          · split
            · simp
            · split
              · simp
              · rename_i q hq
                have := parse_terminates (advance q)
                cases hp : CTokenizer.parse (advance q) with
                | ok v => simp
                | buffer_overrun => simp
                | out_of_fuel => exact absurd hp this

theorem run_lines_terminates (st : ReadState) (lines : List Str) :
    run_lines st lines ≠ Outcome.out_of_fuel := by
  induction lines generalizing st with
  | nil => simp [run_lines]
  | cons b rest ih =>
    rw [run_lines]
    cases hb : read_line st b with
    | ok s1 => exact ih s1
    | buffer_overrun => simp
    | out_of_fuel => exact absurd hb (read_line_terminates st b)

/-- The call `read` always returns, unless a line makes the code write past
one of its token buffers. -/
theorem read_terminates (cf : CConfigFile) (ifile : Str) :
    cf.read ifile ≠ Outcome.out_of_fuel := by
  rw [read_eq_run_lines]
  have := run_lines_terminates (read_init cf) (file_buffers ifile)
  cases hr : run_lines (read_init cf) (file_buffers ifile) with
  | ok s => simp
  | buffer_overrun => simp
  | out_of_fuel => exact absurd hr this

/-! ## Lines that fit the buffers -/

theorem scan_token_fits (q : Char) (out : Nat) (s : Str) (h : out + s.length < 512) :
    scan_token q out s ≠ none := by
  induction s generalizing out with
  | nil =>
    have ho : out < 512 := by simpa using h
    simp [scan_token, ho]
  | cons c cs ih =>
    simp only [List.length_cons] at h
    have ho : out < 512 := by omega
    have hrec := ih (out + 1) (by omega)
    rw [scan_token]
    simp only [ho, if_true]
    cases hsc : scan_token q (out + 1) cs with
    | none => exact absurd hsc hrec
    | some tr =>
      obtain ⟨t, r⟩ := tr
      simp only []
      split
      · simp
      · split
        · split <;> simp
        · split <;> simp

/-- On input shorter than the token buffer the tokenizer never writes past it. -/
theorem parse_loop_fits (fuel : Nat) (inp : Str) (result : StrVec) (h : inp.length < 512) :
    parse_loop fuel inp result ≠ Outcome.buffer_overrun := by
  induction fuel generalizing inp result with
  | zero => simp [parse_loop]
  | succ fuel ih =>
    rw [parse_loop]
    split
    · simp
    · simp only []
      split
      · simp
      · have h1 : (skip_ws inp).length ≤ inp.length := (skip_ws_suffix inp).length_le
        have h2 : (advance (skip_ws inp)).length ≤ (skip_ws inp).length :=
          (advance_suffix _).length_le
        have hin2 : (if (peek (skip_ws inp) == DQUOTE || peek (skip_ws inp) == SQUOTE) = true
            then advance (skip_ws inp) else skip_ws inp).length < 512 := by
          split <;> omega
        split
        · rename_i hsc
          exact absurd hsc (scan_token_fits _ 0 _ (by simpa using hin2))
        · rename_i token in3 hsc
          apply ih
          have h3 : in3.length ≤ _ := (scan_token_initial _ _ _ _ _ hsc).2.length_le
          have h4 : (skip_ws in3).length ≤ in3.length := (skip_ws_suffix in3).length_le
          have h5 : (advance (skip_ws in3)).length ≤ (skip_ws in3).length :=
            (advance_suffix _).length_le
          split <;> omega

theorem parse_fits (input : Str) (h : input.length < 512) :
    CTokenizer.parse input ≠ Outcome.buffer_overrun :=
  parse_loop_fits _ _ _ h

/-- The loop body can overrun a buffer only on a header line or on a key line
read outside a script block. -/
theorem read_line_overrun_cases (st : ReadState) (b : Str)
    (h : read_line st b = Outcome.buffer_overrun) :
    header_line (line_text b) = true ∨
      (key_line (line_text b) = true ∧ st.in_script = false) := by
  by_cases hh : header_line (line_text b) = true
  · exact Or.inl hh
  · by_cases hk : key_line (line_text b) = true ∧ st.in_script = false
    · exact Or.inr hk
    · exfalso
      have hh' : header_line (line_text b) = false := by simpa using hh
      have hnul := line_text_no_nul b
      unfold read_line at h
      simp only [] at h
      rw [show chop_at '\r' (chop_at '\n' (c_str b)) = line_text b from rfl] at h
      unfold header_line at hh'
      unfold key_line at hk
      rw [skip_spaces_eq] at h
      generalize (line_text b).dropWhile (· == ' ') = p at h hh' hk
      cases p with
      | nil => simp [peek] at h
      | cons c rest =>
        have e1 : peek (c :: rest) = c := rfl
        have e2 : advance (c :: rest) = rest := rfl
        rw [e1, e2] at h
        have hc2 : ¬ c = '[' := by simpa using hh'
        split at h
        · cases h
        · rename_i hcond
          try rw [if_neg hc2] at h
          split at h
          · cases h
          · rename_i hc3
            split at h
            · cases h
            · rename_i hc4
              split at h
              · cases h
              · rename_i hs
                apply hk
                refine ⟨?_, by simpa using hs⟩
                have h1 : ¬ c = '#' := fun e => hcond (Or.inr (Or.inl e))
                have h5 : ¬ (c = '/' ∧ rest.head? = some '/') := fun e =>
                  hcond (Or.inr (Or.inr ⟨e.1, (peek_eq_iff_head rest '/' (by decide)).2 e.2⟩))
                simp only [Bool.and_eq_true, bne_iff_ne, ne_eq, h1, hc2, hc3, hc4,
                  not_false_eq_true, and_self, Bool.not_eq_true', true_and]
                by_cases e : c = '/'
                · have : ¬ rest.head? = some '/' := fun e' => h5 ⟨e, e'⟩
                  simp [e, this]
                · simp [e]

theorem spec_base_key_length (l : Str) : (spec_base_key l).length ≤ l.length := by
  unfold spec_base_key
  rw [List.length_map]
  exact ((List.takeWhile_sublist _).length_le).trans (List.dropWhile_sublist _).length_le

theorem header_section_name_length (l : Str) : (header_section_name l).length ≤ l.length := by
  unfold header_section_name
  rw [List.length_map]
  exact ((List.takeWhile_sublist _).length_le).trans
    (((List.dropWhile_sublist _).length_le).trans
      (((List.drop_sublist _ _).length_le).trans (List.dropWhile_sublist _).length_le))

theorem spec_values_fits (l : Str) (h : l.length < 512) :
    spec_values l ≠ Outcome.buffer_overrun := by
  unfold spec_values spec_value_text
  split
  · simp
  · rename_i text ht
    split at ht
    · injection ht with ht
      subst ht
      apply parse_fits
      have := ((List.drop_sublist 1 _).length_le).trans
        (List.dropWhile_sublist (· != '=') (l := l)).length_le
      omega
    · cases ht

/-- On a line shorter than the token buffers the loop body completes. -/
theorem read_line_fits (st : ReadState) (b : Str) (h : (line_text b).length < 512) :
    read_line st b ≠ Outcome.buffer_overrun := by
  intro hov
  rcases read_line_overrun_cases st b hov with hh | ⟨hk, hd⟩
  · rw [read_line_header st b hh,
      if_pos (Nat.lt_of_le_of_lt (header_section_name_length _) h)] at hov
    cases hov
  · rw [read_line_key st b hd hk,
      if_pos (Nat.lt_of_le_of_lt (spec_base_key_length _) h)] at hov
    cases hv : spec_values (line_text b) with
    | ok V => rw [hv] at hov; cases hov
    | buffer_overrun => exact spec_values_fits _ h hv
    | out_of_fuel => rw [hv] at hov; cases hov

/-- The call `read` returns a store for every file whose lines are shorter than
the token buffers. -/
theorem read_ok_of_short_lines (cf : CConfigFile) (ifile : Str)
    (h : ∀ b ∈ file_buffers ifile, (line_text b).length < 512) :
    ∃ cf1, cf.read ifile = Outcome.ok cf1 := by
  have hrun : ∀ (lines : List Str) (st : ReadState),
      (∀ b ∈ lines, (line_text b).length < 512) → ∃ s, run_lines st lines = Outcome.ok s := by
    intro lines
    induction lines with
    | nil => exact fun st _ => ⟨st, rfl⟩
    | cons b rest ih =>
      intro st hl
      rw [run_lines]
      cases hb : read_line st b with
      | ok s1 => exact ih s1 (fun x hx => hl x (List.mem_cons_of_mem _ hx))
      | buffer_overrun => exact absurd hb (read_line_fits st b (hl b (List.mem_cons_self _ _)))
      | out_of_fuel => exact absurd hb (read_line_terminates st b)
  obtain ⟨s, hs⟩ := hrun (file_buffers ifile) (read_init cf) h
  rw [read_eq_run_lines, hs]
  exact ⟨_, rfl⟩

/-! ## The integer decoder -/

theorem isDigit_iff (c : Char) : c.isDigit = true ↔ 48 ≤ c.toNat ∧ c.toNat ≤ 57 := by
  unfold Char.isDigit
  simp only [Bool.and_eq_true, decide_eq_true_eq, ge_iff_le]
  rw [UInt32.le_def, UInt32.le_def]
  rfl

theorem digit_value_lt_ten (c : Char) : digit_value c < 10 ↔ c.isDigit = true := by
  rw [isDigit_iff]
  unfold digit_value
  constructor
  · intro h
    split at h
    · assumption
    · split at h
      · omega
      · split at h <;> omega
  · intro h
    simp only [h, and_self, if_true]
    omega

theorem digit_value_of_digit (c : Char) (h : c.isDigit = true) : digit_value c = c.toNat - 48 := by
  rw [isDigit_iff] at h
  simp [digit_value, h]

/-- The copy loop of `s_to_i` keeps the first `remaining` characters that are
not underscores. -/
theorem copy_without_underscores_eq (l : Str) (remaining : Nat) :
    copy_without_underscores l remaining = (l.filter (· != '_')).take remaining := by
  induction l generalizing remaining with
  | nil => simp [copy_without_underscores]
  | cons c cs ih =>
    rw [copy_without_underscores]
    by_cases hr : remaining = 0
    · simp [hr]
    · obtain ⟨r, rfl⟩ : ∃ r, remaining = r + 1 := ⟨remaining - 1, by omega⟩
      by_cases hc : c = '_'
      · simp [hc, ih]
      · simp [hc, ih]

theorem c_str_filter (l : Str) :
    c_str (l.filter (· != '_')) = (c_str l).filter (· != '_') := by
  induction l with
  | nil => rfl
  | cons c cs ih =>
    by_cases hc : c = '_'
    · subst hc
      have : ¬ ('_' : Char) = NUL := by decide
      simp [c_str, this, ih]
    · by_cases h0 : c = NUL
      · simp [c_str, h0, hc, List.filter_cons]
      · simp [c_str, h0, hc, List.filter_cons, ih]

/-- The value of a run of digits of the base, as `strtol` accumulates it. -/
theorem strtol_digits_eq (base : Nat) (ds : Str) (acc : Nat)
    (h : ∀ c ∈ ds, digit_value c < base) :
    strtol_digits base acc ds = acc * base ^ ds.length + numeral_value base ds := by
  induction ds generalizing acc with
  | nil => simp [strtol_digits, numeral_value]
  | cons c cs ih =>
    have hc := h c (by simp)
    rw [strtol_digits, if_pos hc, ih _ (fun x hx => h x (List.mem_cons_of_mem _ hx))]
    unfold numeral_value
    simp only [List.map_cons, List.reverse_cons, Nat.ofDigits_append, Nat.ofDigits_singleton,
      List.length_reverse, List.length_map, List.length_cons]
    ring

theorem to_int32_of_range (x : Int) (h1 : -(2 ^ 31) ≤ x) (h2 : x < 2 ^ 31) : to_int32 x = x := by
  unfold to_int32
  omega

theorem to_int32_range (x : Int) : -(2 ^ 31) ≤ to_int32 x ∧ to_int32 x < 2 ^ 31 := by
  unfold to_int32
  omega

theorem isspace_of_digit (c : Char) (h : c.isDigit = true) : isspace c = false := by
  rw [isDigit_iff] at h
  unfold isspace
  have h1 : ¬ c.toNat = 32 := by omega
  have h2 : ¬ (9 ≤ c.toNat ∧ c.toNat ≤ 13) := by omega
  cases hb : (c.toNat == 32 || decide (9 ≤ c.toNat) && decide (c.toNat ≤ 13)) with
  | false => rfl
  | true =>
    simp only [Bool.or_eq_true, beq_iff_eq, Bool.and_eq_true, decide_eq_true_eq] at hb
    rcases hb with hb | hb
    · exact absurd hb h1
    · exact absurd hb h2

theorem char_ne_of_toNat (c d : Char) (h : c.toNat ≠ d.toNat) : c ≠ d :=
  fun e => h (e ▸ rfl)

/-- On a text that starts with an optional minus sign followed by a decimal
digit, `strtol` reads the digits after the sign. -/
theorem strtol_signed (neg : Bool) (c0 : Char) (rest : Str) (h0 : c0.isDigit = true) :
    strtol ((if neg then ['-'] else []) ++ c0 :: rest) =
      if neg then max (-(strtol_magnitude (c0 :: rest) : Int)) LONG_MIN
      else min (strtol_magnitude (c0 :: rest) : Int) LONG_MAX := by
  have hd := (isDigit_iff c0).1 h0
  have hsp := isspace_of_digit c0 h0
  have hm : c0 ≠ '-' := char_ne_of_toNat _ _ (by
    have : ('-' : Char).toNat = 45 := by decide
    omega)
  have hp : c0 ≠ '+' := char_ne_of_toNat _ _ (by
    have : ('+' : Char).toNat = 43 := by decide
    omega)
  cases neg with
  | true =>
    have hs : skip_isspace ('-' :: c0 :: rest) = '-' :: c0 :: rest := by
      rw [skip_isspace]
      simp [show isspace '-' = false by decide]
    simp only [if_true, List.singleton_append, strtol, hs, peek_cons, beq_self_eq_true,
      Bool.true_or, advance_cons]
  | false =>
    have hs : skip_isspace (c0 :: rest) = c0 :: rest := by
      rw [skip_isspace]
      simp [hsp]
    have hpl : (c0 == '+') = false := by simp [hp]
    have hneg : (c0 == '-') = false := by simp [hm]
    simp only [Bool.false_eq_true, if_false, List.nil_append, strtol, hs, peek_cons, hpl, hneg,
      Bool.or_self]

/-- The digits part on a decimal numeral. -/
theorem strtol_magnitude_dec (d : Char) (ds : Str) (hd : d.isDigit = true) (h1 : d ≠ '0')
    (hds : ∀ c ∈ ds, c.isDigit = true) :
    strtol_magnitude (d :: ds) = numeral_value 10 (d :: ds) := by
  unfold strtol_magnitude
  have hall : ∀ c ∈ d :: ds, digit_value c < 10 := by
    intro c hc
    rcases List.mem_cons.1 hc with rfl | hc
    · exact (digit_value_lt_ten _).2 hd
    · exact (digit_value_lt_ten _).2 (hds c hc)
  have hz : (d == '0') = false := by simp [h1]
  simp only [peek_cons, hz, Bool.false_and, Bool.false_eq_true, if_false]
  rw [strtol_digits_eq 10 _ 0 hall]
  simp

/-- The digits part on an octal numeral. -/
theorem strtol_magnitude_oct (ds : Str) (hds : ∀ c ∈ ds, digit_value c < 8) :
    strtol_magnitude ('0' :: ds) = numeral_value 8 ds := by
  unfold strtol_magnitude
  have hx : (peek ds == 'x' || peek ds == 'X') = false := by
    cases ds with
    | nil => decide
    | cons c cs =>
      have hc := hds c (by simp)
      have h1 : c ≠ 'x' := by
        rintro rfl
        exact absurd hc (by decide)
      have h2 : c ≠ 'X' := by
        rintro rfl
        exact absurd hc (by decide)
      simp [peek_cons, h1, h2]
  have hall : ∀ c ∈ '0' :: ds, digit_value c < 8 := by
    intro c hc
    rcases List.mem_cons.1 hc with rfl | hc
    · decide
    · exact hds c hc
  simp only [peek_cons, advance_cons, hx, beq_self_eq_true, Bool.true_and, Bool.false_and,
    Bool.false_eq_true, if_false, if_true]
  rw [strtol_digits_eq 8 _ 0 hall]
  unfold numeral_value
  simp [Nat.ofDigits_append, show digit_value '0' = 0 by decide]

/-- The digits part on a hexadecimal numeral. -/
theorem strtol_magnitude_hex (x : Char) (ds : Str) (hx : x = 'x' ∨ x = 'X') (hne : ds ≠ [])
    (hds : ∀ c ∈ ds, digit_value c < 16) :
    strtol_magnitude ('0' :: x :: ds) = numeral_value 16 ds := by
  unfold strtol_magnitude
  have hxx : (x == 'x' || x == 'X') = true := by
    rcases hx with rfl | rfl <;> decide
  have hpk : digit_value (peek ds) < 16 := by
    cases ds with
    | nil => exact absurd rfl hne
    | cons c cs => exact hds c (by simp)
  simp only [peek_cons, advance_cons, hxx, beq_self_eq_true, Bool.true_and, hpk, decide_True,
    if_true]
  rw [strtol_digits_eq 16 _ 0 hds]
  simp

/-- Source `s_to_i` on a token without NUL or underscore that fits the buffer. -/
theorem s_to_i_plain (tok : Str) (h : ∀ c ∈ tok, c ≠ NUL ∧ c ≠ '_') (hlen : tok.length ≤ 99) :
    s_to_i tok = to_int32 (strtol tok) := by
  unfold s_to_i
  rw [c_str_of_no_nul tok (fun hm => (h _ hm).1 rfl), copy_without_underscores_eq]
  have hf : tok.filter (· != '_') = tok := by
    rw [List.filter_eq_self]
    intro c hc
    simp [(h c hc).2]
  rw [hf, List.take_of_length_le hlen]

theorem digit_value_ne (c d : Char) (hc : digit_value c < 36) (hd : digit_value d = 36) :
    c ≠ d := by
  rintro rfl
  omega

theorem numeral_value_lower_bound (base : Nat) (d : Char) (ds : Str) (hd : 1 ≤ digit_value d) :
    base ^ ds.length ≤ numeral_value base (d :: ds) := by
  unfold numeral_value
  simp only [List.map_cons, List.reverse_cons, Nat.ofDigits_append, Nat.ofDigits_singleton,
    List.length_reverse, List.length_map]
  calc base ^ ds.length = base ^ ds.length * 1 := (Nat.mul_one _).symm
    _ ≤ base ^ ds.length * digit_value d := Nat.mul_le_mul_left _ hd
    _ ≤ _ := Nat.le_add_left _ _

theorem digit_value_pos (d : Char) (hd : d.isDigit = true) (h0 : d ≠ '0') :
    1 ≤ digit_value d := by
  rw [digit_value_of_digit d hd]
  have h := (isDigit_iff d).1 hd
  have : d.toNat ≠ 48 := fun e => h0 ((toNat_eq_iff d 48 (by decide)).1 e)
  omega

/-- C11: integer decode of a token is integer decode of the token with every
underscore removed; so a token that is a decimal numeral with first digit 1 to
9 and value below 2^31, with underscores inserted anywhere, decodes to the
value of the numeral. -/
theorem underscores_stripped (t : Str) :
    s_to_i t = s_to_i (t.filter (· != '_')) ∧
    (∀ (d : Char) (ds : Str), t.filter (· != '_') = d :: ds →
      d.isDigit = true → d ≠ '0' → (∀ c ∈ ds, c.isDigit = true) →
      numeral_value 10 (d :: ds) < 2 ^ 31 →
      s_to_i t = (numeral_value 10 (d :: ds) : Int)) := by
  have hstrip : s_to_i t = s_to_i (t.filter (· != '_')) := by
    unfold s_to_i
    rw [copy_without_underscores_eq, copy_without_underscores_eq, c_str_filter,
      List.filter_filter]
    simp
  refine ⟨hstrip, ?_⟩
  intro d ds hnum hd h0 hds hval
  rw [hstrip, hnum]
  have hdig : ∀ c ∈ d :: ds, c.isDigit = true := by
    intro c hc
    rcases List.mem_cons.1 hc with rfl | hc
    · exact hd
    · exact hds c hc
  have hplain : ∀ c ∈ d :: ds, c ≠ NUL ∧ c ≠ '_' := by
    intro c hc
    have h10 := (digit_value_lt_ten c).2 (hdig c hc)
    exact ⟨digit_value_ne c NUL (by omega) (by decide),
      digit_value_ne c '_' (by omega) (by decide)⟩
  have hlen : (d :: ds).length ≤ 99 := by
    by_contra hc
    have h99 : 99 ≤ ds.length := by
      simp only [List.length_cons] at hc
      omega
    have h1 := numeral_value_lower_bound 10 d ds (digit_value_pos d hd h0)
    have h2 : 10 ^ 99 ≤ 10 ^ ds.length := Nat.pow_le_pow_right (by norm_num) h99
    have h3 : (2 : Nat) ^ 31 < 10 ^ 99 := by norm_num
    omega
  rw [s_to_i_plain _ hplain hlen]
  have hs := strtol_signed false d ds hd
  simp only [Bool.false_eq_true, if_false, List.nil_append] at hs
  rw [hs, strtol_magnitude_dec d ds hd h0 hds]
  have hv : ((numeral_value 10 (d :: ds) : Nat) : Int) < 2 ^ 31 := by exact_mod_cast hval
  have hnn : (0 : Int) ≤ (numeral_value 10 (d :: ds) : Nat) := Int.natCast_nonneg _
  have hmin : min ((numeral_value 10 (d :: ds) : Nat) : Int) LONG_MAX =
      (numeral_value 10 (d :: ds) : Nat) := by
    apply min_eq_left
    unfold LONG_MAX
    omega
  rw [hmin]
  exact to_int32_of_range _ (by omega) hv

/-- C11 on the token `3_000` and on `_1__2_`. -/
theorem underscores_stripped_witness :
    s_to_i "3_000".toList = 3000 ∧ s_to_i "_1__2_".toList = 12 := by
  have h1 := (underscores_stripped "3_000".toList).2 '3' "000".toList (by decide) (by decide)
    (by decide) (by decide) (by decide)
  have h2 := (underscores_stripped "_1__2_".toList).2 '1' "2".toList (by decide) (by decide)
    (by decide) (by decide) (by decide)
  exact ⟨h1.trans (by decide), h2.trans (by decide)⟩

/-- Integer decode of a signed numeral that fits the buffer: the clamped and
truncated value of the digits that `strtol` reads after the sign. -/
theorem s_to_i_signed (neg : Bool) (c0 : Char) (rest : Str) (v : Nat)
    (h0 : c0.isDigit = true) (hrest : ∀ c ∈ rest, digit_value c < 36)
    (hlen : ((if neg then ['-'] else []) ++ c0 :: rest).length ≤ 99)
    (hmag : strtol_magnitude (c0 :: rest) = v)
    (hr1 : -(2 ^ 31) ≤ (if neg then -(v : Int) else (v : Int)))
    (hr2 : (if neg then -(v : Int) else (v : Int)) ≤ 2 ^ 31 - 1) :
    s_to_i ((if neg then ['-'] else []) ++ c0 :: rest) = if neg then -(v : Int) else (v : Int) := by
  have hplain : ∀ c ∈ (if neg then ['-'] else []) ++ c0 :: rest, c ≠ NUL ∧ c ≠ '_' := by
    intro c hc
    rcases List.mem_append.1 hc with hc | hc
    · cases neg with
      | true =>
        simp only [if_true, List.mem_singleton] at hc
        subst hc
        decide
      | false => simp at hc
    · have h36 : digit_value c < 36 := by
        rcases List.mem_cons.1 hc with rfl | hc
        · have := (digit_value_lt_ten _).2 h0
          omega
        · exact hrest c hc
      exact ⟨digit_value_ne c NUL h36 (by decide), digit_value_ne c '_' h36 (by decide)⟩
  rw [s_to_i_plain _ hplain hlen, strtol_signed neg c0 rest h0, hmag]
  have hnn : (0 : Int) ≤ (v : Int) := Int.natCast_nonneg _
  cases neg with
  | true =>
    simp only [if_true] at hr1 hr2 ⊢
    have hmax : max (-(v : Int)) LONG_MIN = -(v : Int) := by
      apply max_eq_left
      unfold LONG_MIN
      omega
    rw [hmax]
    exact to_int32_of_range _ hr1 (by omega)
  | false =>
    simp only [Bool.false_eq_true, if_false] at hr1 hr2 ⊢
    have hmin : min (v : Int) LONG_MAX = (v : Int) := by
      apply min_eq_left
      unfold LONG_MAX
      omega
    rw [hmin]
    exact to_int32_of_range _ hr1 (by omega)

/-- C12 (amended): for a token of at most 99 characters made of an optional
minus sign and a numeral whose signed value lies in the signed 32-bit range,
integer decode yields the (negated) hexadecimal value when the numeral is `0x`
or `0X` followed by hex digits, the octal value when it is `0` followed by
octal digits, and the decimal value when it is a digit string starting with a
digit from 1 to 9. -/
theorem base_prefixes (neg : Bool) (numeral : Str)
    (hlen : ((if neg then ['-'] else []) ++ numeral).length ≤ 99) :
    (∀ (x : Char) (ds : Str), numeral = '0' :: x :: ds → (x = 'x' ∨ x = 'X') → ds ≠ [] →
      (∀ c ∈ ds, digit_value c < 16) →
      -(2 ^ 31) ≤ (if neg then -(numeral_value 16 ds : Int) else (numeral_value 16 ds : Int)) →
      (if neg then -(numeral_value 16 ds : Int) else (numeral_value 16 ds : Int)) ≤ 2 ^ 31 - 1 →
      s_to_i ((if neg then ['-'] else []) ++ numeral) =
        if neg then -(numeral_value 16 ds : Int) else (numeral_value 16 ds : Int)) ∧
    (∀ ds : Str, numeral = '0' :: ds → (∀ c ∈ ds, digit_value c < 8) →
      -(2 ^ 31) ≤ (if neg then -(numeral_value 8 ds : Int) else (numeral_value 8 ds : Int)) →
      (if neg then -(numeral_value 8 ds : Int) else (numeral_value 8 ds : Int)) ≤ 2 ^ 31 - 1 →
      s_to_i ((if neg then ['-'] else []) ++ numeral) =
        if neg then -(numeral_value 8 ds : Int) else (numeral_value 8 ds : Int)) ∧
    (∀ (d : Char) (ds : Str), numeral = d :: ds → d.isDigit = true → d ≠ '0' →
      (∀ c ∈ ds, c.isDigit = true) →
      -(2 ^ 31) ≤ (if neg then -(numeral_value 10 numeral : Int)
        else (numeral_value 10 numeral : Int)) →
      (if neg then -(numeral_value 10 numeral : Int) else (numeral_value 10 numeral : Int)) ≤
        2 ^ 31 - 1 →
      s_to_i ((if neg then ['-'] else []) ++ numeral) =
        if neg then -(numeral_value 10 numeral : Int) else (numeral_value 10 numeral : Int)) := by
  refine ⟨?_, ?_, ?_⟩
  · intro x ds hnum hx hne hds hr1 hr2
    subst hnum
    have hrest : ∀ c ∈ x :: ds, digit_value c < 36 := by
      intro c hc
      rcases List.mem_cons.1 hc with rfl | hc
      · rcases hx with rfl | rfl <;> decide
      · have := hds c hc
        omega
    exact s_to_i_signed neg '0' (x :: ds) _ (by decide) hrest hlen
      (strtol_magnitude_hex x ds hx hne hds) hr1 hr2
  · intro ds hnum hds hr1 hr2
    subst hnum
    have hrest : ∀ c ∈ ds, digit_value c < 36 := fun c hc => by
      have := hds c hc
      omega
    exact s_to_i_signed neg '0' ds _ (by decide) hrest hlen (strtol_magnitude_oct ds hds) hr1 hr2
  · intro d ds hnum hd h0 hds hr1 hr2
    subst hnum
    have hrest : ∀ c ∈ ds, digit_value c < 36 := fun c hc => by
      have := (digit_value_lt_ten c).2 (hds c hc)
      omega
    exact s_to_i_signed neg d ds _ hd hrest hlen (strtol_magnitude_dec d ds hd h0 hds) hr1 hr2

/-- C12 (amended) on the tokens `0x1F`, `010` and `-42`. -/
theorem base_prefixes_witness :
    s_to_i "0x1F".toList = 31 ∧ s_to_i "010".toList = 8 ∧ s_to_i "-42".toList = -42 := by
  have h1 := (base_prefixes false "0x1F".toList (by decide)).1 'x' "1F".toList rfl
    (Or.inl rfl) (by decide) (by decide) (by decide) (by decide)
  have h2 := (base_prefixes false "010".toList (by decide)).2.1 "10".toList rfl
    (by decide) (by decide) (by decide)
  have h3 := (base_prefixes true "42".toList (by decide)).2.2 '4' "2".toList rfl
    (by decide) (by decide) (by decide) (by decide) (by decide)
  exact ⟨h1.trans (by decide), h2.trans (by decide), h3.trans (by decide)⟩

set_option maxRecDepth 100000 in
/-- C12 as worded fails on a numeral longer than the buffer of `s_to_i`: the
token of 99 zeros followed by `1` is an octal numeral of value 1, and only its
first 99 characters reach `strtol`, so it decodes to 0. -/
theorem base_prefixes_counterexample :
    (List.replicate 99 '0' ++ ['1'] = '0' :: (List.replicate 98 '0' ++ ['1'])) ∧
    (∀ c ∈ List.replicate 98 '0' ++ ['1'], digit_value c < 8) ∧
    numeral_value 8 (List.replicate 98 '0' ++ ['1']) = 1 ∧
    s_to_i (List.replicate 99 '0' ++ ['1']) = 0 := by
  decide

theorem strtol_magnitude_zero (s : Str) (h : (peek s).isDigit = false) :
    strtol_magnitude s = 0 := by
  unfold strtol_magnitude
  have hz : (peek s == '0') = false := by
    cases hb : (peek s == '0') with
    | false => rfl
    | true =>
      rw [beq_iff_eq] at hb
      rw [hb] at h
      exact absurd h (by decide)
  simp only [hz, Bool.false_and, Bool.false_eq_true, if_false]
  cases s with
  | nil => rfl
  | cons c cs =>
    have hc : ¬ digit_value c < 10 := by
      rw [digit_value_lt_ten]
      simpa [peek_cons] using h
    rw [strtol_digits, if_neg hc]

theorem skip_isspace_cases (s : Str) :
    skip_isspace s = [] ∨ ∃ c cs, skip_isspace s = c :: cs ∧ isspace c = false := by
  induction s with
  | nil => exact Or.inl rfl
  | cons c cs ih =>
    rw [skip_isspace]
    by_cases h : isspace c = true
    · simpa [h] using ih
    · have h' : isspace c = false := by simpa using h
      exact Or.inr ⟨c, cs, by simp [h'], h'⟩

theorem begins_numeral_skip (s : Str) :
    begins_numeral (skip_isspace s) = begins_numeral s := by
  induction s with
  | nil => rfl
  | cons c cs ih =>
    by_cases h : isspace c = true
    · rw [skip_isspace, begins_numeral]
      simp only [h, if_true]
      exact ih
    · have h' : isspace c = false := by simpa using h
      rw [skip_isspace]
      simp only [h', Bool.false_eq_true, if_false]

/-- On a text that does not begin with a numeral `strtol` finds no digits and
returns 0. -/
theorem strtol_zero (s : Str) (h : begins_numeral s = false) : strtol s = 0 := by
  rw [← begins_numeral_skip] at h
  unfold strtol
  rcases skip_isspace_cases s with hs | ⟨c, cs, hs, hsp⟩
  · rw [hs]
    decide
  · rw [hs] at h ⊢
    rw [begins_numeral] at h
    simp only [hsp, Bool.false_eq_true, if_false] at h
    simp only [peek_cons, advance_cons]
    by_cases hsign : c = '-' ∨ c = '+'
    · rw [if_pos hsign] at h
      have hb : (c == '-' || c == '+') = true := by
        rcases hsign with rfl | rfl <;> decide
      simp only [hb, if_true, strtol_magnitude_zero cs h]
      split <;> decide
    · rw [if_neg hsign] at h
      have hb : (c == '-' || c == '+') = false := by
        simp only [not_or] at hsign
        simp [hsign.1, hsign.2]
      have hneg : (c == '-') = false := by
        simp only [not_or] at hsign
        simp [hsign.1]
      have hpl : (c == '+') = false := by
        simp only [not_or] at hsign
        simp [hsign.2]
      have hm : strtol_magnitude (c :: cs) = 0 :=
        strtol_magnitude_zero (c :: cs) (by simpa [peek_cons] using h)
      simp only [hneg, hpl, Bool.or_self, Bool.false_eq_true, if_false, hm]
      decide

theorem begins_numeral_of_initial (p u : Str) (hp : p <+: u) (h : begins_numeral p = true) :
    begins_numeral u = true := by
  induction p generalizing u with
  | nil => simp [begins_numeral] at h
  | cons c p1 ih =>
    obtain ⟨r, rfl⟩ := hp
    rw [List.cons_append, begins_numeral] at *
    by_cases hsp : isspace c = true
    · simp only [hsp, if_true] at h ⊢
      exact ih _ ⟨r, rfl⟩ h
    · simp only [hsp, Bool.false_eq_true, if_false] at h ⊢
      by_cases hsign : c = '-' ∨ c = '+'
      · simp only [hsign, if_true] at h ⊢
        cases p1 with
        | nil => exact absurd h (by decide)
        | cons x xs => simpa [peek_cons] using h
      · simp only [hsign, if_false] at h ⊢
        exact h

/-- C13: integer decode returns a 32-bit value for every token, and 0 for every
token whose underscore-stripped text does not begin with a numeral (after
white space and an optional sign, a decimal digit). -/
theorem decode_int_total (t : Str) :
    (-(2 ^ 31) ≤ decode_int t ∧ decode_int t < 2 ^ 31) ∧
    (begins_numeral (t.filter (· != '_')) = false → decode_int t = 0) := by
  refine ⟨to_int32_range _, ?_⟩
  intro h
  unfold decode_int s_to_i
  rw [copy_without_underscores_eq]
  have hini : ((c_str t).filter (· != '_')).take 99 <+: t.filter (· != '_') :=
    (List.take_prefix _ _).trans ((c_str_initial t).filter _)
  have hb : begins_numeral (((c_str t).filter (· != '_')).take 99) = false := by
    cases hbn : begins_numeral (((c_str t).filter (· != '_')).take 99) with
    | false => rfl
    | true =>
      rw [begins_numeral_of_initial _ _ hini hbn] at h
      cases h
  rw [strtol_zero _ hb]
  decide

/-- C13 on the tokens `abc`, the empty token and `___`. -/
theorem decode_int_total_witness :
    decode_int "abc".toList = 0 ∧ decode_int [] = 0 ∧ decode_int "___".toList = 0 :=
  ⟨(decode_int_total "abc".toList).2 (by decide), (decode_int_total []).2 (by decide),
    (decode_int_total "___".toList).2 (by decide)⟩

theorem c_str_idem (t : Str) : c_str (c_str t) = c_str t :=
  c_str_of_no_nul _ (c_str_no_nul t)

theorem peek_c_str (t : Str) (c : Char) (hc : c ≠ NUL) :
    peek (c_str t) = c ↔ t.head? = some c := by
  cases t with
  | nil =>
    simp only [c_str, peek, List.head?_nil]
    constructor
    · intro e; exact absurd e.symm hc
    · intro e; cases e
  | cons x xs =>
    by_cases hx : x = NUL
    · subst hx
      simp only [c_str, if_true, peek, List.head?_cons, Option.some.injEq]
    · simp [c_str, hx, peek]

/-- Boolean decode on the C string of the token: true exactly when its first
character is one of `1` to `9` or its lowercased text is `true` or `on`. -/
theorem decode_bool_c_str (t : Str) :
    decode_bool t = true ↔
      ((∃ c, t.head? = some c ∧ '1' ≤ c ∧ c ≤ '9') ∨
        make_lower (c_str t) = "true".toList ∨ make_lower (c_str t) = "on".toList) := by
  unfold decode_bool parse_bool
  rw [c_str_idem]
  have hdigit : ('1' ≤ peek (c_str t) ∧ peek (c_str t) ≤ '9') ↔
      ∃ c, t.head? = some c ∧ '1' ≤ c ∧ c ≤ '9' := by
    constructor
    · intro h
      have hne : peek (c_str t) ≠ NUL := by
        intro e
        rw [e] at h
        exact absurd h.1 (by decide)
      exact ⟨peek (c_str t), (peek_c_str t _ hne).1 rfl, h⟩
    · rintro ⟨c, hc, h⟩
      have hne : c ≠ NUL := by
        rintro rfl
        exact absurd h.1 (by decide)
      rw [(peek_c_str t c hne).2 hc]
      exact h
  rw [← hdigit]
  by_cases h1 : '1' ≤ peek (c_str t) ∧ peek (c_str t) ≤ '9'
  · simp [h1]
  · by_cases h2 : make_lower (c_str t) = "true".toList
    · simp [h1, h2]
    · by_cases h3 : make_lower (c_str t) = "on".toList
      · simp [h1, h2, h3]
      · simp [h1, h2, h3]

/-- C14: for every token (a C string, so without NUL) boolean decode returns
true exactly when the first character of the token is one of `1` to `9`, or
the token with its ASCII letters lowercased is `true` or `on`. -/
theorem decode_bool_iff (t : Str) (h : NUL ∉ t) :
    decode_bool t = true ↔
      ((∃ c, t.head? = some c ∧ '1' ≤ c ∧ c ≤ '9') ∨
        t.map Char.toLower = "true".toList ∨ t.map Char.toLower = "on".toList) := by
  rw [decode_bool_c_str, c_str_of_no_nul t h, make_lower_eq_map t h]

/-- C14 on the tokens `On`, `TRUE`, `5`, `0`, `07` and the empty token. -/
theorem decode_bool_iff_witness :
    decode_bool "On".toList = true ∧ decode_bool "TRUE".toList = true ∧
    decode_bool "5".toList = true ∧ ¬ decode_bool "0".toList = true ∧
    ¬ decode_bool "07".toList = true ∧ ¬ decode_bool [] = true :=
  ⟨(decode_bool_iff "On".toList (by decide)).2 (Or.inr (Or.inr (by decide))),
    (decode_bool_iff "TRUE".toList (by decide)).2 (Or.inr (Or.inl (by decide))),
    (decode_bool_iff "5".toList (by decide)).2 (Or.inl ⟨'5', rfl, by decide⟩),
    fun e => absurd ((decode_bool_iff "0".toList (by decide)).1 e) (by decide),
    fun e => absurd ((decode_bool_iff "07".toList (by decide)).1 e) (by decide),
    fun e => absurd ((decode_bool_iff [] (by decide)).1 e) (by decide)⟩

/-! ## Typed fetches -/

theorem get_vector_loop_eq {α : Type} (decode : Str → α) (values : StrVec) (acc : List α) :
    get_vector_loop decode values acc = acc ++ values.map decode := by
  induction values generalizing acc with
  | nil => simp [get_vector_loop]
  | cons s rest ih => simp [get_vector_loop, ih]

/-- A vector fetch of a key that lookup finds maps the decoder over the value
list, whatever the caller's vector held. -/
theorem get_vector_found {α : Type} (decode : Str → α) (cf : CConfigFile) (key : Str)
    (v : StrVec) (old : List α) (h : cf.lookup key = Except.ok (true, v)) :
    cf.get_vector decode key old = Except.ok (true, v.map decode) := by
  unfold CConfigFile.get_vector
  simp only [h, if_true, get_vector_loop_eq, List.drop_length, List.nil_append]

/-- A vector fetch of an absent key in lenient mode. -/
theorem get_vector_absent {α : Type} (decode : Str → α) (cf : CConfigFile) (key : Str)
    (old : List α) (hl : cf.m_throw_on_fail = false) (ha : (cf.exists key).1 = false) :
    cf.get_vector decode key old = Except.ok (false, []) := by
  unfold CConfigFile.get_vector CConfigFile.lookup
  simp only [ha, hl, Bool.false_eq_true, if_false, List.drop_length]

/-- C16: for a key that lookup finds with value list v, the typed vector fetch
for integer, boolean and string returns true and the sequence of the decodings
of the entries of v in order (v itself for string), of length |v|, whatever
the result sequence held before the call; in lenient mode the fetch of an
absent key returns false and an empty sequence. -/
theorem vector_fetch (cf : CConfigFile) (key : Str) :
    (∀ v, cf.lookup key = Except.ok (true, v) →
      (∀ old, cf.get_int32_vector key old = Except.ok (true, v.map decode_int)) ∧
      (∀ old, cf.get_bool_vector key old = Except.ok (true, v.map decode_bool)) ∧
      (∀ old, cf.get_string_vector key old = Except.ok (true, v)) ∧
      (v.map decode_int).length = v.length ∧ (v.map decode_bool).length = v.length) ∧
    (cf.m_throw_on_fail = false → (cf.exists key).1 = false →
      (∀ old, cf.get_int32_vector key old = Except.ok (false, [])) ∧
      (∀ old, cf.get_bool_vector key old = Except.ok (false, [])) ∧
      (∀ old, cf.get_string_vector key old = Except.ok (false, []))) := by
  refine ⟨fun v h => ⟨fun old => get_vector_found _ cf key v old h,
    fun old => get_vector_found _ cf key v old h, fun old => ?_, by simp, by simp⟩,
    fun hl ha => ⟨fun old => get_vector_absent _ cf key old hl ha,
      fun old => get_vector_absent _ cf key old hl ha,
      fun old => get_vector_absent _ cf key old hl ha⟩⟩
  have := get_vector_found decode_string cf key v old h
  rw [show v.map decode_string = v from List.map_id _] at this
  exact this

/-- C16 on a store that holds `nums` with the value list `1`, `0x10`, `on`:
the three fetches into sequences that held something, and the fetch of the
absent key `none` in lenient mode. -/
theorem vector_fetch_witness :
    (({ CConfigFile.new with
        m_specs := [("::nums".toList, ["1".toList, "0x10".toList, "on".toList])] } :
      CConfigFile).get_int32_vector "nums".toList [7, 8] = Except.ok (true, [1, 16, 0]) ∧
     ({ CConfigFile.new with
        m_specs := [("::nums".toList, ["1".toList, "0x10".toList, "on".toList])] } :
      CConfigFile).get_bool_vector "nums".toList [false] = Except.ok (true, [true, false, true]) ∧
     ({ CConfigFile.new with
        m_specs := [("::nums".toList, ["1".toList, "0x10".toList, "on".toList])] } :
      CConfigFile).get_string_vector "nums".toList [[]] =
        Except.ok (true, ["1".toList, "0x10".toList, "on".toList])) ∧
    (({ CConfigFile.new with m_throw_on_fail := false } :
      CConfigFile).get_int32_vector "none".toList [7, 8] = Except.ok (false, [])) := by
  have h := (vector_fetch ({ CConfigFile.new with
        m_specs := [("::nums".toList, ["1".toList, "0x10".toList, "on".toList])] })
      "nums".toList).1 ["1".toList, "0x10".toList, "on".toList] (by rfl)
  have h2 := (vector_fetch ({ CConfigFile.new with m_throw_on_fail := false })
      "none".toList).2 rfl (by decide)
  exact ⟨⟨h.1 _, h.2.1 _, h.2.2.1 _⟩, h2.1 _⟩

/-- C15 as worded fails: `read` stores the token `3_0` as written and float
decode leaves the underscore in place, so `strtod` stops after the `3`; the
sequence fetched is not 1, 2, 30. -/
theorem float_vector_fetch_counterexample :
    CConfigFile.new.read "nums = 1, 2, 3_0\n".toList =
      Outcome.ok { CConfigFile.new with
        m_specs := [("::nums".toList, ["1".toList, "2".toList, "3_0".toList])] } ∧
    ({ CConfigFile.new with
        m_specs := [("::nums".toList, ["1".toList, "2".toList, "3_0".toList])] } :
      CConfigFile).get_double_vector "nums".toList [] ≠
        Except.ok (true, [some 1, some 2, some 30]) := by
  refine ⟨by decide, ?_⟩
  intro h
  have h2 : ({ CConfigFile.new with
        m_specs := [("::nums".toList, ["1".toList, "2".toList, "3_0".toList])] } :
      CConfigFile).get_double_vector "nums".toList [] =
        Except.ok (true, [some 1, some 2, some 3]) := by rfl
  rw [h2] at h
  injection h with h
  revert h
  decide

/-- C15 (amended): on the file with the key line `nums = 1, 2, 3_0` the vector
fetch with float decode yields 1, 2, 3, whatever the result sequence held
before; float decode of the token `3_0` is `strtod` of the token itself, which
reads the numeral `3`. -/
theorem float_vector_fetch (old : List (Option Int)) :
    CConfigFile.new.read "nums = 1, 2, 3_0\n".toList =
      Outcome.ok { CConfigFile.new with
        m_specs := [("::nums".toList, ["1".toList, "2".toList, "3_0".toList])] } ∧
    ({ CConfigFile.new with
        m_specs := [("::nums".toList, ["1".toList, "2".toList, "3_0".toList])] } :
      CConfigFile).get_double_vector "nums".toList old =
        Except.ok (true, [some 1, some 2, some 3]) ∧
    decode_double "3_0".toList = strtod "3_0".toList ∧
    decode_int "3_0".toList = 30 := by
  refine ⟨by decide, ?_, rfl, by decide⟩
  unfold CConfigFile.get_double_vector
  rw [get_vector_found decode_double _ "nums".toList ["1".toList, "2".toList, "3_0".toList] old
    (by rfl)]
  rfl

theorem s_to_i_c_str (s : Str) : s_to_i (c_str s) = s_to_i s := by
  unfold s_to_i
  rw [c_str_idem]

theorem decode_bool_of_c_str (s : Str) : decode_bool (c_str s) = decode_bool s := by
  unfold decode_bool
  rw [c_str_idem]

/-- The value that the loop of `get` decodes for field `i`. -/
theorem get_value_eq (values : StrVec) (i : Nat) :
    (if values.length ≤ i then ([] : Str) else c_str (values.getD i [])) =
      c_str (values.getD i []) := by
  by_cases h : values.length ≤ i
  · rw [if_pos h, List.getD_eq_default _ _ h]
    rfl
  · rw [if_neg h]

/-- The loop of `get` under a format string of one letter: that letter decodes
every requested field. -/
theorem get_loop_single (c : Char) (values : StrVec) (m k : Nat) (i : Nat) (f : Char)
    (fi : Int) (h : f = c ∨ fi = -1) :
    get_loop [c] values (List.replicate m true ++ List.replicate k false) i f fi =
      (List.range' i m).map (fun j => decode_field c (c_str (values.getD j []))) ++
        List.replicate k none := by
  induction m generalizing i f fi with
  | zero =>
    cases k with
    | zero => simp [get_loop]
    | succ k => simp [get_loop, List.replicate_succ]
  | succ m ih =>
    rw [List.replicate_succ, List.cons_append, get_loop]
    simp only [Bool.true_eq_false, if_false, get_value_eq]
    have hf : (if fi + 1 < (([c] : Str).length : Int) then ([c] : Str).getD (fi + 1).toNat f
        else f) = c := by
      rcases h with h | h
      · subst h
        by_cases hlt : fi + 1 < (([f] : Str).length : Int)
        · rw [if_pos hlt]
          have : (fi + 1).toNat = 0 := by
            simp only [List.length_singleton, Nat.cast_one] at hlt
            omega
          rw [this]
          rfl
        · rw [if_neg hlt]
      · subst h
        rfl
    rw [hf, ih (i + 1) c (fi + 1) (Or.inl rfl), List.range'_succ, List.map_cons, List.cons_append]

theorem get_loop_range (c : Char) (values : StrVec) (n : Nat) (h9 : n ≤ 9) :
    get_loop [c] values ((List.replicate n true ++ List.replicate 9 false).take 9) 0 'i' (-1) =
      (List.range n).map (fun j => decode_field c (c_str (values.getD j []))) ++
        List.replicate (9 - n) none := by
  have ht : (List.replicate n true ++ List.replicate 9 false).take 9 =
      List.replicate n true ++ List.replicate (9 - n) false := by
    rw [List.take_append_eq_append_take, List.take_replicate, List.take_replicate,
      List.length_replicate, Nat.min_eq_right h9, Nat.min_eq_left (Nat.sub_le _ _)]
  rw [ht, get_loop_single c values n (9 - n) 0 'i' (-1) (Or.inr rfl), List.range_eq_range']

theorem getD_take (v : StrVec) (n i : Nat) (h : i < n) : (v.take n).getD i [] = v.getD i [] := by
  simp only [List.getD_eq_getElem?_getD, List.getElem?_take, h, if_true]

/-- C17: for a key that lookup finds with value list v, whose strings are C
strings, and n requested fields, n ≤ 9, of one type among integer, boolean
and string, the typed scalar fetch returns true and writes to field i < n the
decoding of v[i], or of the empty string when v has no entry i (0, false or
the empty string), and writes nothing to the other fields; the fields are a
function of the first n entries of v. -/
theorem scalar_fetch (cf : CConfigFile) (key : Str) (v : StrVec) (n : Nat)
    (h : cf.lookup key = Except.ok (true, v)) (h9 : n ≤ 9) (hnul : ∀ s ∈ v, NUL ∉ s) :
    cf.get_int32 key (List.replicate n true) = Except.ok (true,
      (List.range n).map (fun i => some (Cell.int32 (decode_int ((v.take n).getD i [])))) ++
        List.replicate (9 - n) none) ∧
    cf.get_bool key (List.replicate n true) = Except.ok (true,
      (List.range n).map (fun i => some (Cell.boolean (decode_bool ((v.take n).getD i [])))) ++
        List.replicate (9 - n) none) ∧
    cf.get_string key (List.replicate n true) = Except.ok (true,
      (List.range n).map (fun i => some (Cell.string ((v.take n).getD i []))) ++
        List.replicate (9 - n) none) ∧
    decode_int [] = 0 ∧ decode_bool [] = false ∧ decode_string [] = [] := by
  have hv : ∀ i, NUL ∉ v.getD i [] := by
    intro i
    rw [List.getD_eq_getElem?_getD]
    cases hi : v[i]? with
    | none => simp
    | some s =>
      obtain ⟨hlt, he⟩ := List.getElem?_eq_some.1 hi
      exact hnul s (he ▸ List.getElem_mem hlt)
  refine ⟨?_, ?_, ?_, by decide, by decide, rfl⟩
  · unfold CConfigFile.get_int32 CConfigFile.get
    simp only [h, if_true]
    rw [show "i".toList = ['i'] from rfl, get_loop_range 'i' v n h9]
    congr 3
    apply List.map_congr_left
    intro i hi
    rw [getD_take v n i (List.mem_range.1 hi)]
    simp only [decode_field, if_true, decode_int, s_to_i_c_str]
  · unfold CConfigFile.get_bool CConfigFile.get
    simp only [h, if_true]
    rw [show "b".toList = ['b'] from rfl, get_loop_range 'b' v n h9]
    congr 3
    apply List.map_congr_left
    intro i hi
    rw [getD_take v n i (List.mem_range.1 hi)]
    have e1 : ¬ ('b' : Char) = 'i' := by decide
    have e2 : ¬ ('b' : Char) = 'f' := by decide
    have e3 : ¬ ('b' : Char) = 's' := by decide
    simp only [decode_field, e1, e2, e3, if_false, if_true, decode_bool_of_c_str]
  · unfold CConfigFile.get_string CConfigFile.get
    simp only [h, if_true]
    rw [show "s".toList = ['s'] from rfl, get_loop_range 's' v n h9]
    congr 3
    apply List.map_congr_left
    intro i hi
    rw [getD_take v n i (List.mem_range.1 hi)]
    have e1 : ¬ ('s' : Char) = 'i' := by decide
    have e2 : ¬ ('s' : Char) = 'f' := by decide
    simp only [decode_field, e1, e2, if_false, if_true, decode_string, c_str_of_no_nul _ (hv i)]

/-- C17 on a store that holds `port` with the value list `0x10`, `on`, `x`:
two fields of each type, and three integer fields from the one-entry list of
`n`. -/
theorem scalar_fetch_witness :
    ({ CConfigFile.new with
        m_specs := [("::port".toList, ["0x10".toList, "on".toList, "x".toList])] } :
      CConfigFile).get_int32 "port".toList [true, true] =
        Except.ok (true, [some (Cell.int32 16), some (Cell.int32 0),
          none, none, none, none, none, none, none]) ∧
    ({ CConfigFile.new with
        m_specs := [("::port".toList, ["0x10".toList, "on".toList, "x".toList])] } :
      CConfigFile).get_bool "port".toList [true, true] =
        Except.ok (true, [some (Cell.boolean false), some (Cell.boolean true),
          none, none, none, none, none, none, none]) ∧
    ({ CConfigFile.new with
        m_specs := [("::port".toList, ["0x10".toList, "on".toList, "x".toList])] } :
      CConfigFile).get_string "port".toList [true, true] =
        Except.ok (true, [some (Cell.string "0x10".toList), some (Cell.string "on".toList),
          none, none, none, none, none, none, none]) ∧
    ({ CConfigFile.new with m_specs := [("::n".toList, ["7".toList])] } :
      CConfigFile).get_int32 "n".toList [true, true, true] =
        Except.ok (true, [some (Cell.int32 7), some (Cell.int32 0), some (Cell.int32 0),
          none, none, none, none, none, none]) := by
  have h := scalar_fetch ({ CConfigFile.new with
        m_specs := [("::port".toList, ["0x10".toList, "on".toList, "x".toList])] })
      "port".toList ["0x10".toList, "on".toList, "x".toList] 2 (by rfl) (by decide) (by decide)
  have h2 := scalar_fetch ({ CConfigFile.new with m_specs := [("::n".toList, ["7".toList])] })
      "n".toList ["7".toList] 3 (by rfl) (by decide) (by decide)
  exact ⟨h.1, h.2.1, h.2.2.1, h2.1⟩

/-! ## Script blocks -/

/-- The loop body on a blank line or a comment line: nothing changes. -/
theorem read_line_ignored (st : ReadState) (b : Str) (hk : key_line (line_text b) = false)
    (hh : header_line (line_text b) = false) (ho : open_line (line_text b) = false)
    (hc : close_line (line_text b) = false) :
    read_line st b = Outcome.ok st := by
  unfold read_line
  simp only []
  rw [show chop_at '\r' (chop_at '\n' (c_str b)) = line_text b from rfl]
  unfold key_line at hk
  unfold header_line at hh
  unfold open_line at ho
  unfold close_line at hc
  rw [skip_spaces_eq]
  generalize (line_text b).dropWhile (· == ' ') = p at hk hh ho hc
  cases p with
  | nil =>
    have e0 : peek ([] : Str) = NUL := rfl
    rw [if_pos (Or.inl e0)]
  | cons c rest =>
    simp only [List.head?_cons, beq_eq_false_iff_ne, ne_eq, Option.some.injEq] at hh ho hc
    have e1 : peek (c :: rest) = c := rfl
    have e2 : advance (c :: rest) = rest := rfl
    rw [e1, e2]
    by_cases hcond : c = NUL ∨ c = '#' ∨ (c = '/' ∧ peek rest = '/')
    · rw [if_pos hcond]
    · exfalso
      simp only [not_or, not_and] at hcond
      obtain ⟨-, h1, h5⟩ := hcond
      have h6 : ¬ (c = '/' ∧ rest.head? = some '/') := fun ⟨a, b2⟩ =>
        h5 a ((peek_eq_iff_head rest '/' (by decide)).2 b2)
      revert hk
      simp only [Bool.and_eq_false_iff, bne_eq_false_iff_eq, Bool.not_eq_false', Bool.and_eq_true,
        beq_iff_eq, imp_false, not_or, not_and]
      exact ⟨⟨⟨⟨h1, hh⟩, ho⟩, hc⟩, fun a => by simpa using fun b2 => h6 ⟨a, b2⟩⟩

/-- C20 as worded fails: a cursor is given the line `a b`, `get_next_line`
and one `get_next_token` are called, and the line sequence `x` is assigned;
the token position is still 1 and `get_next_token` returns `b`, a token of the
line fetched before the assignment. -/
theorem assign_counterexample :
    (CConfigScript.assign
      { m_line_index := 0, m_token_index := 0, m_script := [], m_tokens := [] }
      ["a b".toList]).get_next_line =
      Outcome.ok (
        { m_line_index := 1, m_token_index := 0, m_script := ["a b".toList],
          m_tokens := ["a".toList, "b".toList] }, true, some 2, "a b".toList) ∧
    CConfigScript.get_next_token
      { m_line_index := 1, m_token_index := 0, m_script := ["a b".toList],
        m_tokens := ["a".toList, "b".toList] } false =
      (
        { m_line_index := 1, m_token_index := 1, m_script := ["a b".toList],
          m_tokens := ["a".toList, "b".toList] }, "a".toList) ∧
    CConfigScript.assign
      { m_line_index := 1, m_token_index := 1, m_script := ["a b".toList],
        m_tokens := ["a".toList, "b".toList] } ["x".toList] =
      { m_line_index := 0, m_token_index := 1, m_script := ["x".toList],
        m_tokens := ["a".toList, "b".toList] } ∧
    (CConfigScript.get_next_token
      { m_line_index := 0, m_token_index := 1, m_script := ["x".toList],
        m_tokens := ["a".toList, "b".toList] } false).2 = "b".toList := by
  decide

/-- C20 (amended): assigning a line sequence L into a cursor in any state sets
the line position to zero and the lines to L, and leaves the token position
and the tokens of the line fetched last as they were, so `get_next_token`
returns what it would have returned without the assignment; a following
`get_next_line` that returns true sets the token position to zero, and
`make_empty` sets both positions to zero. -/
theorem assign_resets_line_position (cs : CConfigScript) (L : StrVec) :
    (cs.assign L).m_line_index = 0 ∧ (cs.assign L).m_script = L ∧
    (cs.assign L).m_token_index = cs.m_token_index ∧ (cs.assign L).m_tokens = cs.m_tokens ∧
    (∀ f, ((cs.assign L).get_next_token f).2 = (cs.get_next_token f).2) ∧
    (∀ cs1 n text, (cs.assign L).get_next_line = Outcome.ok (cs1, true, n, text) →
      cs1.m_token_index = 0 ∧ cs1.m_line_index = 1 ∧ L.head? = some text) ∧
    (cs.make_empty.m_line_index = 0 ∧ cs.make_empty.m_token_index = 0) := by
  refine ⟨rfl, rfl, rfl, rfl, fun f => ?_, ?_, rfl, rfl⟩
  · simp only [CConfigScript.get_next_token, CConfigScript.assign, CConfigScript.rewind]
    split <;> rfl
  intro cs1 n text h
  unfold CConfigScript.get_next_line at h
  have e1 : (cs.assign L).m_line_index = 0 := rfl
  have e2 : (cs.assign L).m_script = L := rfl
  have e3 : to_size_t 0 = 0 := by decide
  rw [e1, e2, e3] at h
  cases L with
  | nil => simp at h
  | cons l rest =>
    simp only [List.length_cons, Nat.le_zero_eq, Nat.add_one_ne_zero, if_false,
      List.getD_cons_zero] at h
    cases hp : CTokenizer.parse l with
    | ok tokens =>
      rw [hp] at h
      simp only [Outcome.ok.injEq, Prod.mk.injEq] at h
      obtain ⟨hcs, -, -, ht⟩ := h
      subst hcs
      subst ht
      exact ⟨rfl, rfl, rfl⟩
    | buffer_overrun => rw [hp] at h; cases h
    | out_of_fuel => rw [hp] at h; cases h

/-- C20 (amended) on a cursor that has fetched the line `a b` and its first
token, assigned the line sequence `x y`: the next `get_next_line` returns that
line and sets the token position to zero. -/
theorem assign_resets_line_position_witness :
    (CConfigScript.assign
      { m_line_index := 1, m_token_index := 1, m_script := ["a b".toList],
        m_tokens := ["a".toList, "b".toList] } ["x y".toList]).get_next_line =
      Outcome.ok (
        { m_line_index := 1, m_token_index := 0, m_script := ["x y".toList],
          m_tokens := ["x".toList, "y".toList] }, true, some 2, "x y".toList) ∧
    (0 : Int) = 0 ∧ (1 : Int) = 1 ∧ ["x y".toList].head? = some "x y".toList :=
  ⟨by decide,
    (assign_resets_line_position
      { m_line_index := 1, m_token_index := 1, m_script := ["a b".toList],
        m_tokens := ["a".toList, "b".toList] } ["x y".toList]).2.2.2.2.2.1
      { m_line_index := 1, m_token_index := 0, m_script := ["x y".toList],
        m_tokens := ["x".toList, "y".toList] } (some 2) "x y".toList (by decide)⟩

/-! ## The strings that `read` stores -/

/-- The loop body keeps the stored strings free of NUL. -/
theorem read_line_no_nul (st st1 : ReadState) (b : Str)
    (hI : (∀ k v, map_find st.m_specs k = some v → ∀ t ∈ v, NUL ∉ t) ∧
      ∀ t ∈ st.values, NUL ∉ t)
    (h : read_line st b = Outcome.ok st1) :
    (∀ k v, map_find st1.m_specs k = some v → ∀ t ∈ v, NUL ∉ t) ∧
      ∀ t ∈ st1.values, NUL ∉ t := by
  obtain ⟨hm, hv⟩ := hI
  rcases read_line_ok_cases st st1 b h with
    ⟨-, e⟩ | ⟨-, e⟩ | ⟨-, e⟩ | ⟨-, -, e⟩ | ⟨-, -, e⟩ | ⟨-, -, -, -, V, hV, e⟩ <;> subst e
  · exact ⟨hm, hv⟩
  · exact ⟨hm, hv⟩
  · exact ⟨hm, by simp⟩
  · refine ⟨?_, hv⟩
    intro k v hk
    simp only [] at hk
    split at hk
    · rcases map_find_set_cases _ _ _ _ _ hk with ⟨-, rfl⟩ | hk
      · exact hv
      · exact hm k v hk
    · exact hm k v hk
  · refine ⟨hm, ?_⟩
    intro t ht
    simp only [List.mem_append, List.mem_singleton] at ht
    rcases ht with ht | rfl
    · exact hv t ht
    · exact fun hn => line_text_no_nul b (mem_of_mem_dropWhile _ _ _ hn)
  · have hV0 : ∀ t ∈ V, NUL ∉ t := fun t ht hn =>
      line_text_no_nul b ((spec_values_verbatim _ V hV t ht).subset hn)
    refine ⟨?_, hV0⟩
    intro k v hk
    rcases map_find_set_cases _ _ _ _ _ hk with ⟨-, rfl⟩ | hk
    · exact hV0
    · exact hm k v hk

/-- Every string of a value list that `read` has stored in a new store is a C
string: it holds no NUL. -/
theorem read_values_no_nul (ifile : Str) (cf1 : CConfigFile) (k : Str) (v : StrVec)
    (hread : CConfigFile.new.read ifile = Outcome.ok cf1)
    (hentry : map_find cf1.m_specs k = some v) : ∀ t ∈ v, NUL ∉ t := by
  obtain ⟨stf, hrun, hcf1⟩ := read_ok_run _ cf1 ifile hread
  have hinv := run_lines_invariant
    (fun s => (∀ k v, map_find s.m_specs k = some v → ∀ t ∈ v, NUL ∉ t) ∧
      ∀ t ∈ s.values, NUL ∉ t)
    (file_buffers ifile)
    (fun s b s1 _ hI hstep => read_line_no_nul s s1 b hI hstep)
    (read_init CConfigFile.new) stf
    ⟨fun k v hk => by simp [read_init, CConfigFile.new, map_find] at hk, by simp [read_init]⟩
    hrun
  have hm1 : cf1.m_specs = stf.m_specs := by rw [hcf1]
  rw [hm1] at hentry
  exact hinv.1 k v hentry

/-! ## Lines and tokens from a script cursor -/

theorem to_size_t_of_nat (j : Nat) (h : j < 2 ^ 64) : to_size_t (j : Int) = j := by
  unfold to_size_t
  have h2 : ((j : Int) % 2 ^ 64) = (j : Int) := Int.emod_eq_of_lt (by omega) (by exact_mod_cast h)
  rw [h2]
  rfl

theorem tokens_of_eq (l : Str) (h : CTokenizer.parse l ≠ Outcome.buffer_overrun) :
    CTokenizer.parse l = Outcome.ok (tokens_of l) := by
  unfold tokens_of
  cases hp : CTokenizer.parse l with
  | ok toks => rfl
  | buffer_overrun => exact absurd hp h
  | out_of_fuel => exact absurd hp (parse_terminates l)

/-- A call of `get_next_line` with a line left. -/
theorem get_next_line_at (cs : CConfigScript) (j : Nat) (hj : cs.m_line_index = (j : Int))
    (hlt : j < cs.m_script.length) (hn : cs.m_script.length < 2 ^ 31)
    (hp : CTokenizer.parse (cs.m_script.getD j []) ≠ Outcome.buffer_overrun) :
    cs.get_next_line = Outcome.ok (
      { cs with
        m_tokens := tokens_of (cs.m_script.getD j [])
        m_line_index := (j : Int) + 1
        m_token_index := 0 },
      true, some (tokens_of (cs.m_script.getD j [])).length, cs.m_script.getD j []) := by
  unfold CConfigScript.get_next_line
  rw [hj, to_size_t_of_nat j (by omega), if_neg (by omega)]
  simp only [tokens_of_eq _ hp]

/-- A call of `get_next_line` with no line left. -/
theorem get_next_line_end (cs : CConfigScript) (j : Nat) (hj : cs.m_line_index = (j : Int))
    (hge : cs.m_script.length ≤ j) (hn : j < 2 ^ 31) :
    cs.get_next_line = Outcome.ok (cs, false, none, []) := by
  unfold CConfigScript.get_next_line
  rw [hj, to_size_t_of_nat j (by omega), if_pos hge]

/-- The report of a call that fetches the line `l`. -/
theorem next_lines_from (k : Nat) (cs : CConfigScript) (L : StrVec) (j : Nat)
    (hL : cs.m_script = L) (hj : cs.m_line_index = (j : Int)) (hjn : j ≤ L.length)
    (hn : L.length < 2 ^ 31)
    (htok : ∀ l ∈ L, CTokenizer.parse l ≠ Outcome.buffer_overrun) :
    ∃ c, cs.next_lines k = Outcome.ok (c,
        ((L.drop j).take k).map (fun l => (true, some (tokens_of l).length, l)) ++
          List.replicate (k - (L.length - j)) (false, none, [])) ∧
      c.m_script = L ∧ c.m_line_index = ((min (j + k) L.length : Nat) : Int) ∧
      (0 < k → j < L.length →
        c.m_token_index = 0 ∧ c.m_tokens = tokens_of (L.getD (min (j + k) L.length - 1) [])) := by
  induction k generalizing cs j with
  | zero =>
    refine ⟨cs, ?_, hL, ?_, fun h => absurd h (by decide)⟩
    · simp [CConfigScript.next_lines]
    · rw [hj, Nat.add_zero, Nat.min_eq_left hjn]
  | succ k ih =>
    by_cases hlt : j < L.length
    · have hmem : L.getD j [] ∈ L := by
        rw [List.getD_eq_getElem _ _ hlt]
        exact List.getElem_mem hlt
      have hstep := get_next_line_at cs j hj (hL ▸ hlt) (hL ▸ hn) (hL ▸ htok _ hmem)
      rw [hL] at hstep
      obtain ⟨c, hc, hcL, hci, hct⟩ := ih
        { m_line_index := (j : Int) + 1, m_token_index := 0, m_script := L,
          m_tokens := tokens_of (L.getD j []) } (j + 1) rfl (by push_cast; rfl) hlt
      refine ⟨c, ?_, hcL, ?_, ?_⟩
      · simp only [CConfigScript.next_lines, hstep, hc]
        have hd : L.drop j = L.getD j [] :: L.drop (j + 1) := by
          rw [List.getD_eq_getElem _ _ hlt]
          exact List.drop_eq_getElem_cons hlt
        rw [hd, List.take_succ_cons, List.map_cons, List.cons_append]
        have e : k + 1 - (L.length - j) = k - (L.length - (j + 1)) := by omega
        rw [e]
      · rw [hci]
        congr 2
        omega
      · intro _ _
        by_cases hk : 0 < k
        · by_cases hlt2 : j + 1 < L.length
          · have := hct hk hlt2
            rw [show j + (k + 1) = j + 1 + k by omega]
            exact this
          · have hJ : j + 1 = L.length := by omega
            have hend : ∀ (m : Nat) (c0 : CConfigScript), c0.m_script = L →
                c0.m_line_index = ((j + 1 : Nat) : Int) →
                ∃ c1, c0.next_lines m = Outcome.ok (c1,
                  List.replicate m (false, none, [])) ∧ c1 = c0 := by
              intro m
              induction m with
              | zero => exact fun c0 _ _ => ⟨c0, by simp [CConfigScript.next_lines], rfl⟩
              | succ m ihm =>
                intro c0 h1 h2
                have he := get_next_line_end c0 (j + 1) h2 (by rw [h1]; omega) (by omega)
                obtain ⟨c1, hc1, rfl⟩ := ihm c0 h1 h2
                exact ⟨c1, by simp [CConfigScript.next_lines, he, hc1, List.replicate_succ],
                  rfl⟩
            obtain ⟨c1, hc1, hc1e⟩ := hend k
              { m_line_index := (j : Int) + 1, m_token_index := 0, m_script := L,
                m_tokens := tokens_of (L.getD j []) } rfl (by push_cast; rfl)
            rw [hc1] at hc
            injection hc with hc
            have hcc : c1 = c := (Prod.mk.inj hc).1
            rw [← hcc, hc1e]
            refine ⟨rfl, ?_⟩
            have : min (j + (k + 1)) L.length - 1 = j := by omega
            rw [this]
        · have hk0 : k = 0 := by omega
          subst hk0
          simp only [CConfigScript.next_lines, Outcome.ok.injEq, Prod.mk.injEq] at hc
          rw [← hc.1]
          refine ⟨rfl, ?_⟩
          have : min (j + (0 + 1)) L.length - 1 = j := by omega
          rw [this]
    · have hJ : j = L.length := by omega
      have he := get_next_line_end cs j hj (by rw [hL]; omega) (by omega)
      obtain ⟨c, hc, hcL, hci, -⟩ := ih cs j hL hj hjn
      refine ⟨c, ?_, hcL, ?_, fun _ h => absurd h hlt⟩
      · simp only [CConfigScript.next_lines, he, hc]
        have hd : L.drop j = [] := by rw [hJ]; exact List.drop_length L
        rw [hd]
        simp only [List.take_nil, List.map_nil, List.nil_append]
        have e1 : k + 1 - (L.length - j) = k + 1 := by omega
        have e2 : k - (L.length - j) = k := by omega
        rw [e1, e2, List.replicate_succ]
      · rw [hci]
        congr 1
        omega

/-- C21: on a cursor at line position zero over a line sequence L whose lines
the tokenizer takes, k successive calls of `get_next_line` return; the i-th
call, for i up to the length of L, reports true, the number of tokens of line
i and its text, and every later call reports false with an empty text; after a
call that fetched a line the token position is zero and the tokens are those
of that line. -/
theorem next_line_sequence (cs : CConfigScript) (L : StrVec) (k : Nat)
    (h0 : cs.m_line_index = 0) (hL : cs.m_script = L) (hn : L.length < 2 ^ 31)
    (htok : ∀ l ∈ L, CTokenizer.parse l ≠ Outcome.buffer_overrun) :
    (∀ l ∈ L, CTokenizer.parse l = Outcome.ok (tokens_of l)) ∧
    ∃ c, cs.next_lines k = Outcome.ok (c,
        (L.take k).map (fun l => (true, some (tokens_of l).length, l)) ++
          List.replicate (k - L.length) (false, none, [])) ∧
      c.m_script = L ∧ c.m_line_index = ((min k L.length : Nat) : Int) ∧
      (0 < k → 0 < L.length →
        c.m_token_index = 0 ∧ c.m_tokens = tokens_of (L.getD (min k L.length - 1) [])) := by
  refine ⟨fun l hl => tokens_of_eq l (htok l hl), ?_⟩
  have h := next_lines_from k cs L 0 hL (by rw [h0]; rfl) (Nat.zero_le _) hn htok
  simpa using h

/-- C21 on a cursor that is assigned the lines `a b` and `c`: four calls. -/
theorem next_line_sequence_witness :
    ∃ c, (CConfigScript.assign
        { m_line_index := 7, m_token_index := 3, m_script := [], m_tokens := ["z".toList] }
        ["a b".toList, "c".toList]).next_lines 4 = Outcome.ok (c,
        [(true, some 2, "a b".toList), (true, some 1, "c".toList), (false, none, []),
          (false, none, [])]) ∧
      c.m_token_index = 0 ∧ c.m_tokens = ["c".toList] := by
  obtain ⟨-, c, h1, -, -, h2⟩ := next_line_sequence
    (CConfigScript.assign
      { m_line_index := 7, m_token_index := 3, m_script := [], m_tokens := ["z".toList] }
      ["a b".toList, "c".toList])
    ["a b".toList, "c".toList] 4 rfl rfl (by decide) (by decide)
  exact ⟨c, h1, h2 (by decide) (by decide)⟩

/-- C23: `rewind` sets the line position to zero and leaves the lines, the
tokens and the token position as they were; after it k successive calls of
`get_next_line` report the lines of the cursor in order and then exhaustion,
the same reports as on any cursor that is assigned these lines. -/
theorem rewind_replays (cs other : CConfigScript) (k : Nat)
    (hn : cs.m_script.length < 2 ^ 31)
    (htok : ∀ l ∈ cs.m_script, CTokenizer.parse l ≠ Outcome.buffer_overrun) :
    (cs.rewind.m_line_index = 0 ∧ cs.rewind.m_script = cs.m_script ∧
      cs.rewind.m_tokens = cs.m_tokens ∧ cs.rewind.m_token_index = cs.m_token_index) ∧
    ∃ c1 c2,
      cs.rewind.next_lines k = Outcome.ok (c1,
        (cs.m_script.take k).map (fun l => (true, some (tokens_of l).length, l)) ++
          List.replicate (k - cs.m_script.length) (false, none, [])) ∧
      (other.assign cs.m_script).next_lines k = Outcome.ok (c2,
        (cs.m_script.take k).map (fun l => (true, some (tokens_of l).length, l)) ++
          List.replicate (k - cs.m_script.length) (false, none, [])) := by
  refine ⟨⟨rfl, rfl, rfl, rfl⟩, ?_⟩
  obtain ⟨c1, h1, -⟩ := next_lines_from k cs.rewind cs.m_script 0 rfl rfl (Nat.zero_le _) hn htok
  obtain ⟨c2, h2, -⟩ := next_lines_from k (other.assign cs.m_script) cs.m_script 0 rfl rfl
    (Nat.zero_le _) hn htok
  exact ⟨c1, c2, by simpa using h1, by simpa using h2⟩

/-- C23 on a cursor over the lines `a b` and `c` that has fetched both lines
and a token: three calls after `rewind`. -/
theorem rewind_replays_witness :
    ∃ c1, (CConfigScript.rewind
        { m_line_index := 2, m_token_index := 1, m_script := ["a b".toList, "c".toList],
          m_tokens := ["c".toList] }).next_lines 3 = Outcome.ok (c1,
        [(true, some 2, "a b".toList), (true, some 1, "c".toList), (false, none, [])]) := by
  obtain ⟨-, c1, -, h1, -⟩ := rewind_replays
    { m_line_index := 2, m_token_index := 1, m_script := ["a b".toList, "c".toList],
      m_tokens := ["c".toList] }
    { m_line_index := 0, m_token_index := 0, m_script := [], m_tokens := [] } 3
    (by decide) (by decide)
  exact ⟨c1, h1⟩

/-- No character that the inner loop of the tokenizer copies is an
end-of-line character. -/
theorem scan_token_no_eol (q : Char) (out : Nat) (s t r : Str)
    (h : scan_token q out s = some (t, r)) : ∀ c ∈ t, is_eol c = false := by
  induction s generalizing out t with
  | nil =>
    simp only [scan_token] at h
    split at h
    · simp only [Option.some.injEq, Prod.mk.injEq] at h
      obtain ⟨rfl, rfl⟩ := h
      simp
    · cases h
  | cons c cs ih =>
    have stop_here : ∀ {x : Option (Str × Str)} {r0 : Str}, x = some (t, r) →
        x = (if out < 512 then some ([], r0) else none) → ∀ c ∈ t, is_eol c = false := by
      intro x r0 hx e
      rw [e] at hx
      split at hx
      · simp only [Option.some.injEq, Prod.mk.injEq] at hx
        obtain ⟨rfl, -⟩ := hx
        simp
      · cases hx
    have go_on : is_eol c = false → ∀ {x : Option (Str × Str)}, x = some (t, r) →
        x = (if out < 512 then
              match scan_token q (out + 1) cs with
              | some (t, r) => some (c :: t, r)
              | none => none
            else none) → ∀ c ∈ t, is_eol c = false := by
      intro hc x hx e
      rw [e] at hx
      split at hx
      · cases hsc : scan_token q (out + 1) cs with
        | none => rw [hsc] at hx; cases hx
        | some tr =>
          obtain ⟨t1, r1⟩ := tr
          rw [hsc] at hx
          simp only [Option.some.injEq, Prod.mk.injEq] at hx
          obtain ⟨rfl, rfl⟩ := hx
          intro x hx
          rcases List.mem_cons.1 hx with rfl | hx
          · exact hc
          · exact ih (out + 1) t1 hsc x hx
      · cases hx
    simp only [scan_token] at h
    split at h
    · exact stop_here h rfl
    · rename_i hc
      have hc : is_eol c = false := by simpa using hc
      split at h
      · split at h
        · exact stop_here h rfl
        · exact go_on hc h rfl
      · split at h
        · exact stop_here h rfl
        · exact go_on hc h rfl

theorem parse_loop_no_eol (fuel : Nat) (inp : Str) (result toks : StrVec)
    (hres : ∀ t ∈ result, ∀ c ∈ t, is_eol c = false)
    (h : parse_loop fuel inp result = Outcome.ok toks) :
    ∀ t ∈ toks, ∀ c ∈ t, is_eol c = false := by
  induction fuel generalizing inp result with
  | zero => simp [parse_loop] at h
  | succ fuel ih =>
    simp only [parse_loop] at h
    split at h
    · injection h with h
      subst h
      exact hres
    · split at h
      · injection h with h
        subst h
        exact hres
      · split at h
        · cases h
        · rename_i token in3 hsc
          refine ih _ _ ?_ h
          intro t ht
          rcases List.mem_append.1 ht with ht | ht
          · exact hres t ht
          · simp only [List.mem_singleton] at ht
            subst ht
            exact scan_token_no_eol _ _ _ _ _ hsc

/-- The tokens that the tokenizer returns hold no NUL. -/
theorem parse_tokens_no_nul (input : Str) (toks : StrVec)
    (h : CTokenizer.parse input = Outcome.ok toks) : ∀ t ∈ toks, NUL ∉ t := by
  intro t ht hn
  have := parse_loop_no_eol _ _ _ _ (by simp) h t ht NUL hn
  exact absurd this (by decide)

theorem getD_no_nul (toks : StrVec) (h : ∀ t ∈ toks, NUL ∉ t) (k : Nat) :
    NUL ∉ toks.getD k [] := by
  rw [List.getD_eq_getElem?_getD]
  cases hi : toks[k]? with
  | none => simp
  | some s =>
    obtain ⟨hlt, he⟩ := List.getElem?_eq_some.1 hi
    exact h s (he ▸ List.getElem_mem hlt)

/-- One fetch when `j` fetches went before: the value is the one due at
position `j`, and the token position moves on until it is the token count. -/
theorem fetch_at (cs : CConfigScript) (j : Nat) (f : Fetch)
    (hj : cs.m_token_index = ((min j cs.m_tokens.length : Nat) : Int))
    (hc : cs.m_tokens.length < 2 ^ 31) (hnul : ∀ t ∈ cs.m_tokens, NUL ∉ t) :
    cs.fetch f = ({ cs with m_token_index := ((min (j + 1) cs.m_tokens.length : Nat) : Int) },
      fetch_value cs.m_tokens j f) := by
  have hs : to_size_t cs.m_token_index = min j cs.m_tokens.length := by
    rw [hj]
    exact to_size_t_of_nat _ (by omega)
  by_cases hlt : j < cs.m_tokens.length
  · have hno : ¬ cs.m_tokens.length ≤ min j cs.m_tokens.length := by omega
    have hm : min j cs.m_tokens.length = j := by omega
    have hm1 : ((min (j + 1) cs.m_tokens.length : Nat) : Int) = cs.m_token_index + 1 := by
      rw [hj]
      have : min (j + 1) cs.m_tokens.length = min j cs.m_tokens.length + 1 := by omega
      rw [this]
      push_cast
      rfl
    cases f with
    | token fl =>
      have e : cs.get_next_token fl = ({ cs with m_token_index := cs.m_token_index + 1 },
          if fl then make_lower (cs.m_tokens.getD j []) else cs.m_tokens.getD j []) := by
        unfold CConfigScript.get_next_token
        rw [hs, if_neg hno, hm]
      simp only [CConfigScript.fetch, e, fetch_value, if_pos hlt, hm1,
        make_lower_eq_map _ (getD_no_nul _ hnul j)]
    | int =>
      have e : cs.get_next_int = ({ cs with m_token_index := cs.m_token_index + 1 },
          decode_int (cs.m_tokens.getD j [])) := by
        unfold CConfigScript.get_next_int
        rw [hs, if_neg hno, hm]
      simp only [CConfigScript.fetch, e, fetch_value, if_pos hlt, hm1]
  · have hge : cs.m_tokens.length ≤ min j cs.m_tokens.length := by omega
    have hm1 : ((min (j + 1) cs.m_tokens.length : Nat) : Int) = cs.m_token_index := by
      rw [hj]
      have : min (j + 1) cs.m_tokens.length = min j cs.m_tokens.length := by omega
      rw [this]
    cases f with
    | token fl =>
      have e : cs.get_next_token fl = (cs, []) := by
        unfold CConfigScript.get_next_token
        rw [hs, if_pos hge]
      simp only [CConfigScript.fetch, e, fetch_value, if_neg hlt, hm1]
    | int =>
      have e : cs.get_next_int = (cs, 0) := by
        unfold CConfigScript.get_next_int
        rw [hs, if_pos hge]
      simp only [CConfigScript.fetch, e, fetch_value, if_neg hlt, hm1]

/-- Successive fetches when `j` fetches went before. -/
theorem fetches_from (fs : List Fetch) (cs : CConfigScript) (j : Nat)
    (hj : cs.m_token_index = ((min j cs.m_tokens.length : Nat) : Int))
    (hc : cs.m_tokens.length < 2 ^ 31) (hnul : ∀ t ∈ cs.m_tokens, NUL ∉ t) :
    cs.fetches fs =
      List.zipWith (fetch_value cs.m_tokens) (List.range' j fs.length) fs := by
  induction fs generalizing cs j with
  | nil => simp [CConfigScript.fetches]
  | cons f fs ih =>
    rw [CConfigScript.fetches, fetch_at cs j f hj hc hnul]
    simp only [List.length_cons, List.range'_succ, List.zipWith_cons_cons]
    rw [ih { cs with m_token_index := ((min (j + 1) cs.m_tokens.length : Nat) : Int) } (j + 1)
      rfl hc hnul]

/-- C22: after a call of `get_next_line` that fetched the line l, whose tokens
are t0 .. t(c-1), the k-th of any later fetches from the line returns token
k-1: `get_next_token` as it is, or with its ASCII letters lowercased under the
flag, `get_next_int` its integer decoding; past the last token they return the
empty string and 0. -/
theorem token_sequence (cs cs1 : CConfigScript) (n : Option Nat) (l : Str) (toks : StrVec)
    (fs : List Fetch)
    (hline : cs.get_next_line = Outcome.ok (cs1, true, n, l))
    (hparse : CTokenizer.parse l = Outcome.ok toks) (hc : toks.length < 2 ^ 31) :
    n = some toks.length ∧
    cs1.fetches fs = List.zipWith (fetch_value toks) (List.range fs.length) fs := by
  unfold CConfigScript.get_next_line at hline
  split at hline
  · simp only [Outcome.ok.injEq, Prod.mk.injEq] at hline
    exact absurd hline.2.1 (by decide)
  · simp only [] at hline
    split at hline
    · rename_i tokens hp
      simp only [Outcome.ok.injEq, Prod.mk.injEq] at hline
      obtain ⟨hcs, -, hn, hl⟩ := hline
      rw [hl, hparse] at hp
      injection hp with hp
      subst hp
      subst hcs
      refine ⟨hn.symm, ?_⟩
      rw [List.range_eq_range']
      exact fetches_from fs _ 0 (by simp) hc (parse_tokens_no_nul l _ hparse)
    · cases hline
    · cases hline

/-- C22 on a cursor that has fetched the line `Ab 0x10 c`: five fetches. -/
theorem token_sequence_witness :
    CConfigScript.fetches
      { m_line_index := 1, m_token_index := 0, m_script := ["Ab 0x10 c".toList],
        m_tokens := ["Ab".toList, "0x10".toList, "c".toList] }
      [Fetch.token true, Fetch.int, Fetch.token false, Fetch.token false, Fetch.int] =
    [Cell.string "ab".toList, Cell.int32 16, Cell.string "c".toList, Cell.string [],
      Cell.int32 0] :=
  (token_sequence
    { m_line_index := 0, m_token_index := 5, m_script := ["Ab 0x10 c".toList], m_tokens := [] }
    { m_line_index := 1, m_token_index := 0, m_script := ["Ab 0x10 c".toList],
      m_tokens := ["Ab".toList, "0x10".toList, "c".toList] }
    (some 3) "Ab 0x10 c".toList ["Ab".toList, "0x10".toList, "c".toList]
    [Fetch.token true, Fetch.int, Fetch.token false, Fetch.token false, Fetch.int]
    (by decide) (by decide) (by decide)).2.trans (by decide)

/-! ## The shape of the stored keys -/

/-- The buffers of a stream do not depend on the fuel, once it exceeds the
length of the stream. -/
theorem fgets_all_fuel (f1 f2 : Nat) (s : Str) (h1 : s.length < f1) (h2 : s.length < f2) :
    fgets_all f1 s = fgets_all f2 s := by
  induction f1 generalizing f2 s with
  | zero => omega
  | succ f1 ih =>
    cases f2 with
    | zero => omega
    | succ f2 =>
      unfold fgets_all
      cases hf : fgets 1000 s with
      | none => rfl
      | some br =>
        obtain ⟨b, r⟩ := br
        have hlt := fgets_rest_lt s b r hf
        simp only []
        rw [ih f2 r (by omega) (by omega)]

theorem getLast?_tail_of_ne (c : Char) (cs : Str) (h : (c :: cs).getLast? = some '\n')
    (hc : c ≠ '\n') : cs ≠ [] ∧ cs.getLast? = some '\n' := by
  cases cs with
  | nil =>
    simp only [List.getLast?_singleton, Option.some.injEq] at h
    exact absurd h hc
  | cons d ds =>
    refine ⟨by simp, ?_⟩
    rw [List.getLast?_cons_cons] at h
    exact h

/-- One `fgets` on a stream that starts with complete lines: what follows
them stays in the rest. -/
theorem fgets_take_append (n : Nat) (A B : Str) (hne : A ≠ [])
    (hA : A.getLast? = some '\n') :
    fgets_take n (A ++ B) = ((fgets_take n A).1, (fgets_take n A).2 ++ B) ∧
    ((fgets_take n A).2 = [] ∨ ((fgets_take n A).2).getLast? = some '\n') := by
  induction n generalizing A with
  | zero => exact ⟨by simp [fgets_take], Or.inr (by simpa [fgets_take] using hA)⟩
  | succ n ih =>
    cases A with
    | nil => exact absurd rfl hne
    | cons c cs =>
      by_cases hc : c = '\n'
      · subst hc
        refine ⟨by simp [fgets_take], ?_⟩
        simp only [fgets_take, if_true]
        cases cs with
        | nil => exact Or.inl rfl
        | cons d ds =>
          rw [List.getLast?_cons_cons] at hA
          exact Or.inr hA
      · obtain ⟨h1, h2⟩ := getLast?_tail_of_ne c cs hA hc
        obtain ⟨e1, e2⟩ := ih cs h1 h2
        refine ⟨?_, ?_⟩
        · simp only [List.cons_append, fgets_take, hc, if_false, List.append_eq, e1]
        · simpa only [fgets_take, hc, if_false] using e2

theorem fgets_all_append (fuel : Nat) (A B : Str) (hA : A = [] ∨ A.getLast? = some '\n')
    (hf : (A ++ B).length < fuel) :
    fgets_all fuel (A ++ B) = fgets_all fuel A ++ fgets_all fuel B := by
  induction fuel generalizing A with
  | zero => omega
  | succ fuel ih =>
    cases A with
    | nil =>
      rw [List.nil_append]
      simp [fgets_all, fgets]
    | cons c cs =>
      have hne : c :: cs ≠ [] := by simp
      have hlast : (c :: cs).getLast? = some '\n' := by
        rcases hA with h | h
        · exact absurd h hne
        · exact h
      obtain ⟨e1, e2⟩ := fgets_take_append 999 (c :: cs) B hne hlast
      have hlt : ((fgets_take 999 (c :: cs)).2).length < (c :: cs).length :=
        fgets_rest_lt (c :: cs) _ _ rfl
      have hfa : fgets 1000 (c :: cs ++ B) = some (fgets_take 999 (c :: cs ++ B)) := rfl
      have hfb : fgets 1000 (c :: cs) = some (fgets_take 999 (c :: cs)) := rfl
      rw [fgets_all, hfa, e1]
      simp only []
      rw [ih _ e2 (by simp only [List.length_append, List.length_cons] at hf hlt ⊢; omega)]
      conv_rhs => rw [fgets_all, hfb]
      simp only [List.cons_append]
      rw [fgets_all_fuel fuel (fuel + 1) B
        (by simp only [List.length_append, List.length_cons] at hf; omega)
        (by simp only [List.length_append, List.length_cons] at hf; omega)]

/-- The buffers of a file that starts with complete lines. -/
theorem file_buffers_append (A B : Str) (hA : A = [] ∨ A.getLast? = some '\n') :
    file_buffers (A ++ B) = file_buffers A ++ file_buffers B := by
  unfold file_buffers
  rw [fgets_all_append _ A B hA (Nat.lt_succ_self _)]
  rw [fgets_all_fuel ((A ++ B).length + 1) (A.length + 1) A (by simp; omega) (by omega),
    fgets_all_fuel ((A ++ B).length + 1) (B.length + 1) B (by simp; omega) (by omega)]

/-- The buffers of a file whose first line fits the line buffer. -/
theorem file_buffers_line (l rest : Str) (h1 : '\n' ∉ l) (hn : l.length < 999) :
    file_buffers (l ++ '\n' :: rest) = (l ++ ['\n']) :: file_buffers rest := by
  unfold file_buffers
  rw [fgets_all_line _ l rest h1 hn]
  rw [fgets_all_fuel (l ++ '\n' :: rest).length (rest.length + 1) rest (by simp; omega)
    (by omega)]

theorem line_text_eq_takeWhile (b : Str) :
    line_text b = b.takeWhile (fun x => x != NUL && x != '\n' && x != '\r') := by
  unfold line_text
  induction b with
  | nil => rfl
  | cons c cs ih =>
    by_cases h0 : c = NUL
    · subst h0
      simp [c_str, chop_at]
    · by_cases h1 : c = '\n'
      · subst h1
        simp [c_str, chop_at, h0]
      · by_cases h2 : c = '\r'
        · subst h2
          simp [c_str, chop_at, h0, h1]
        · simp only [c_str, h0, if_false, chop_at, h1, h2] at ih ⊢
          simp [List.takeWhile_cons, h0, h1, h2, ih]

theorem comment_line_takeWhile (p : Char → Bool) (hs : p ' ' = true) (hh : p '#' = true)
    (hd : p '/' = true) (l : Str) (h : comment_line l = true) :
    comment_line (l.takeWhile p) = true := by
  induction l with
  | nil => rfl
  | cons x xs ih =>
    by_cases hx : x = ' '
    · subst hx
      have e : comment_line (' ' :: xs) = comment_line xs := by
        simp [comment_line, List.dropWhile_cons]
      rw [e] at h
      rw [List.takeWhile_cons, hs]
      simp only [if_true]
      have e2 : comment_line (' ' :: xs.takeWhile p) = comment_line (xs.takeWhile p) := by
        simp [comment_line, List.dropWhile_cons]
      rw [e2]
      exact ih h
    · have e : (x :: xs).dropWhile (· == ' ') = x :: xs := by
        simp [List.dropWhile_cons, hx]
      simp only [comment_line, e, Bool.or_eq_true, beq_iff_eq, Bool.and_eq_true] at h
      rcases h with h | ⟨h, h2⟩
      · subst h
        simp [List.takeWhile_cons, hh, comment_line, List.dropWhile_cons]
      · subst h
        cases xs with
        | nil => simp at h2
        | cons y ys =>
          simp only [List.head?_cons, Option.some.injEq] at h2
          subst h2
          simp [List.takeWhile_cons, hd, comment_line, List.dropWhile_cons]

/-- The loop body leaves the state as it is on a buffer whose text is a blank
line or a comment line. -/
theorem read_line_comment_text (st : ReadState) (b : Str)
    (hc : comment_line (line_text b) = true) : read_line st b = Outcome.ok st := by
  unfold comment_line at hc
  apply read_line_ignored
  · unfold key_line
    cases hp : (line_text b).dropWhile (· == ' ') with
    | nil => rfl
    | cons c rest =>
      rw [hp] at hc
      simp only [Bool.or_eq_true, beq_iff_eq, Bool.and_eq_true] at hc
      rcases hc with rfl | ⟨rfl, h2⟩
      · rfl
      · simp [h2]
  · unfold header_line
    cases hp : (line_text b).dropWhile (· == ' ') with
    | nil => rfl
    | cons c rest =>
      rw [hp] at hc
      simp only [Bool.or_eq_true, beq_iff_eq, Bool.and_eq_true] at hc
      rcases hc with rfl | ⟨rfl, -⟩ <;> rfl
  · unfold open_line
    cases hp : (line_text b).dropWhile (· == ' ') with
    | nil => rfl
    | cons c rest =>
      rw [hp] at hc
      simp only [Bool.or_eq_true, beq_iff_eq, Bool.and_eq_true] at hc
      rcases hc with rfl | ⟨rfl, -⟩ <;> rfl
  · unfold close_line
    cases hp : (line_text b).dropWhile (· == ' ') with
    | nil => rfl
    | cons c rest =>
      rw [hp] at hc
      simp only [Bool.or_eq_true, beq_iff_eq, Bool.and_eq_true] at hc
      rcases hc with rfl | ⟨rfl, -⟩ <;> rfl

theorem read_line_comment (st : ReadState) (b : Str) (h : comment_line b = true) :
    read_line st b = Outcome.ok st := by
  apply read_line_comment_text
  rw [line_text_eq_takeWhile]
  exact comment_line_takeWhile _ (by decide) (by decide) (by decide) b h

theorem takeWhile_append_stop (p : Char → Bool) (l : Str) (x : Char) (hx : p x = false) :
    (l ++ [x]).takeWhile p = l.takeWhile p := by
  induction l with
  | nil => simp [List.takeWhile_cons, hx]
  | cons c cs ih => simp only [List.cons_append, List.takeWhile_cons, ih]

/-- The loop body leaves the state as it is on a blank line or a comment line
with its line feed. -/
theorem read_line_comment_lf (st : ReadState) (c : Str) (h : comment_line c = true) :
    read_line st (c ++ ['\n']) = Outcome.ok st := by
  apply read_line_comment_text
  rw [line_text_eq_takeWhile, takeWhile_append_stop _ c '\n' (by decide)]
  exact comment_line_takeWhile _ (by decide) (by decide) (by decide) c h

theorem fgets_take_full (l rest : Str) (h1 : '\n' ∉ l) :
    fgets_take l.length (l ++ rest) = (l, rest) := by
  induction l with
  | nil => simp [fgets_take]
  | cons c cs ih =>
    have hc : c ≠ '\n' := fun e => h1 (by simp [e])
    have hcs : '\n' ∉ cs := fun e => h1 (List.mem_cons_of_mem _ e)
    simp [fgets_take, hc, ih hcs]

/-- A line that fills the line buffer is cut after 999 characters. -/
theorem file_buffers_long (l rest : Str) (h1 : '\n' ∉ l) (hn : l.length = 999) :
    file_buffers (l ++ rest) = l :: file_buffers rest := by
  unfold file_buffers
  have hf : fgets 1000 (l ++ rest) = some (l, rest) := by
    unfold fgets
    cases hl : l ++ rest with
    | nil =>
      have : (l ++ rest).length = 0 := by rw [hl]; rfl
      simp only [List.length_append] at this
      omega
    | cons c cs =>
      simp only [Nat.add_one_sub_one]
      rw [← hl, ← hn, fgets_take_full l rest h1]
  rw [fgets_all, hf]
  simp only []
  rw [fgets_all_fuel (l ++ rest).length (rest.length + 1) rest (by simp; omega) (by omega)]

/-- C25 as worded fails for a comment line that does not fit the line buffer:
the line made of `#`, 998 spaces and `k = 1` is read as two lines, the comment
of 999 characters and the key line `k = 1`, and adds the key `k` to the
mapping of the empty file. -/
theorem comment_line_counterexample :
    comment_line ('#' :: List.replicate 998 ' ' ++ "k = 1".toList) = true ∧
    CConfigFile.new.read (('#' :: List.replicate 998 ' ' ++ "k = 1".toList) ++ ['\n']) =
      Outcome.ok { CConfigFile.new with m_specs := [("::k".toList, ["1".toList])] } ∧
    CConfigFile.new.read [] = Outcome.ok CConfigFile.new := by
  refine ⟨rfl, ?_, by decide⟩
  have hnl : '\n' ∉ '#' :: List.replicate 998 ' ' := by
    intro h
    rcases List.mem_cons.1 h with h | h
    · exact absurd h (by decide)
    · exact absurd (List.eq_of_mem_replicate h) (by decide)
  have hb : file_buffers (('#' :: List.replicate 998 ' ' ++ "k = 1".toList) ++ ['\n']) =
      [('#' :: List.replicate 998 ' '), "k = 1\n".toList] := by
    rw [List.append_assoc, file_buffers_long _ _ hnl
      (by rw [List.length_cons, List.length_replicate])]
    rfl
  have h1 : read_line (read_init CConfigFile.new) ('#' :: List.replicate 998 ' ') =
      Outcome.ok (read_init CConfigFile.new) :=
    read_line_comment _ _ rfl
  rw [read_eq_run_lines, hb]
  simp only [run_lines, h1]
  decide

/-- C25 (amended): inserting, at a line position of a file, a blank line or a
comment line that fits the line buffer (fewer than 999 characters before its
line feed) leaves what `read` returns as it is, and so the mapping. -/
theorem comment_line_ignored (cf : CConfigFile) (A B c : Str)
    (hA : A = [] ∨ A.getLast? = some '\n') (hc : '\n' ∉ c) (hlen : c.length < 999)
    (hcom : comment_line c = true) :
    cf.read (A ++ (c ++ '\n' :: B)) = cf.read (A ++ B) := by
  rw [read_eq_run_lines, read_eq_run_lines, file_buffers_append A _ hA,
    file_buffers_append A B hA, file_buffers_line c B hc hlen, run_lines_append,
    run_lines_append]
  cases run_lines (read_init cf) (file_buffers A) with
  | ok st => simp only [run_lines, read_line_comment_lf st c hcom]
  | buffer_overrun => rfl
  | out_of_fuel => rfl

/-- C25 (amended) on the file `[net]` / `ip = 1`: a comment line, a blank
line of spaces and a `//` line inserted after the first line, one after the
other. -/
theorem comment_line_ignored_witness :
    CConfigFile.new.read "[net]\n# note\nip = 1\n".toList =
      CConfigFile.new.read "[net]\nip = 1\n".toList ∧
    CConfigFile.new.read "[net]\n   \nip = 1\n".toList =
      CConfigFile.new.read "[net]\nip = 1\n".toList ∧
    CConfigFile.new.read "[net]\n  // x = 2\nip = 1\n".toList =
      CConfigFile.new.read "[net]\nip = 1\n".toList :=
  ⟨comment_line_ignored CConfigFile.new "[net]\n".toList "ip = 1\n".toList "# note".toList
      (Or.inr (by decide)) (by decide) (by decide) (by decide),
    comment_line_ignored CConfigFile.new "[net]\n".toList "ip = 1\n".toList "   ".toList
      (Or.inr (by decide)) (by decide) (by decide) (by decide),
    comment_line_ignored CConfigFile.new "[net]\n".toList "ip = 1\n".toList "  // x = 2".toList
      (Or.inr (by decide)) (by decide) (by decide) (by decide)⟩

/-! ## The store after the read -/

/-- A fully scoped key is resolved without the current section. -/
theorem exists_scoped_any_section (cf : CConfigFile) (s key : Str)
    (h : has_scope (make_lower key) = true) :
    (cf.set_current_section s).exists key = cf.exists key := by
  unfold CConfigFile.exists
  simp only [h, if_true]
  rfl

/-! ## Boolean decode of numbers -/

/-- C27 fails on numbers that do not start with one of the digits 1 to 9:
integer decode reads `-1`, `010`, `0x1F` and `+5` as -1, 8, 31 and 5, all
non-zero, and `parse_bool` returns false on each of them. -/
theorem parse_bool_nonzero_rejected :
    (decode_int "-1".toList = -1 ∧ parse_bool "-1".toList = false) ∧
    (decode_int "010".toList = 8 ∧ parse_bool "010".toList = false) ∧
    (decode_int "0x1F".toList = 31 ∧ parse_bool "0x1F".toList = false) ∧
    (decode_int "+5".toList = 5 ∧ parse_bool "+5".toList = false) := by
  decide

/-- On a numeral that starts with one of the digits 1 to 9 `parse_bool`
returns true. -/
theorem parse_bool_of_digit (d : Char) (rest : Str) (h1 : '1' ≤ d) (h9 : d ≤ '9') :
    parse_bool (d :: rest) = true := by
  have hd : d ≠ NUL := by
    rintro rfl
    exact absurd h1 (by decide)
  unfold parse_bool
  simp [c_str, hd, peek_cons, h1, h9]

/-! ## The gateway address -/

theorem sym_find_set_self (t : SymbolTable) (k v : Str) : sym_find (sym_set t k v) k = some v := by
  induction t with
  | nil => simp [sym_set, sym_find]
  | cons e m ih =>
    obtain ⟨k1, v1⟩ := e
    by_cases h : k1 = k
    · simp [sym_set, sym_find, h]
    · simp [sym_set, sym_find, h, ih]

theorem sym_find_set_other (t : SymbolTable) (k k2 v : Str) (hk : k2 ≠ k) :
    sym_find (sym_set t k v) k2 = sym_find t k2 := by
  induction t with
  | nil =>
    have : ¬ k = k2 := fun e => hk e.symm
    simp [sym_set, sym_find, this]
  | cons e m ih =>
    obtain ⟨k1, v1⟩ := e
    by_cases h : k1 = k
    · subst h
      have : ¬ k1 = k2 := fun e => hk e.symm
      simp [sym_set, sym_find, this]
    · by_cases h2 : k1 = k2
      · subst h2
        simp [sym_set, sym_find, h]
      · simp [sym_set, sym_find, h, h2, ih]

set_option maxRecDepth 100000 in
/-- Every octet, written in decimal, is read back by `parse_octet`, and its
text holds neither a dot nor NUL. -/
theorem octet_round_trip : ∀ a, a < 256 →
    parse_octet (Nat.toDigits 10 a) = some a ∧ '.' ∉ Nat.toDigits 10 a ∧
      NUL ∉ Nat.toDigits 10 a := by
  decide

theorem dotted_quad_eq (a b c d : Nat) :
    dotted_quad a b c d = List.intercalate ['.']
      [Nat.toDigits 10 a, Nat.toDigits 10 b, Nat.toDigits 10 c, Nat.toDigits 10 d] := by
  simp [dotted_quad, List.intercalate, List.intersperse]

/-- The text of four octets is taken by `inet_pton`, which gives the octets
back. -/
theorem inet_pton_dotted (a b c d : Nat) (ha : a < 256) (hb : b < 256) (hc : c < 256)
    (hd : d < 256) : inet_pton (dotted_quad a b c d) = some [a, b, c, d] := by
  have h := List.splitOn_intercalate
    [Nat.toDigits 10 a, Nat.toDigits 10 b, Nat.toDigits 10 c, Nat.toDigits 10 d] '.'
    (by
      intro l hl
      simp only [List.mem_cons, List.mem_singleton, List.not_mem_nil, or_false] at hl
      rcases hl with rfl | rfl | rfl | rfl
      · exact (octet_round_trip a ha).2.1
      · exact (octet_round_trip b hb).2.1
      · exact (octet_round_trip c hc).2.1
      · exact (octet_round_trip d hd).2.1)
    (by simp)
  unfold inet_pton
  rw [dotted_quad_eq, h]
  simp only [(octet_round_trip a ha).1, (octet_round_trip b hb).1, (octet_round_trip c hc).1,
    (octet_round_trip d hd).1]

theorem dotted_quad_no_nul (a b c d : Nat) (ha : a < 256) (hb : b < 256) (hc : c < 256)
    (hd : d < 256) : NUL ∉ dotted_quad a b c d := by
  unfold dotted_quad
  simp only [List.mem_append, List.mem_cons, not_or]
  exact ⟨(octet_round_trip a ha).2.2, by decide, (octet_round_trip b hb).2.2, by decide,
    (octet_round_trip c hc).2.2, by decide, (octet_round_trip d hd).2.2⟩

/-- C28: when the static IP symbol holds the dotted quad of the octets a, b,
c, d, `computeGatewayIP` sets the gateway symbol to the dotted quad of a, b,
c, 1 and leaves every other symbol, the static IP symbol among them, as it
was; the text of the static IP is one that `inet_pton` takes. -/
theorem gateway_ip (symbolTable : SymbolTable) (octet : List Nat) (a b c d : Nat)
    (ha : a < 256) (hb : b < 256) (hc : c < 256) (hd : d < 256)
    (hs : sym_find symbolTable STATIC_IP = some (dotted_quad a b c d)) :
    sym_find (computeGatewayIP symbolTable octet) GATEWAY_IP = some (dotted_quad a b c 1) ∧
    sym_find (computeGatewayIP symbolTable octet) STATIC_IP = some (dotted_quad a b c d) ∧
    (∀ k, k ≠ GATEWAY_IP →
      sym_find (computeGatewayIP symbolTable octet) k = sym_find symbolTable k) ∧
    inet_pton (dotted_quad a b c d) = some [a, b, c, d] := by
  have hi : sym_index symbolTable STATIC_IP = (symbolTable, dotted_quad a b c d) := by
    unfold sym_index
    rw [hs]
  have hg : computeGatewayIP symbolTable octet =
      sym_set symbolTable GATEWAY_IP (dotted_quad a b c 1) := by
    unfold computeGatewayIP
    simp only [hi, c_str_of_no_nul _ (dotted_quad_no_nul a b c d ha hb hc hd),
      inet_pton_dotted a b c d ha hb hc hd]
    rw [dotted_quad_eq]
    rfl
  rw [hg]
  refine ⟨sym_find_set_self _ _ _, ?_, fun k hk => sym_find_set_other _ _ _ _ hk,
    inet_pton_dotted a b c d ha hb hc hd⟩
  rw [sym_find_set_other _ _ _ _ (by decide), hs]

/-- C28 on the static IP 10.11.12.3 of the source comment. -/
theorem gateway_ip_witness :
    sym_find (computeGatewayIP [(STATIC_IP, "10.11.12.3".toList)] [0, 0, 0, 0]) GATEWAY_IP =
      some "10.11.12.1".toList ∧
    sym_find (computeGatewayIP [(STATIC_IP, "10.11.12.3".toList)] [0, 0, 0, 0]) STATIC_IP =
      some "10.11.12.3".toList := by
  have h := gateway_ip [(STATIC_IP, "10.11.12.3".toList)] [0, 0, 0, 0] 10 11 12 3 (by decide)
    (by decide) (by decide) (by decide) (by decide)
  exact ⟨h.1.trans (by decide), h.2.1.trans (by decide)⟩

/-! ## Script blocks after a key line -/

/-- The outer loop of the tokenizer, turn by turn. -/
theorem parse_loop_turn (fuel : Nat) (inp : Str) (result : StrVec) :
    parse_loop (fuel + 1) inp result =
      if is_eol (peek inp) then Outcome.ok result
      else
        match parse_turn inp with
        | Turn.stop => Outcome.ok result
        | Turn.overrun => Outcome.buffer_overrun
        | Turn.token t rest => parse_loop fuel rest (result ++ [t]) := by
  rw [parse_loop]
  unfold parse_turn
  split
  · rfl
  · simp only []
    split
    · rfl
    · split <;> rfl

/-- A turn that yields a token consumes at least one character of its input. -/
theorem parse_turn_progress (inp t rest : Str) (h : parse_turn inp = Turn.token t rest) :
    rest <:+ inp ∧ rest.length < inp.length := by
  unfold parse_turn at h
  simp only [] at h
  split at h
  · cases h
  · rename_i hne2
    have hsuf := skip_ws_suffix inp
    have hlen1 : (skip_ws inp).length ≤ inp.length := hsuf.length_le
    cases hin1 : skip_ws inp with
    | nil => rw [hin1] at hne2; exact absurd (by decide : is_eol (peek []) = true) hne2
    | cons c cs =>
      rw [hin1] at hne2 hlen1 h hsuf
      have hws : is_ws c = false := by
        have := skip_ws_head inp
        rw [hin1] at this
        exact this
      have hec : is_eol c = false := by simpa [peek] using hne2
      simp only [peek_cons, advance_cons] at h
      simp only [List.length_cons] at hlen1
      have hcs : cs <:+ inp := (List.suffix_cons c cs).trans hsuf
      by_cases hq : (c == DQUOTE || c == SQUOTE) = true
      · simp only [hq, if_true] at h
        cases hsc : scan_token c 0 cs with
        | none => rw [hsc] at h; cases h
        | some tr =>
          obtain ⟨t1, r⟩ := tr
          rw [hsc] at h
          simp only [Turn.token.injEq] at h
          obtain ⟨-, hrest⟩ := h
          have hr : r <:+ cs := (scan_token_initial _ _ _ _ _ hsc).2
          have h4 : skip_ws r <:+ cs := (skip_ws_suffix r).trans hr
          have h5 : rest <:+ cs := by
            rw [← hrest]
            split
            · exact (advance_suffix _).trans h4
            · exact h4
          exact ⟨h5.trans hcs, by have := h5.length_le; omega⟩
      · simp only [hq, Bool.false_eq_true, if_false] at h
        cases hsc : scan_token NUL 0 (c :: cs) with
        | none => rw [hsc] at h; cases h
        | some tr =>
          obtain ⟨t1, r⟩ := tr
          rw [hsc] at h
          simp only [Turn.token.injEq] at h
          obtain ⟨-, hrest⟩ := h
          rcases scan_token_bare_progress c cs t1 r hec hws hsc with ⟨hc, hr⟩ | hr
          · subst hr
            rw [skip_ws_cons c cs hws, peek_cons, if_pos hc, advance_cons] at hrest
            subst hrest
            exact ⟨hcs, by omega⟩
          · have h4 : skip_ws r <:+ cs := (skip_ws_suffix r).trans hr
            have h5 : rest <:+ cs := by
              rw [← hrest]
              split
              · exact (advance_suffix _).trans h4
              · exact h4
            exact ⟨h5.trans hcs, by have := h5.length_le; omega⟩

/-- The turn on which the loop stops has skipped at least one space or tab. -/
theorem parse_turn_stop (inp : Str) (he : is_eol (peek inp) = false)
    (h : parse_turn inp = Turn.stop) : (skip_ws inp).length < inp.length := by
  unfold parse_turn at h
  simp only [] at h
  split at h
  · rename_i h1
    cases inp with
    | nil => exact absurd (by decide : is_eol (peek []) = true) (by simpa using he)
    | cons c cs =>
      by_cases hw : is_ws c = true
      · rw [skip_ws]
        simp only [hw, if_true]
        have := (skip_ws_suffix cs).length_le
        simp only [List.length_cons]
        omega
      · have hw : is_ws c = false := by simpa using hw
        rw [skip_ws_cons c cs hw] at h1
        rw [h1] at he
        cases he
  · split at h <;> cases h

/-- The outer loop adds at most one token for each character of its input. -/
theorem parse_loop_count (fuel : Nat) (inp : Str) (result toks : StrVec)
    (h : parse_loop fuel inp result = Outcome.ok toks) :
    toks.length ≤ result.length + inp.length := by
  induction fuel generalizing inp result with
  | zero => simp [parse_loop] at h
  | succ fuel ih =>
    rw [parse_loop_turn] at h
    split at h
    · injection h with h
      subst h
      omega
    · cases ht : parse_turn inp with
      | stop =>
        rw [ht] at h
        injection h with h
        subst h
        omega
      | overrun => rw [ht] at h; cases h
      | token t rest =>
        rw [ht] at h
        have := ih _ _ h
        have hp := (parse_turn_progress inp t rest ht).2
        simp only [List.length_append, List.length_singleton] at this
        omega

/-- Outside quotes the inner loop copies no space, tab or comma. -/
theorem scan_token_bare_chars (out : Nat) (s t r : Str)
    (h : scan_token NUL out s = some (t, r)) : ∀ c ∈ t, is_ws c = false ∧ c ≠ ',' := by
  induction s generalizing out t with
  | nil =>
    simp only [scan_token] at h
    split at h
    · simp only [Option.some.injEq, Prod.mk.injEq] at h
      obtain ⟨rfl, -⟩ := h
      simp
    · cases h
  | cons c cs ih =>
    simp only [scan_token, ne_eq, not_true_eq_false, if_false] at h
    split at h
    · split at h
      · simp only [Option.some.injEq, Prod.mk.injEq] at h
        obtain ⟨rfl, -⟩ := h
        simp
      · cases h
    · split at h
      · split at h
        · simp only [Option.some.injEq, Prod.mk.injEq] at h
          obtain ⟨rfl, -⟩ := h
          simp
        · cases h
      · rename_i hc
        simp only [Bool.or_eq_true, beq_iff_eq, not_or, Bool.not_eq_true] at hc
        split at h
        · cases hsc : scan_token NUL (out + 1) cs with
          | none => rw [hsc] at h; cases h
          | some tr =>
            obtain ⟨t1, r1⟩ := tr
            rw [hsc] at h
            simp only [Option.some.injEq, Prod.mk.injEq] at h
            obtain ⟨rfl, rfl⟩ := h
            intro x hx
            rcases List.mem_cons.1 hx with rfl | hx
            · exact hc
            · exact ih (out + 1) t1 hsc x hx
        · cases h

/-- The token of a turn holds no end-of-line character, and no space, tab or
comma when the input of the turn holds no quote. -/
theorem parse_turn_chars (inp t rest : Str) (h : parse_turn inp = Turn.token t rest) :
    (∀ c ∈ t, is_eol c = false) ∧
    (SQUOTE ∉ inp → DQUOTE ∉ inp → ∀ c ∈ t, is_ws c = false ∧ c ≠ ',') := by
  unfold parse_turn at h
  simp only [] at h
  split at h
  · cases h
  · split at h
    · cases h
    · rename_i token in3 hsc
      simp only [Turn.token.injEq] at h
      obtain ⟨rfl, -⟩ := h
      refine ⟨scan_token_no_eol _ _ _ _ _ hsc, ?_⟩
      intro h1 h2
      have hmem : ∀ q, q ∉ inp → peek (skip_ws inp) = q → q = NUL := by
        intro q hq hp
        cases hs : skip_ws inp with
        | nil => rw [hs] at hp; exact hp.symm
        | cons c cs =>
          rw [hs, peek_cons] at hp
          subst hp
          exact absurd ((skip_ws_suffix inp).subset (by rw [hs]; simp)) hq
      have hq : (peek (skip_ws inp) == DQUOTE || peek (skip_ws inp) == SQUOTE) = false := by
        have e1 : (peek (skip_ws inp) == DQUOTE) = false := by
          apply beq_eq_false_iff_ne.2
          intro e
          exact absurd (hmem DQUOTE h2 e) (by decide)
        have e2 : (peek (skip_ws inp) == SQUOTE) = false := by
          apply beq_eq_false_iff_ne.2
          intro e
          exact absurd (hmem SQUOTE h1 e) (by decide)
        rw [e1, e2]
        rfl
      simp only [hq, Bool.false_eq_true, if_false] at hsc
      exact scan_token_bare_chars _ _ _ _ hsc

theorem parse_loop_chars (fuel : Nat) (inp : Str) (result toks : StrVec)
    (hres : ∀ t ∈ result, ∀ c ∈ t, is_ws c = false ∧ c ≠ ',')
    (h1 : SQUOTE ∉ inp) (h2 : DQUOTE ∉ inp)
    (h : parse_loop fuel inp result = Outcome.ok toks) :
    ∀ t ∈ toks, ∀ c ∈ t, is_ws c = false ∧ c ≠ ',' := by
  induction fuel generalizing inp result with
  | zero => simp [parse_loop] at h
  | succ fuel ih =>
    rw [parse_loop_turn] at h
    split at h
    · injection h with h
      subst h
      exact hres
    · cases ht : parse_turn inp with
      | stop =>
        rw [ht] at h
        injection h with h
        subst h
        exact hres
      | overrun => rw [ht] at h; cases h
      | token t rest =>
        rw [ht] at h
        have hsuf := (parse_turn_progress inp t rest ht).1
        refine ih rest (result ++ [t]) ?_ (fun e => h1 (hsuf.subset e))
          (fun e => h2 (hsuf.subset e)) h
        intro x hx
        rcases List.mem_append.1 hx with hx | hx
        · exact hres x hx
        · simp only [List.mem_singleton] at hx
          subst hx
          exact (parse_turn_chars inp x rest ht).2 h1 h2

/-- C31 fails on the words that do not fit `token[512]`: on a word of 512
letters or more the tokenizer writes past its token buffer and no token
sequence is defined. The rest of the claim holds: the loop never runs out of
turns, every turn consumes at least one character, an input shorter than the
buffer is tokenized, and a returned sequence has at most as many tokens as the
input has characters. -/
theorem parse_total_up_to_overrun :
    (∀ n, 512 ≤ n → CTokenizer.parse (List.replicate n 'a') = Outcome.buffer_overrun) ∧
    (∀ input, CTokenizer.parse input ≠ Outcome.out_of_fuel) ∧
    (∀ inp t rest, parse_turn inp = Turn.token t rest → rest.length < inp.length) ∧
    (∀ inp, is_eol (peek inp) = false → parse_turn inp = Turn.stop →
      (skip_ws inp).length < inp.length) ∧
    (∀ input, input.length < 512 → ∃ toks, CTokenizer.parse input = Outcome.ok toks) ∧
    (∀ input toks, CTokenizer.parse input = Outcome.ok toks → toks.length ≤ input.length) := by
  refine ⟨long_word_overrun, parse_terminates,
    fun inp t rest h => (parse_turn_progress inp t rest h).2, parse_turn_stop, ?_, ?_⟩
  · intro input hlen
    cases hp : CTokenizer.parse input with
    | ok toks => exact ⟨toks, rfl⟩
    | buffer_overrun => exact absurd hp (parse_fits input hlen)
    | out_of_fuel => exact absurd hp (parse_terminates input)
  · intro input toks h
    have := parse_loop_count _ _ _ _ h
    simpa using this

/-- C33: no token that the tokenizer returns holds a CR, a line feed or a NUL,
and when the input holds no single and no double quote, no token holds a
space, a tab or a comma. -/
theorem token_characters (input : Str) (toks : StrVec)
    (h : CTokenizer.parse input = Outcome.ok toks) :
    (∀ t ∈ toks, '\r' ∉ t ∧ '\n' ∉ t ∧ NUL ∉ t) ∧
    (SQUOTE ∉ input → DQUOTE ∉ input → ∀ t ∈ toks, ' ' ∉ t ∧ '\t' ∉ t ∧ ',' ∉ t) := by
  constructor
  · intro t ht
    have he := parse_loop_no_eol _ _ _ _ (by simp) h t ht
    refine ⟨fun hm => ?_, fun hm => ?_, fun hm => ?_⟩
    · exact absurd (he _ hm) (by decide)
    · exact absurd (he _ hm) (by decide)
    · exact absurd (he _ hm) (by decide)
  · intro h1 h2 t ht
    have hc := parse_loop_chars _ _ _ _ (by simp) h1 h2 h t ht
    refine ⟨fun hm => ?_, fun hm => ?_, fun hm => ?_⟩
    · exact absurd (hc _ hm).1 (by decide)
    · exact absurd (hc _ hm).1 (by decide)
    · exact (hc _ hm).2 rfl

/-- C33 on the input ` ab, c` tab `d` CR LF `z`, whose tokens are `ab`, `c`
and `d`. -/
theorem token_characters_witness :
    CTokenizer.parse " ab, c\td\r\nz".toList =
      Outcome.ok ["ab".toList, "c".toList, "d".toList] ∧
    (∀ t ∈ ["ab".toList, "c".toList, "d".toList], '\r' ∉ t ∧ '\n' ∉ t ∧ NUL ∉ t) ∧
    (∀ t ∈ ["ab".toList, "c".toList, "d".toList], ' ' ∉ t ∧ '\t' ∉ t ∧ ',' ∉ t) :=
  ⟨by decide,
    (token_characters " ab, c\td\r\nz".toList ["ab".toList, "c".toList, "d".toList]
      (by decide)).1,
    (token_characters " ab, c\td\r\nz".toList ["ab".toList, "c".toList, "d".toList]
      (by decide)).2 (by decide) (by decide)⟩

/-! ## The tokenizer on comma-separated fields -/

/-- One turn on a field, empty or not, that a comma follows. -/
theorem parse_turn_field (w rest : Str)
    (hw : ∀ c ∈ w, is_eol c = false ∧ is_ws c = false ∧ c ≠ ',' ∧ c ≠ DQUOTE ∧ c ≠ SQUOTE)
    (hlen : w.length < 512) :
    is_eol (peek (w ++ ',' :: rest)) = false ∧
    parse_turn (w ++ ',' :: rest) = Turn.token w rest := by
  have hsc : scan_token NUL 0 (w ++ ',' :: rest) = some (w, ',' :: rest) :=
    scan_unquoted w (',' :: rest) 0 (fun c hc => ⟨(hw c hc).1, (hw c hc).2.1, (hw c hc).2.2.1⟩)
      (Or.inr ⟨',', rest, rfl, Or.inr rfl⟩) (by omega)
  have hhead : ∃ c cs, w ++ ',' :: rest = c :: cs ∧ is_eol c = false ∧ is_ws c = false ∧
      c ≠ DQUOTE ∧ c ≠ SQUOTE := by
    cases w with
    | nil => exact ⟨',', rest, rfl, by decide, by decide, by decide, by decide⟩
    | cons c cs =>
      have := hw c (by simp)
      exact ⟨c, cs ++ ',' :: rest, rfl, this.1, this.2.1, this.2.2.2.1, this.2.2.2.2⟩
  obtain ⟨c, cs, e, he, hws, h1, h2⟩ := hhead
  have hqq : (c == DQUOTE || c == SQUOTE) = false := by simp [h1, h2]
  refine ⟨by rw [e, peek_cons]; exact he, ?_⟩
  unfold parse_turn
  rw [e] at hsc ⊢
  have hc : is_ws ',' = false := by decide
  simp only [skip_ws_cons c cs hws, peek_cons, he, Bool.false_eq_true, if_false, hqq, hsc,
    skip_ws_cons ',' rest hc, if_true, advance_cons]

/-- One turn on a last field that is not empty. -/
theorem parse_turn_last (w : Str) (hne : w ≠ [])
    (hw : ∀ c ∈ w, is_eol c = false ∧ is_ws c = false ∧ c ≠ ',' ∧ c ≠ DQUOTE ∧ c ≠ SQUOTE)
    (hlen : w.length < 512) :
    is_eol (peek w) = false ∧ parse_turn w = Turn.token w [] := by
  have hsc : scan_token NUL 0 (w ++ []) = some (w, []) :=
    scan_unquoted w [] 0 (fun c hc => ⟨(hw c hc).1, (hw c hc).2.1, (hw c hc).2.2.1⟩)
      (Or.inl rfl) (by omega)
  rw [List.append_nil] at hsc
  cases w with
  | nil => exact absurd rfl hne
  | cons c cs =>
    have hc := hw c (by simp)
    have hqq : (c == DQUOTE || c == SQUOTE) = false := by simp [hc.2.2.2.1, hc.2.2.2.2]
    refine ⟨by rw [peek_cons]; exact hc.1, ?_⟩
    have hnil : skip_ws ([] : Str) = [] := rfl
    unfold parse_turn
    simp only [skip_ws_cons c cs hc.2.1, peek_cons, hc.1, Bool.false_eq_true, if_false, hqq, hsc,
      hnil]
    rfl

/-- The outer loop on fields joined by commas, with or without one more comma
at the end. -/
theorem parse_loop_fields (ws : StrVec) (hne : ws ≠ [])
    (hw : ∀ w ∈ ws, w.length < 512 ∧
      ∀ c ∈ w, is_eol c = false ∧ is_ws c = false ∧ c ≠ ',' ∧ c ≠ DQUOTE ∧ c ≠ SQUOTE)
    (hlast : ws.getLast? ≠ some []) (fuel : Nat) (result : StrVec) (hf : ws.length < fuel) :
    parse_loop fuel (join_commas ws) result = Outcome.ok (result ++ ws) ∧
    parse_loop fuel (join_commas ws ++ [',']) result = Outcome.ok (result ++ ws) := by
  induction ws generalizing fuel result with
  | nil => exact absurd rfl hne
  | cons w rest ih =>
    obtain ⟨fuel, rfl⟩ : ∃ f, fuel = f + 1 := ⟨fuel - 1, by simp at hf; omega⟩
    have hw0 := hw w (List.mem_cons_self _ _)
    cases rest with
    | nil =>
      have hwne : w ≠ [] := by
        intro e
        rw [e] at hlast
        exact hlast rfl
      obtain ⟨fuel, rfl⟩ : ∃ f, fuel = f + 1 := ⟨fuel - 1, by simp at hf; omega⟩
      constructor
      · obtain ⟨h1, h2⟩ := parse_turn_last w hwne hw0.2 hw0.1
        simp only [join_commas]
        rw [parse_loop_turn, if_neg (by simp [h1]), h2]
        simp only []
        rw [parse_loop_nil]
      · obtain ⟨h1, h2⟩ := parse_turn_field w [] hw0.2 hw0.1
        simp only [join_commas]
        rw [parse_loop_turn, if_neg (by simp [h1]), h2]
        simp only []
        rw [parse_loop_nil]
    | cons w2 rest2 =>
      have hrest := ih (by simp) (fun x hx => hw x (List.mem_cons_of_mem _ hx))
        (by rw [List.getLast?_cons_cons] at hlast; exact hlast) fuel (result ++ [w])
        (by simp at hf ⊢; omega)
      rw [show join_commas (w :: w2 :: rest2) = w ++ ',' :: join_commas (w2 :: rest2) from rfl]
      constructor
      · obtain ⟨h1, h2⟩ := parse_turn_field w (join_commas (w2 :: rest2)) hw0.2 hw0.1
        rw [parse_loop_turn, if_neg (by simp [h1]), h2]
        simp only []
        rw [hrest.1]
        simp
      · obtain ⟨h1, h2⟩ := parse_turn_field w (join_commas (w2 :: rest2) ++ [',']) hw0.2 hw0.1
        rw [List.append_assoc, List.cons_append, parse_loop_turn, if_neg (by simp [h1]), h2]
        simp only []
        rw [hrest.2]
        simp

theorem join_commas_length (ws : StrVec) (hlast : ws.getLast? ≠ some []) :
    ws.length ≤ (join_commas ws).length := by
  induction ws with
  | nil => simp [join_commas]
  | cons w rest ih =>
    cases rest with
    | nil =>
      have hwne : w ≠ [] := by
        intro e
        rw [e] at hlast
        exact hlast rfl
      simp only [join_commas, List.length_singleton]
      cases w with
      | nil => exact absurd rfl hwne
      | cons c cs => simp
    | cons w2 rest2 =>
      have := ih (by rw [List.getLast?_cons_cons] at hlast; exact hlast)
      simp only [join_commas, List.length_append, List.length_cons] at this ⊢
      omega

/-- The tokenizer on fields that fit the token buffer, each possibly empty,
the last one not empty, joined by single commas: exactly the fields, also
when one more comma follows. -/
theorem parse_fields (ws : StrVec) (hne : ws ≠ [])
    (hw : ∀ w ∈ ws, w.length < 512 ∧
      ∀ c ∈ w, c ≠ ' ' ∧ c ≠ '\t' ∧ c ≠ ',' ∧ c ≠ SQUOTE ∧ c ≠ DQUOTE ∧
        c ≠ NUL ∧ c ≠ '\n' ∧ c ≠ '\r')
    (hlast : ws.getLast? ≠ some []) :
    CTokenizer.parse (join_commas ws) = Outcome.ok ws ∧
    CTokenizer.parse (join_commas ws ++ [',']) = Outcome.ok ws := by
  have hw2 : ∀ w ∈ ws, w.length < 512 ∧
      ∀ c ∈ w, is_eol c = false ∧ is_ws c = false ∧ c ≠ ',' ∧ c ≠ DQUOTE ∧ c ≠ SQUOTE := by
    intro w hwm
    refine ⟨(hw w hwm).1, fun c hc => ?_⟩
    obtain ⟨h1, h2, h3, h4, h5, h6, h7, h8⟩ := (hw w hwm).2 c hc
    exact ⟨is_eol_false c h6 h7 h8, is_ws_false c h1 h2, h3, h5, h4⟩
  have hl := join_commas_length ws hlast
  unfold CTokenizer.parse
  have h1 := (parse_loop_fields ws hne hw2 hlast ((join_commas ws).length + 1) []
    (by omega)).1
  have h2 := (parse_loop_fields ws hne hw2 hlast ((join_commas ws ++ [',']).length + 1) []
    (by simp only [List.length_append, List.length_singleton]; omega)).2
  exact ⟨by simpa using h1, by simpa using h2⟩

/-- The examples of C32: `a,,b` and `,a`, each also with one more comma. -/
theorem parse_fields_examples :
    CTokenizer.parse "a,,b".toList = Outcome.ok ["a".toList, [], "b".toList] ∧
    CTokenizer.parse "a,,b,".toList = Outcome.ok ["a".toList, [], "b".toList] ∧
    CTokenizer.parse ",a".toList = Outcome.ok [[], "a".toList] ∧
    CTokenizer.parse ",a,".toList = Outcome.ok [[], "a".toList] := by
  have h1 := parse_fields ["a".toList, [], "b".toList] (by decide) (by decide) (by decide)
  have h2 := parse_fields [[], "a".toList] (by decide) (by decide) (by decide)
  exact ⟨h1.1, h1.2, h2.1, h2.2⟩

theorem parse_loop_long_word (fuel n : Nat) (result : StrVec) (hn : 512 ≤ n) :
    parse_loop (fuel + 1) (List.replicate n 'a') result = Outcome.buffer_overrun := by
  obtain ⟨m, rfl⟩ : ∃ m, n = m + 1 := ⟨n - 1, by omega⟩
  have he : is_eol 'a' = false := by decide
  have hw : is_ws 'a' = false := by decide
  have hq : ('a' == DQUOTE || 'a' == SQUOTE) = false := by decide
  rw [parse_loop, List.replicate_succ]
  simp only [peek_cons, he, Bool.false_eq_true, if_false, skip_ws_cons 'a' _ hw, hq]
  rw [← List.replicate_succ, scan_token_overrun (m + 1) 0 (by omega)]

/-- C32 fails on a field that does not fit `token[512]`: the fields are the
empty word and a word of 512 letters `a`, which C32 allows; the tokenizer
takes the empty field and writes past the end of its token buffer on the
second. -/
theorem parse_long_field_overrun :
    join_commas [[], List.replicate 512 'a'] = ',' :: List.replicate 512 'a' ∧
    ([[], List.replicate 512 'a'] : StrVec).getLast? ≠ some [] ∧
    (∀ c ∈ List.replicate 512 'a', c ≠ ' ' ∧ c ≠ '\t' ∧ c ≠ ',' ∧ c ≠ SQUOTE ∧ c ≠ DQUOTE ∧
        c ≠ NUL ∧ c ≠ '\n' ∧ c ≠ '\r') ∧
    CTokenizer.parse (',' :: List.replicate 512 'a') = Outcome.buffer_overrun := by
  refine ⟨rfl, ?_, ?_, ?_⟩
  · rw [List.getLast?_cons_cons, List.getLast?_singleton]
    intro h
    injection h with h
    have : (List.replicate 512 'a').length = 0 := by rw [h]; rfl
    rw [List.length_replicate] at this
    omega
  · intro c hc
    rw [List.eq_of_mem_replicate hc]
    decide
  · unfold CTokenizer.parse
    obtain ⟨h1, h2⟩ := parse_turn_field [] (List.replicate 512 'a') (by simp) (by decide)
    rw [List.nil_append] at h1 h2
    rw [parse_loop_turn, if_neg (by rw [h1]; exact Bool.false_ne_true), h2]
    simp only [List.length_cons, List.length_replicate]
    exact parse_loop_long_word 512 512 _ (Nat.le_refl _)

/-! ## The format string of the scalar fetch -/

theorem getD_last (fmt : Str) (hne : fmt ≠ []) :
    fmt.getD (fmt.length - 1) 'i' = fmt.getLast?.getD 'i' := by
  have hlt : fmt.length - 1 < fmt.length := by
    cases fmt with
    | nil => exact absurd rfl hne
    | cons c cs => simp
  rw [List.getLast?_eq_getLast _ hne, List.getLast_eq_getElem, List.getD_eq_getElem _ _ hlt]
  rfl

/-- The format letter of a field follows from the letter of the field before
it as the loop of `get` computes it. -/
theorem format_letter_step (fmt : Str) (i : Nat) (format : Char)
    (hf : format = if i = 0 then 'i' else format_letter fmt (i - 1)) :
    (if ((i : Int) - 1 + 1) < (fmt.length : Int) then fmt.getD ((i : Int) - 1 + 1).toNat format
      else format) = format_letter fmt i := by
  have e : (i : Int) - 1 + 1 = (i : Int) := by omega
  rw [e, Int.toNat_ofNat]
  unfold format_letter
  by_cases hlt : i < fmt.length
  · have hlt2 : (i : Int) < (fmt.length : Int) := by exact_mod_cast hlt
    rw [if_pos hlt2, if_pos hlt, List.getD_eq_getElem _ _ hlt, List.getD_eq_getElem _ _ hlt]
  · have hlt2 : ¬ (i : Int) < (fmt.length : Int) := by
      intro h
      exact hlt (by exact_mod_cast h)
    rw [if_neg hlt2, if_neg hlt, hf]
    by_cases h0 : i = 0
    · subst h0
      have : fmt = [] := by
        cases fmt with
        | nil => rfl
        | cons c cs => simp at hlt
      subst this
      rfl
    · rw [if_neg h0]
      unfold format_letter
      by_cases h1 : i - 1 < fmt.length
      · have hl : i - 1 = fmt.length - 1 := by omega
        have hne : fmt ≠ [] := by
          intro e
          rw [e] at h1
          simp at h1
        rw [if_pos h1, hl, getD_last fmt hne]
      · rw [if_neg h1]

/-- The loop of `get` from field `i` on: while the output pointers are there,
field `i + j` is decoded under its format letter; from the first absent
pointer on nothing is written. -/
theorem get_loop_format (fmt : Str) (values : StrVec) (output : List Bool) (i : Nat)
    (format : Char) (hf : format = if i = 0 then 'i' else format_letter fmt (i - 1)) :
    get_loop fmt values output i format ((i : Int) - 1) =
      (List.range output.length).map (fun j =>
        if j < (output.takeWhile (· == true)).length then
          decode_field (format_letter fmt (i + j)) (c_str (values.getD (i + j) []))
        else none) := by
  induction output generalizing i format with
  | nil => simp [get_loop]
  | cons field rest ih =>
    cases field with
    | false =>
      simp only [get_loop, if_true, List.map_cons, List.map_map, List.length_cons,
        List.takeWhile_cons, Bool.false_eq_true, if_false, List.length_nil, Nat.not_lt_zero,
        beq_iff_eq]
      rw [List.range_succ_eq_map]
      simp only [List.map_cons, List.map_map]
      congr 1
      clear ih
      induction rest with
      | nil => rfl
      | cons r rs ihr =>
        rw [List.map_cons, List.length_cons, List.range_succ_eq_map, List.map_cons, List.map_map]
        congr 1
    | true =>
      rw [get_loop]
      simp only [Bool.true_eq_false, if_false, get_value_eq, format_letter_step fmt i format hf]
      have hnext := ih (i + 1) (format_letter fmt i) (by simp)
      have e : ((i + 1 : Nat) : Int) - 1 = (i : Int) - 1 + 1 := by push_cast; omega
      rw [e] at hnext
      rw [hnext, List.length_cons, List.range_succ_eq_map, List.map_cons, List.map_map]
      simp only [List.takeWhile_cons, beq_self_eq_true, if_true, List.length_cons,
        Nat.zero_lt_succ, Nat.add_zero]
      congr 1
      apply List.map_congr_left
      intro j _
      simp only [Function.comp, Nat.succ_eq_add_one, Nat.add_lt_add_iff_right]
      have e2 : i + 1 + j = i + (j + 1) := by omega
      rw [e2]

/-- C34: in the scalar fetch with a format string, for a key that lookup
finds, the call returns true; while the output fields are present, field i is
decoded under the letter fmt[i] while fmt lasts, then under the last letter of
fmt, and as an integer when fmt is empty; from the first absent field on
nothing is written; and a letter other than `i`, `f`, `s` and `b` writes
nothing. -/
theorem format_fetch (cf : CConfigFile) (key fmt : Str) (v : StrVec) (output : List Bool)
    (h : cf.lookup key = Except.ok (true, v)) (hlen : output.length = 9) :
    cf.get key fmt output = Except.ok (true,
      (List.range 9).map (fun i =>
        if i < (output.takeWhile (· == true)).length then
          decode_field (format_letter fmt i) (c_str (v.getD i []))
        else none)) ∧
    (∀ i, format_letter [] i = 'i') ∧
    (∀ letter value, letter ≠ 'i' → letter ≠ 'f' → letter ≠ 's' → letter ≠ 'b' →
      decode_field letter value = none) ∧
    (∀ value, decode_field 'i' value = some (Cell.int32 (decode_int value)) ∧
      decode_field 'f' value = some (Cell.double (decode_double value)) ∧
      decode_field 's' value = some (Cell.string value) ∧
      decode_field 'b' value = some (Cell.boolean (decode_bool value))) := by
  refine ⟨?_, fun i => rfl, ?_, fun value => ⟨rfl, rfl, rfl, rfl⟩⟩
  · have hpad : (output ++ List.replicate 9 false).take 9 = output := by
      rw [← hlen, List.take_left]
    unfold CConfigFile.get
    simp only [h, if_true, hpad]
    have hl := get_loop_format fmt v output 0 'i' rfl
    simp only [Nat.cast_zero, Int.zero_sub, Nat.zero_add, hlen] at hl
    rw [hl]
  · intro letter value h1 h2 h3 h4
    simp only [decode_field, h1, h2, h3, h4, if_false]

/-- C34 on a store that holds `nums` with the values `1`, `2`, `on`, `x`: the
format string `ixb` and the fields 1 to 4 and 6. -/
theorem format_fetch_witness :
    ({ CConfigFile.new with
        m_specs := [("::nums".toList, ["1".toList, "2".toList, "on".toList, "x".toList])] } :
      CConfigFile).get "nums".toList "ixb".toList
        [true, true, true, true, false, true, false, false, false] =
      Except.ok (true, [some (Cell.int32 1), none, some (Cell.boolean true),
        some (Cell.boolean false), none, none, none, none, none]) :=
  (format_fetch
    { CConfigFile.new with
      m_specs := [("::nums".toList, ["1".toList, "2".toList, "on".toList, "x".toList])] }
    "nums".toList "ixb".toList ["1".toList, "2".toList, "on".toList, "x".toList]
    [true, true, true, true, false, true, false, false, false] (by rfl) (by decide)).1.trans
    (by rfl)

/-! ## The script fetch into a cursor -/

/-- C35: the script fetch first empties the cursor, whatever it held; for a
key that lookup finds it returns true and the cursor holds the stored lines
with both positions zero and no tokens, so `get_next_token` returns the empty
string; in lenient mode the fetch of an absent key returns false and leaves
the cursor empty, so `get_next_line` reports exhaustion. -/
theorem script_fetch (cf : CConfigFile) (key : Str) (p_script : CConfigScript) :
    p_script.make_empty =
      { m_line_index := 0, m_token_index := 0, m_script := [], m_tokens := [] } ∧
    (∀ v, cf.lookup key = Except.ok (true, v) →
      cf.get_script key p_script = Except.ok (true,
        { m_line_index := 0, m_token_index := 0, m_script := v, m_tokens := [] }) ∧
      ∀ f, CConfigScript.get_next_token
          { m_line_index := 0, m_token_index := 0, m_script := v, m_tokens := [] } f =
        ({ m_line_index := 0, m_token_index := 0, m_script := v, m_tokens := [] }, [])) ∧
    (cf.m_throw_on_fail = false → (cf.exists key).1 = false →
      cf.get_script key p_script = Except.ok (false,
        { m_line_index := 0, m_token_index := 0, m_script := [], m_tokens := [] }) ∧
      CConfigScript.get_next_line
          { m_line_index := 0, m_token_index := 0, m_script := [], m_tokens := [] } =
        Outcome.ok (
          { m_line_index := 0, m_token_index := 0, m_script := [], m_tokens := [] },
          false, none, [])) := by
  refine ⟨rfl, ?_, ?_⟩
  · intro v h
    refine ⟨?_, fun f => rfl⟩
    unfold CConfigFile.get_script
    simp only [h, if_true]
    rfl
  · intro hl ha
    refine ⟨?_, rfl⟩
    unfold CConfigFile.get_script CConfigFile.lookup
    simp only [ha, hl, Bool.false_eq_true, if_false]
    rfl

/-- C35 on a store that holds the script `up`, fetched into a cursor that has
read a line of another script, and the fetch of the absent key `down` in
lenient mode. -/
theorem script_fetch_witness :
    ({ CConfigFile.new with
        m_specs := [("::up".toList, ["ifup eth0".toList, "echo 1".toList])] } :
      CConfigFile).get_script "up".toList
        { m_line_index := 1, m_token_index := 1, m_script := ["a b".toList],
          m_tokens := ["a".toList, "b".toList] } =
      Except.ok (true,
        { m_line_index := 0, m_token_index := 0,
          m_script := ["ifup eth0".toList, "echo 1".toList], m_tokens := [] }) ∧
    ({ CConfigFile.new with m_throw_on_fail := false } : CConfigFile).get_script "down".toList
        { m_line_index := 1, m_token_index := 1, m_script := ["a b".toList],
          m_tokens := ["a".toList, "b".toList] } =
      Except.ok (false,
        { m_line_index := 0, m_token_index := 0, m_script := [], m_tokens := [] }) :=
  ⟨((script_fetch
      { CConfigFile.new with
        m_specs := [("::up".toList, ["ifup eth0".toList, "echo 1".toList])] }
      "up".toList
      { m_line_index := 1, m_token_index := 1, m_script := ["a b".toList],
        m_tokens := ["a".toList, "b".toList] }).2.1
      ["ifup eth0".toList, "echo 1".toList] (by rfl)).1,
    ((script_fetch { CConfigFile.new with m_throw_on_fail := false } "down".toList
      { m_line_index := 1, m_token_index := 1, m_script := ["a b".toList],
        m_tokens := ["a".toList, "b".toList] }).2.2 rfl (by decide)).1⟩

/-! ## The error of a failed lookup -/

theorem c_str_append (a b : Str) (ha : NUL ∉ a) : c_str (a ++ b) = a ++ c_str b := by
  induction a with
  | nil => rfl
  | cons c cs ih =>
    have hc : c ≠ NUL := fun e => ha (by simp [e])
    have hcs : NUL ∉ cs := fun e => ha (List.mem_cons_of_mem _ e)
    simp [c_str, hc, ih hcs]

theorem c_str_append_of_mem (a b : Str) (ha : NUL ∈ a) : c_str (a ++ b) = c_str a := by
  induction a with
  | nil => simp at ha
  | cons c cs ih =>
    by_cases hc : c = NUL
    · simp [c_str, hc]
    · have hcs : NUL ∈ cs := by
        rcases List.mem_cons.1 ha with e | e
        · exact absurd e.symm hc
        · exact e
      simp [c_str, hc, ih hcs]

/-- The text of the error on a key without NUL: the key between the two fixed
parts. -/
theorem not_found_message_of_no_nul (key : Str) (h : NUL ∉ key) :
    not_found_message key =
      "config key ".toList ++ [SQUOTE] ++ key ++ [SQUOTE] ++ " not found".toList := by
  unfold not_found_message
  apply c_str_of_no_nul
  simp only [List.mem_append, not_or]
  exact ⟨⟨⟨⟨by decide, by decide⟩, h⟩, by decide⟩, by decide⟩

/-- The text of the error on a key that holds a NUL: it ends with the part of
the key before the NUL. -/
theorem not_found_message_of_nul (key : Str) (h : NUL ∈ key) :
    not_found_message key = "config key ".toList ++ [SQUOTE] ++ c_str key := by
  unfold not_found_message
  rw [List.append_assoc, List.append_assoc, List.append_assoc,
    c_str_append _ _ (by decide), c_str_append _ _ (by decide),
    c_str_append_of_mem key _ h, List.append_assoc]

/-- C3 as worded fails on a key that holds a NUL: for the key `A`, NUL, `B`,
which a new store does not hold, the text of the error thrown by `lookup` is
`config key 'A`; it holds no NUL, so it does not carry the key as passed. -/
theorem lookup_contract_counterexample :
    (CConfigFile.new.exists ['A', NUL, 'B']).1 = false ∧
    CConfigFile.new.lookup ['A', NUL, 'B'] =
      Except.error ("config key ".toList ++ [SQUOTE] ++ ['A']) ∧
    NUL ∉ "config key ".toList ++ [SQUOTE] ++ ['A'] ∧ NUL ∈ ['A', NUL, 'B'] := by
  refine ⟨by decide, by rfl, by decide, by decide⟩

/-- C3 (amended): on a key that `exists` does not find, strict-mode `lookup`
throws the error whose text is `config key '`, the key and `' not found`, with
the key as passed when it holds no NUL, and cut before its first NUL, with
nothing after it, when it holds one; a new store is strict; lenient-mode
`lookup` returns false and throws nothing. On a key that `exists` finds,
`lookup` returns true with the value list of `exists`, whatever the mode. -/
theorem lookup_contract (cf : CConfigFile) (key : Str) :
    CConfigFile.new.m_throw_on_fail = true ∧
    ((cf.exists key).1 = false → cf.m_throw_on_fail = true →
      (NUL ∉ key → cf.lookup key = Except.error
        ("config key ".toList ++ [SQUOTE] ++ key ++ [SQUOTE] ++ " not found".toList)) ∧
      (NUL ∈ key → cf.lookup key = Except.error
        ("config key ".toList ++ [SQUOTE] ++ c_str key))) ∧
    ((cf.exists key).1 = false → cf.m_throw_on_fail = false →
      cf.lookup key = Except.ok (false, [])) ∧
    ((cf.exists key).1 = true →
      cf.lookup key = Except.ok (true, (cf.exists key).2)) := by
  refine ⟨rfl, ?_, ?_, ?_⟩
  · intro h ht
    have e : cf.lookup key = Except.error (not_found_message key) := by
      simp [CConfigFile.lookup, h, ht]
    exact ⟨fun hn => by rw [e, not_found_message_of_no_nul key hn],
      fun hn => by rw [e, not_found_message_of_nul key hn]⟩
  · intro h ht
    simp [CConfigFile.lookup, h, ht, exists_snd_of_not_found cf key h]
  · intro h
    simp [CConfigFile.lookup, h]

/-- C3 (amended) on a new store (strict), on the same store made lenient, and
on a store holding the key. -/
theorem lookup_contract_witness :
    CConfigFile.new.lookup "Tmp".toList =
      Except.error ("config key ".toList ++ [SQUOTE] ++ "Tmp".toList ++ [SQUOTE] ++
        " not found".toList) ∧
    (CConfigFile.new.throw_on_fail false).lookup "Tmp".toList = Except.ok (false, []) ∧
    ({ CConfigFile.new with m_specs := [("::tmp".toList, ["/tmp".toList])] } : CConfigFile).lookup
      "Tmp".toList = Except.ok (true, ["/tmp".toList]) := by
  refine ⟨?_, ?_, ?_⟩
  · exact ((lookup_contract CConfigFile.new "Tmp".toList).2.1 (by decide) (by decide)).1
      (by decide)
  · exact (lookup_contract (CConfigFile.new.throw_on_fail false) "Tmp".toList).2.2.1
      (by decide) (by decide)
  · exact ((lookup_contract _ "Tmp".toList).2.2.2 (by decide)).trans (by rfl)

/-! ## The members of the store after a call -/

/-- `exists`, followed through its body, leaves the object as it was and
returns what `CConfigFile.exists` gives. -/
theorem call_exists_eq (cf : CConfigFile) (key : Str) :
    cf.call_exists key = (cf, cf.exists key) := by
  unfold CConfigFile.call_exists CConfigFile.exists std_map_find
  simp only []
  split
  · cases map_find cf.m_specs (make_lower key) <;> rfl
  · cases map_find cf.m_specs (cf.m_current_section ++ SCOPE ++ make_lower key) with
    | some v => rfl
    | none =>
      simp only []
      cases map_find cf.m_specs (SCOPE ++ make_lower key) <;> rfl

theorem call_lookup_eq (cf : CConfigFile) (key : Str) :
    cf.call_lookup key = (cf, cf.lookup key) := by
  unfold CConfigFile.call_lookup CConfigFile.lookup
  simp only [call_exists_eq]
  split
  · rfl
  · split <;> rfl

theorem call_get_eq (cf : CConfigFile) (key fmt : Str) (output : List Bool) :
    cf.call_get key fmt output = (cf, cf.get key fmt output) := by
  unfold CConfigFile.call_get CConfigFile.get
  simp only [call_lookup_eq]
  cases cf.lookup key with
  | error e => rfl
  | ok r =>
    obtain ⟨found, values⟩ := r
    simp only []
    split <;> rfl

theorem call_get_vector_eq {α : Type} (decode : Str → α) (cf : CConfigFile) (key : Str)
    (p_result : List α) :
    cf.call_get_vector decode key p_result = (cf, cf.get_vector decode key p_result) := by
  unfold CConfigFile.call_get_vector CConfigFile.get_vector
  simp only [call_lookup_eq]
  cases cf.lookup key with
  | error e => rfl
  | ok r =>
    obtain ⟨found, values⟩ := r
    simp only []
    split <;> rfl

theorem call_get_script_eq (cf : CConfigFile) (key : Str) (p_script : CConfigScript) :
    cf.call_get_script key p_script = (cf, cf.get_script key p_script) := by
  unfold CConfigFile.call_get_script CConfigFile.get_script
  simp only [call_lookup_eq]
  cases cf.lookup key with
  | error e => rfl
  | ok r =>
    obtain ⟨found, values⟩ := r
    simp only []
    split <;> rfl

theorem call_get_script_vector_eq (cf : CConfigFile) (key : Str) :
    cf.call_get_script_vector key = (cf, cf.get_script_vector key) := by
  unfold CConfigFile.call_get_script_vector CConfigFile.get_script_vector
  simp only [call_lookup_eq]
  cases cf.lookup key with
  | error e => rfl
  | ok r =>
    obtain ⟨found, values⟩ := r
    simp only []
    split <;> rfl

/-- A call other than `set_current_section` leaves the store as it was. -/
theorem after_fetch (cf : CConfigFile) (call : Call)
    (h : ∀ s, call ≠ Call.set_current_section s) : cf.after call = cf := by
  cases call with
  | «exists» key => simp only [CConfigFile.after, call_exists_eq]
  | lookup key => simp only [CConfigFile.after, call_lookup_eq]
  | get key fmt output => simp only [CConfigFile.after, call_get_eq]
  | get_int32 key output => simp only [CConfigFile.after, call_get_eq]
  | get_double key output => simp only [CConfigFile.after, call_get_eq]
  | get_string key output => simp only [CConfigFile.after, call_get_eq]
  | get_bool key output => simp only [CConfigFile.after, call_get_eq]
  | get_int32_vector key p_result => simp only [CConfigFile.after, call_get_vector_eq]
  | get_double_vector key p_result => simp only [CConfigFile.after, call_get_vector_eq]
  | get_string_vector key p_result => simp only [CConfigFile.after, call_get_vector_eq]
  | get_bool_vector key p_result => simp only [CConfigFile.after, call_get_vector_eq]
  | get_script key p_script => simp only [CConfigFile.after, call_get_script_eq]
  | get_script_vector key => simp only [CConfigFile.after, call_get_script_vector_eq]
  | set_current_section s => exact absurd rfl (h s)

/-- No call changes the mapping or the failure mode. -/
theorem after_members (cf : CConfigFile) (call : Call) :
    (cf.after call).m_specs = cf.m_specs ∧
    (cf.after call).m_throw_on_fail = cf.m_throw_on_fail := by
  by_cases h : ∀ s, call ≠ Call.set_current_section s
  · rw [after_fetch cf call h]
    exact ⟨rfl, rfl⟩
  · simp only [not_forall, not_not] at h
    obtain ⟨s, rfl⟩ := h
    exact ⟨rfl, rfl⟩

/-- C26: each of `exists`, `lookup` and the scalar, vector and script
fetches, followed through its body, leaves the store as it was, whether the
key is found or not and also when `lookup` throws, and returns what the fetch
gives; so no sequence of calls changes the mapping or the failure mode;
`set_current_section` of s sets the current section to s lowercased and
leaves the mapping and the failure mode as they were, so a fully scoped key is
resolved as before. -/
theorem store_read_only (cf : CConfigFile) :
    (∀ key, cf.call_exists key = (cf, cf.exists key)) ∧
    (∀ key, cf.call_lookup key = (cf, cf.lookup key)) ∧
    (∀ key fmt output, cf.call_get key fmt output = (cf, cf.get key fmt output)) ∧
    (∀ key output, cf.call_get key "i".toList output = (cf, cf.get_int32 key output) ∧
      cf.call_get key "f".toList output = (cf, cf.get_double key output) ∧
      cf.call_get key "s".toList output = (cf, cf.get_string key output) ∧
      cf.call_get key "b".toList output = (cf, cf.get_bool key output)) ∧
    (∀ key p, cf.call_get_vector decode_int key p = (cf, cf.get_int32_vector key p)) ∧
    (∀ key p, cf.call_get_vector decode_double key p = (cf, cf.get_double_vector key p)) ∧
    (∀ key p, cf.call_get_vector decode_string key p = (cf, cf.get_string_vector key p)) ∧
    (∀ key p, cf.call_get_vector decode_bool key p = (cf, cf.get_bool_vector key p)) ∧
    (∀ key p, cf.call_get_script key p = (cf, cf.get_script key p)) ∧
    (∀ key, cf.call_get_script_vector key = (cf, cf.get_script_vector key)) ∧
    (∀ call : Call, (∀ s, call ≠ Call.set_current_section s) → cf.after call = cf) ∧
    (∀ calls : List Call, (calls.foldl CConfigFile.after cf).m_specs = cf.m_specs ∧
      (calls.foldl CConfigFile.after cf).m_throw_on_fail = cf.m_throw_on_fail) ∧
    (∀ s, (cf.after (Call.set_current_section s)).m_specs = cf.m_specs ∧
      (cf.after (Call.set_current_section s)).m_throw_on_fail = cf.m_throw_on_fail ∧
      (cf.after (Call.set_current_section s)).m_current_section = make_lower s ∧
      (NUL ∉ s → make_lower s = s.map Char.toLower) ∧
      ∀ key, has_scope (make_lower key) = true →
        (cf.after (Call.set_current_section s)).exists key = cf.exists key) := by
  refine ⟨call_exists_eq cf, call_lookup_eq cf, call_get_eq cf,
    fun key output => ⟨call_get_eq cf _ _ _, call_get_eq cf _ _ _, call_get_eq cf _ _ _,
      call_get_eq cf _ _ _⟩,
    fun key p => call_get_vector_eq _ cf key p, fun key p => call_get_vector_eq _ cf key p,
    fun key p => call_get_vector_eq _ cf key p, fun key p => call_get_vector_eq _ cf key p,
    call_get_script_eq cf, call_get_script_vector_eq cf, after_fetch cf, ?_, ?_⟩
  · intro calls
    induction calls generalizing cf with
    | nil => exact ⟨rfl, rfl⟩
    | cons c cs ih =>
      rw [List.foldl_cons]
      obtain ⟨h1, h2⟩ := ih (cf.after c)
      obtain ⟨h3, h4⟩ := after_members cf c
      rw [h1, h2, h3, h4]
      exact ⟨rfl, rfl⟩
  · intro s
    exact ⟨rfl, rfl, rfl, fun h => make_lower_eq_map s h,
      fun key h => exists_scoped_any_section cf s key h⟩

/-- C26 on a store that holds `net::ip`: after `set_current_section` of `Net`,
a failed `exists` and a fetch, the mapping is as before and the current
section is `net`. -/
theorem store_read_only_witness :
    ([Call.set_current_section "Net".toList, Call.exists "none".toList,
        Call.get_int32 "ip".toList [true]].foldl CConfigFile.after
      { CConfigFile.new with m_specs := [("net::ip".toList, ["1".toList])] }) =
      { m_throw_on_fail := true, m_current_section := "net".toList,
        m_specs := [("net::ip".toList, ["1".toList])] } ∧
    make_lower "Net".toList = "Net".toList.map Char.toLower :=
  ⟨by decide,
    (((store_read_only
      { CConfigFile.new with m_specs := [("net::ip".toList, ["1".toList])] }).2.2.2.2.2.2.2.2.2.2.2.2
        "Net".toList).2.2.2.1) (by decide)⟩

/-! ## Two key lines and a script block -/

end SmartLynq
